import Mathlib

/-!
# wordgen: pattern compiler and stochastic expansion

A shallow embedding of `pkg/wordgen/pattern.go` and `pkg/wordgen/generator.go`.

* A Go `rune` is an `Int` (it is an `int32`; the sentinel `EOF` is `rune(-1)`).
* A Go `uint` is a `Nat` kept below `2 ^ 64`; the two places where the source can
  wrap (`rngMax-rngMin` and `times+rngMin`) reduce modulo `2 ^ 64` explicitly.
* A length (a Go `int`) is a `Nat`: every unit of it is a byte written to the
  `strings.Builder`, so it stays far below `2 ^ 63`.
* A Go `string` that was produced from runes, and the content of the
  `strings.Builder`, is the list of code points it encodes; `utf8Len` gives the
  number of bytes of each.
* The scanner is the source and a position; every method returns the new position.
* Loops and recursion are bounded by a first argument that decreases structurally;
  `none` (for the parser) and `Exec.outOfFuel` (for generation, which need not
  terminate on a production that refers to itself) mark an exhausted bound.
* The parts of the Go standard library the package calls but that are not part of the
  repository (the Unicode range tables beyond ASCII, the floating point scaling inside
  `times`, the generator behind `rand.NewSource`) are fields of a parameter `Lib`;
  every theorem holds for every value of it.
-/

namespace Wordgen

/-- A Go `rune`. -/
abbrev Rune := Int

/-- A Go `string` built from runes, as the sequence of code points it encodes. -/
abbrev GoString := List Rune

/-- The code point of a character literal. -/
def chr (c : Char) : Rune := (c.toNat : Int)

/-- The `[]rune` conversion of a string literal. -/
def runes (s : String) : List Rune := s.toList.map chr

/-- The constant `EOF = rune(-1)`. -/
def EOF : Rune := -1

/-- The size of the `uint` type. -/
def uintSize : Nat := 2 ^ 64

/-- The constant `math.MaxInt64`. -/
def maxInt64 : Nat := 2 ^ 63 - 1

/-- The standard library behaviour the package relies on and the repository does not
contain. -/
structure Lib where
  /-- The table behind `unicode.IsNumber` for the code points above ASCII. -/
  numberTable : Rune → Bool
  /-- The table behind `unicode.IsLetter` for the code points above ASCII. -/
  letterTable : Rune → Bool
  /-- The value `uint(math.Round(float64(r) / float64(math.MaxInt64) * float64(span)))`
  for a raw draw `r` and a span `span`. -/
  roundScale : Nat → Nat → Nat
  /-- The sequence of `Int63` results of `rand.NewSource(seed)`. -/
  newSource : Int → Nat → Nat

/-- The error values the package creates, one constructor per message. -/
inductive Error where
  /-- The variable `eofError`: "Unexpected end of pattern". -/
  | eofError
  /-- The variable `syntaxError`: "Invalid pattern syntax" (declared, never returned). -/
  | syntaxError
  /-- The message "Invalid number". -/
  | invalidNumber
  /-- The message "Invalid identifier". -/
  | invalidIdentifier
  /-- The message "Expected ','". -/
  | expectedComma
  /-- The message "Expected '}'". -/
  | expectedBrace
  /-- The message "Unknown production: " followed by the name. -/
  | unknownProduction (name : GoString)
  /-- The `strconv.ErrSyntax` error of `strconv.Atoi`. -/
  | atoiSyntax (s : GoString)
  /-- The `strconv.ErrRange` error of `strconv.Atoi`. -/
  | atoiRange (s : GoString)
  deriving DecidableEq, Repr

/-- The types of the package that implement the interface `Generator`. -/
inductive Generator where
  /-- The struct `Pattern{src, gen}`. -/
  | pattern (src : GoString) (gen : Generator)
  /-- The struct `Particle{min, max, val}`. -/
  | particle (min max : Nat) (val : Rune)
  /-- The struct `Production{min, max, name, prod}`; `none` is a nil `prod`. -/
  | production (min max : Nat) (name : GoString) (prod : Option Generator)
  /-- The struct `AltGroup{min, max, alt}`. -/
  | altGroup (min max : Nat) (alt : List Generator)
  /-- The struct `SeqGroup{min, max, seq}`. -/
  | seqGroup (min max : Nat) (seq : List Generator)
  deriving Repr

/-- The struct `Pattern`. -/
structure Pattern where
  src : GoString
  gen : Generator
  deriving Repr

/-- A `Pattern` used as a `Generator` (as the command does when it fills the table). -/
def Pattern.toGenerator (p : Pattern) : Generator := Generator.pattern p.src p.gen

/-! ## Standard library helpers -/

/-- Whether a rune is a surrogate or outside the Unicode range (what `string(rune)` and
`utf8.AppendRune` replace by U+FFFD). -/
def invalidRune (r : Rune) : Bool :=
  decide (r < 0) || decide (0x10FFFF < r) || (decide (0xD800 ≤ r) && decide (r ≤ 0xDFFF))

/-- The function `unicode.IsNumber`: on ASCII the decimal digits, on surrogates and
outside the Unicode range nothing, elsewhere the library table. -/
def IsNumber (L : Lib) (r : Rune) : Bool :=
  if invalidRune r then false
  else if r < 0x80 then decide (0x30 ≤ r) && decide (r ≤ 0x39)
  else L.numberTable r

/-- The function `unicode.IsLetter`: on ASCII the letters `A-Z` and `a-z`, on surrogates
and outside the Unicode range nothing, elsewhere the library table. -/
def IsLetter (L : Lib) (r : Rune) : Bool :=
  if invalidRune r then false
  else if r < 0x80 then
    (decide (0x41 ≤ r) && decide (r ≤ 0x5A)) || (decide (0x61 ≤ r) && decide (r ≤ 0x7A))
  else L.letterTable r

/-- The conversion `string(rs)` of a `[]rune`: an invalid rune becomes U+FFFD. -/
def runesToString (rs : List Rune) : GoString :=
  rs.map (fun r => if invalidRune r then 0xFFFD else r)

/-- The number of bytes `utf8.AppendRune` writes for a rune. -/
def utf8Len (r : Rune) : Nat :=
  if invalidRune r then 3
  else if r ≤ 0x7F then 1
  else if r ≤ 0x7FF then 2
  else if r ≤ 0xFFFF then 3
  else 4

/-- The loop of `strconv.ParseUint` in base 10 over the code points of the string: the
first code point that is not an ASCII digit is a syntax error, an overflow of 64 bits
met before it is a range error. `none` is the syntax error, `some none` the range
error. -/
def parseUintLoop : List Rune → Nat → Option (Option Nat)
  | [], n => some (some n)
  | r :: rs, n =>
    if decide (0x30 ≤ r) && decide (r ≤ 0x39) then
      if n ≥ (uintSize - 1) / 10 + 1 then some none
      else
        let n1 := n * 10 + (r - 0x30).toNat
        if n1 ≥ uintSize then some none else parseUintLoop rs n1
    else none

/-- The function `strconv.Atoi` on a non-empty string without a sign: the value and
the error. A syntax error returns 0, a range error returns `math.MaxInt64`. -/
def Atoi (s : GoString) : Nat × Option Error :=
  match parseUintLoop s 0 with
  | none => (0, some (Error.atoiSyntax s))
  | some none => (maxInt64, some (Error.atoiRange s))
  | some (some n) => if n ≥ 2 ^ 63 then (maxInt64, some (Error.atoiRange s)) else (n, none)

/-! ## The scanner -/

/-- The method `scanner.peek`. -/
def peek (src : List Rune) (pos : Nat) : Rune :=
  if pos ≥ src.length then EOF else src.getD pos EOF

/-- The method `scanner.next`: the rune and the new position. -/
def next (src : List Rune) (pos : Nat) : Rune × Nat :=
  if pos ≥ src.length then (EOF, pos) else (src.getD pos EOF, pos + 1)

/-- The loop of `scanInteger`: consumes runes while `unicode.IsNumber` holds. The first
argument bounds the number of iterations; `src.length - pos` is always enough, since
the loop stops at the end of the source. -/
def scanIntegerLoop (L : Lib) (src : List Rune) : Nat → Nat → List Rune → List Rune × Nat
  | 0, pos, str => (str, pos)
  | k + 1, pos, str =>
    let ch := peek src pos
    if IsNumber L ch then scanIntegerLoop L src k (next src pos).2 (str ++ [ch])
    else (str, pos)

/-- The method `scanner.scanInteger`: the value, the error and the new position. -/
def scanInteger (L : Lib) (src : List Rune) (pos : Nat) : Nat × Option Error × Nat :=
  let (str, pos1) := scanIntegerLoop L src (src.length - pos) pos []
  if str.length > 0 then
    let (val, err) := Atoi (runesToString str)
    (val, err, pos1)
  else (0, some Error.invalidNumber, pos1)

/-- The inner loop of `scanIdent`: consumes letters, numbers and underscores. -/
def scanIdentLoop (L : Lib) (src : List Rune) : Nat → Nat → List Rune → List Rune × Nat
  | 0, pos, val => (val, pos)
  | k + 1, pos, val =>
    let ch := peek src pos
    if !(IsLetter L ch || IsNumber L ch || decide (ch = chr '_')) then (val, pos)
    else scanIdentLoop L src k (next src pos).2 (val ++ [ch])

/-- The method `scanner.scanIdent`: the name, the error and the new position. -/
def scanIdent (L : Lib) (src : List Rune) (pos : Nat) : GoString × Option Error × Nat :=
  let ch := peek src pos
  if IsLetter L ch || decide (ch = chr '_') then
    let pos1 := (next src pos).2
    let (val, pos2) := scanIdentLoop L src (src.length - pos1) pos1 [ch]
    (runesToString val, none, pos2)
  else (runesToString [], some Error.invalidIdentifier, pos)

/-- The method `scanner.scanRange`: `rngMin`, `rngMax`, the error and the new position. -/
def scanRange (L : Lib) (src : List Rune) (pos : Nat) : Nat × Nat × Option Error × Nat :=
  let ch := peek src pos
  if ch = chr '?' then
    (0, 1, none, (next src pos).2)
  else if ch = chr '{' then
    let pos1 := (next src pos).2
    match scanInteger L src pos1 with
    | (rngMin, some e, pos2) => (rngMin, 1, some e, pos2)
    | (rngMin, none, pos2) =>
      let (ch2, pos3) := next src pos2
      if ch2 ≠ chr ',' then (rngMin, 1, some Error.expectedComma, pos3)
      else
        match scanInteger L src pos3 with
        | (rngMax, some e, pos4) => (rngMin, rngMax, some e, pos4)
        | (rngMax, none, pos4) =>
          let (ch3, pos5) := next src pos4
          if ch3 ≠ chr '}' then (rngMin, rngMax, some Error.expectedBrace, pos5)
          else (rngMin, rngMax, none, pos5)
  else (1, 1, none, pos)

/-- The result of a parsing method: the generator (`none` is nil), the error (`none` is
nil) and the new scanner position. -/
abbrev Scanned := Option Generator × Option Error × Nat

/-- The method `scanner.scanProduction`. -/
def scanProduction (L : Lib) (src : List Rune) (pos : Nat) : Scanned :=
  if peek src pos = EOF then (none, some Error.eofError, pos)
  else
    match scanIdent L src pos with
    | (name, none, pos1) =>
      let (rngMin, rngMax, err, pos2) := scanRange L src pos1
      (some (Generator.production rngMin rngMax name none), err, pos2)
    | (_, some e, pos1) => (none, some e, pos1)

/-- The loop shared by `scanAltGroup` and `scanSeqGroup`, for the closing rune `close`:
the children collected, or the error of the failing `scanNext(false)`. `scanNext` is
the recursive call; the first argument bounds the number of iterations and `none` is
returned when it, or the recursive call, runs out (and in the case the source cannot
reach, `scanNext(false)` returning a nil generator with a nil error). -/
def scanGroupLoop (close : Rune) (src : List Rune) (scanNext : Nat → Option Scanned) :
    Nat → Nat → List Generator → Option (Option (List Generator) × Option Error × Nat)
  | 0, _, _ => none
  | k + 1, pos, acc =>
    if peek src pos = close then some (some acc, none, (next src pos).2)
    else
      match scanNext pos with
      | none => none
      | some (_, some e, pos1) => some (none, some e, pos1)
      | some (none, none, _) => none
      | some (some gen, none, pos1) => scanGroupLoop close src scanNext k pos1 (acc ++ [gen])

/-- The method `scanner.scanAltGroup`; the error of the trailing `scanRange` is
discarded, as in the source. -/
def scanAltGroup (L : Lib) (src : List Rune) (scanNext : Nat → Option Scanned)
    (pos : Nat) : Option Scanned :=
  match scanGroupLoop (chr ']') src scanNext (src.length - pos + 1) pos [] with
  | none => none
  | some (some alt, _, pos1) =>
    let (min, max, _, pos2) := scanRange L src pos1
    some (some (Generator.altGroup min max alt), none, pos2)
  | some (none, err, pos1) => some (none, err, pos1)

/-- The method `scanner.scanSeqGroup`; the error of the trailing `scanRange` is
discarded, as in the source. -/
def scanSeqGroup (L : Lib) (src : List Rune) (scanNext : Nat → Option Scanned)
    (pos : Nat) : Option Scanned :=
  match scanGroupLoop (chr ')') src scanNext (src.length - pos + 1) pos [] with
  | none => none
  | some (some seq, _, pos1) =>
    let (min, max, _, pos2) := scanRange L src pos1
    some (some (Generator.seqGroup min max seq), none, pos2)
  | some (none, err, pos1) => some (none, err, pos1)

/-- The method `scanner.scanNext`. The first argument bounds the number of passes
through the label `retry` plus the nesting depth of groups; `none` is returned when it
runs out. -/
def scanNext (L : Lib) (src : List Rune) : Nat → Nat → Bool → Option Scanned
  | 0, _, _ => none
  | fuel + 1, pos, allowEof =>
    let (ch, pos1) := next src pos
    if ch = chr '\t' ∨ ch = chr ' ' then scanNext L src fuel pos1 allowEof
    else if ch = chr '\\' then scanNext L src fuel (next src pos1).2 false
    else if ch = chr '[' then
      scanAltGroup L src (fun p => scanNext L src fuel p false) pos1
    else if ch = chr '(' then
      scanSeqGroup L src (fun p => scanNext L src fuel p false) pos1
    else if ch = chr '$' then some (scanProduction L src pos1)
    else if ch = EOF then
      if !allowEof then some (none, some Error.eofError, pos1) else some (none, none, pos1)
    else
      let (rngMin, rngMax, err, pos2) := scanRange L src pos1
      some (some (Generator.particle rngMin rngMax ch), err, pos2)

/-- The loop of `MakePattern`: the children collected and the error it stopped with. -/
def makePatternLoop (L : Lib) (src : List Rune) :
    Nat → Nat → List Generator → Option (List Generator × Option Error)
  | 0, _, _ => none
  | k + 1, pos, seq =>
    match scanNext L src (src.length + 1) pos true with
    | none => none
    | some (_, some e, _) => some (seq, some e)
    | some (none, none, _) => some (seq, none)
    | some (some gen, none, pos1) => makePatternLoop L src k pos1 (seq ++ [gen])

/-- The function `MakePattern`; `none` only if an iteration bound ran out. -/
def MakePattern (L : Lib) (src : List Rune) : Option (Pattern × Option Error) :=
  match makePatternLoop L src (src.length + 1) 0 [] with
  | none => none
  | some (seq, err) =>
    some ({ src := runesToString src, gen := Generator.seqGroup 1 1 seq }, err)

/-! ## The generation context -/

/-- The interface `rand.Source`: the sequence of `Int63` results and how many of them
have been drawn. -/
structure Source where
  draws : Nat → Nat
  pos : Nat

/-- The struct `Ctx`: the `strings.Builder` (the code points written to it), the random
source and the production table (`none` is a missing key). -/
structure Ctx where
  Builder : List Rune
  rnd : Source
  tbl : GoString → Option Generator

/-- The function `MakeCtx`. -/
def MakeCtx (L : Lib) (seed : Int) (prod : GoString → Option Generator) : Ctx :=
  { Builder := [], rnd := { draws := L.newSource seed, pos := 0 }, tbl := prod }

/-- The call `ctx.rnd.Int63()`: a value below `2 ^ 63` and the context after the draw. -/
def Int63 (ctx : Ctx) : Nat × Ctx :=
  (ctx.rnd.draws ctx.rnd.pos % 2 ^ 63, { ctx with rnd := { ctx.rnd with pos := ctx.rnd.pos + 1 } })

/-- What a call of a `Generate` method does: it returns a length and an error (`none`
is nil) in a new context, or it panics, or the model's recursion bound ran out. -/
inductive Exec where
  /-- The call returned `(len, err)`. -/
  | ret (ctx : Ctx) (len : Nat) (err : Option Error)
  /-- The run-time panic "integer divide by zero". -/
  | divideByZero (ctx : Ctx)
  /-- The recursion bound of the model ran out. -/
  | outOfFuel

/-- The call `ctx.Builder.WriteRune(val)`: appends the rune (U+FFFD for an invalid one)
and returns the number of bytes of its UTF-8 encoding, with a nil error. -/
def WriteRune (ctx : Ctx) (val : Rune) : Exec :=
  Exec.ret { ctx with Builder := ctx.Builder ++ runesToString [val] } (utf8Len val) none

/-- The `for` loop of `times`: runs `f` up to `n` times, adding the lengths to `currLen`
and stopping at the first error. -/
def timesLoop (f : Ctx → Exec) : Nat → Ctx → Nat → Exec
  | 0, ctx, currLen => Exec.ret ctx currLen none
  | n + 1, ctx, currLen =>
    match f ctx with
    | Exec.ret ctx1 len none => timesLoop f n ctx1 (currLen + len)
    | Exec.ret ctx1 len (some e) => Exec.ret ctx1 (currLen + len) (some e)
    | Exec.divideByZero ctx1 => Exec.divideByZero ctx1
    | Exec.outOfFuel => Exec.outOfFuel

/-- The number of repetitions `times` chooses from a raw draw `r`. -/
def timesCount (L : Lib) (rngMin rngMax r : Nat) : Nat :=
  let t := L.roundScale r ((rngMax + uintSize - rngMin) % uintSize) % uintSize
  min (max ((t + rngMin) % uintSize) rngMin) rngMax

/-- The function `times`. -/
def times (L : Lib) (ctx : Ctx) (rngMin rngMax : Nat) (f : Ctx → Exec) : Exec :=
  if rngMin ≠ rngMax then
    let (r, ctx1) := Int63 ctx
    timesLoop f (timesCount L rngMin rngMax r) ctx1 0
  else timesLoop f rngMin ctx 0

/-- The loop in the action of `SeqGroup.Generate`: every child in order, adding the
lengths and stopping at the first error. -/
def seqLoop (gen : Generator → Ctx → Exec) : List Generator → Ctx → Nat → Exec
  | [], ctx, currLen => Exec.ret ctx currLen none
  | g :: gs, ctx, currLen =>
    match gen g ctx with
    | Exec.ret ctx1 len none => seqLoop gen gs ctx1 (currLen + len)
    | Exec.ret ctx1 len (some e) => Exec.ret ctx1 (currLen + len) (some e)
    | Exec.divideByZero ctx1 => Exec.divideByZero ctx1
    | Exec.outOfFuel => Exec.outOfFuel

/-- The action of `Production.Generate`. The field `prod` of the receiver's copy caches
the table entry between the repetitions of one call; the table is never written, so the
cached entry is the one a new lookup finds. -/
def productionAction (gen : Generator → Ctx → Exec) (name : GoString)
    (prod : Option Generator) (ctx : Ctx) : Exec :=
  match prod with
  | some p => gen p ctx
  | none =>
    match ctx.tbl name with
    | none => Exec.ret ctx 0 (some (Error.unknownProduction name))
    | some p => gen p ctx

/-- The action of `AltGroup.Generate`: one draw, reduced modulo the number of children. -/
def altAction (gen : Generator → Ctx → Exec) (alt : List Generator) (ctx : Ctx) : Exec :=
  let (r, ctx1) := Int63 ctx
  if alt.length = 0 then Exec.divideByZero ctx1
  else
    match alt.get? (r % alt.length) with
    | some g => gen g ctx1
    | none => Exec.divideByZero ctx1

/-- The methods `Generate` of the five types. The first argument bounds the depth of
nested `Generate` calls (a production may refer to itself). -/
def Generate (L : Lib) : Nat → Generator → Ctx → Exec
  | 0, _, _ => Exec.outOfFuel
  | fuel + 1, Generator.pattern _ gen, ctx => Generate L fuel gen ctx
  | _ + 1, Generator.particle min max val, ctx =>
    times L ctx min max (fun c => WriteRune c val)
  | fuel + 1, Generator.production min max name prod, ctx =>
    times L ctx min max (productionAction (Generate L fuel) name prod)
  | fuel + 1, Generator.altGroup min max alt, ctx =>
    times L ctx min max (altAction (Generate L fuel) alt)
  | fuel + 1, Generator.seqGroup min max seq, ctx =>
    times L ctx min max (fun c => seqLoop (Generate L fuel) seq c 0)

/-- The method `Pattern.Generate`. -/
def Pattern.Generate (L : Lib) (fuel : Nat) (p : Pattern) (ctx : Ctx) : Exec :=
  Wordgen.Generate L fuel p.gen ctx

/-! ## Vocabulary of the specification -/

/-- The error taxonomy of the specification. -/
inductive ErrorKind where
  | UnexpectedEOF
  | SyntaxError
  | InvalidIdentifier
  | InvalidNumber
  | UnknownProduction
  | EmptyAlternation
  deriving DecidableEq, Repr

/-- The kind the specification gives to each error of the source: `SyntaxError` is a
missing `,` or `}` of a range (and the unused `syntaxError`), `InvalidNumber` a
malformed integer literal. No error of the source has the kind `EmptyAlternation`. -/
def Error.kind : Error → ErrorKind
  | Error.eofError => ErrorKind.UnexpectedEOF
  | Error.syntaxError => ErrorKind.SyntaxError
  | Error.expectedComma => ErrorKind.SyntaxError
  | Error.expectedBrace => ErrorKind.SyntaxError
  | Error.invalidNumber => ErrorKind.InvalidNumber
  | Error.atoiSyntax _ => ErrorKind.InvalidNumber
  | Error.atoiRange _ => ErrorKind.InvalidNumber
  | Error.invalidIdentifier => ErrorKind.InvalidIdentifier
  | Error.unknownProduction _ => ErrorKind.UnknownProduction

mutual
/-- Whether every node of an AST carries a range with `min ≤ max`. -/
def Generator.rangesOK : Generator → Bool
  | Generator.pattern _ g => g.rangesOK
  | Generator.particle min max _ => decide (min ≤ max)
  | Generator.production min max _ none => decide (min ≤ max)
  | Generator.production min max _ (some g) => decide (min ≤ max) && g.rangesOK
  | Generator.altGroup min max alt => decide (min ≤ max) && rangesOKList alt
  | Generator.seqGroup min max seq => decide (min ≤ max) && rangesOKList seq
/-- Whether every node of every AST of a list carries a range with `min ≤ max`. -/
def rangesOKList : List Generator → Bool
  | [] => true
  | g :: gs => g.rangesOK && rangesOKList gs
end

/-- Whether a rune may continue an identifier for `scanIdent`. -/
def identChar (L : Lib) (r : Rune) : Bool :=
  IsLetter L r || IsNumber L r || decide (r = chr '_')

/-- Whether a rune may start an identifier for `scanIdent`. -/
def identStart (L : Lib) (r : Rune) : Bool :=
  IsLetter L r || decide (r = chr '_')

/-- Whether a rune sequence is an identifier: `(letter|'_') (letter|digit|'_')*`. -/
def isIdent (L : Lib) : List Rune → Bool
  | [] => false
  | c :: rest => identStart L c && rest.all (identChar L)

/-- A production table with one entry. -/
def singleTable (name : GoString) (g : Generator) : GoString → Option Generator :=
  fun k => if k = name then some g else none

/-- The empty production table. -/
def emptyTable : GoString → Option Generator := fun _ => none

/-- The values an alternation over Particles with the values `vals` selects with `k`
successive draws, the first at position `pos` of the stream: the value at index
`r % vals.length` for each raw draw `r`. -/
def altPicks (vals : List Rune) (draws : Nat → Nat) : Nat → Nat → List Rune
  | _, 0 => []
  | pos, k + 1 =>
    vals.getD (draws pos % 2 ^ 63 % vals.length) 0 :: altPicks vals draws (pos + 1) k

/-- The children of a sequence run one after the other from the context `c`: each
child returns without error, appends `out` to the accumulator and reports `len`; the
context after the last child is the last argument. -/
inductive SeqRun (gen : Generator → Ctx → Exec) :
    List Generator → Ctx → List (List Rune) → List Nat → Ctx → Prop where
  | nil (c : Ctx) : SeqRun gen [] c [] [] c
  | cons (g : Generator) (gs : List Generator) (c c1 c2 : Ctx) (out : List Rune)
      (outs : List (List Rune)) (len : Nat) (lens : List Nat) :
      gen g c = Exec.ret c1 len none → c1.Builder = c.Builder ++ out →
      SeqRun gen gs c1 outs lens c2 →
      SeqRun gen (g :: gs) c (out :: outs) (len :: lens) c2

/-- A concrete library for evaluations: no letters or numbers beyond ASCII, the
scaling computed exactly over the rationals, a linear congruential stream. -/
def exampleLib : Lib where
  numberTable := fun _ => false
  letterTable := fun _ => false
  roundScale := fun r span => (2 * r * span + maxInt64) / (2 * maxInt64)
  newSource := fun seed i => ((seed.toNat + i) * 6364136223846793005 + 1442695040888963407) % 2 ^ 63

/-- A concrete context for evaluations: seed 0 and the empty table. -/
def exampleCtx : Ctx := MakeCtx exampleLib 0 emptyTable

/-- Whether the outcome of a `Generate` call still holds the output `b` that the
accumulator held before the call: the accumulator after the call starts with `b`. -/
def Exec.keepsOutput (b : List Rune) : Exec → Prop
  | Exec.ret c _ _ => b <+: c.Builder
  | Exec.divideByZero c => b <+: c.Builder
  | Exec.outOfFuel => True

/-- Whether a rune is an ASCII decimal digit. -/
def isAsciiDigit (r : Rune) : Bool := decide (0x30 ≤ r) && decide (r ≤ 0x39)

/-- The value of a run of ASCII decimal digits, most significant digit first. -/
def decimalValue (ds : List Rune) : Nat :=
  ds.foldl (fun n r => n * 10 + (r - 0x30).toNat) 0

/-- Whether a rune is one that `scanNext` or `scanRange` reads as syntax: tab, space,
backslash, `[`, `(`, `$`, `?` or the opening brace. -/
def isSpecial (r : Rune) : Bool :=
  decide (r = chr '\t') || decide (r = chr ' ') || decide (r = chr '\\')
    || decide (r = chr '[') || decide (r = chr '(') || decide (r = chr '$')
    || decide (r = chr '?') || decide (r = chr '\x7b')

/-- Whether a rune closes a group: `]` or `)`. -/
def isCloser (r : Rune) : Bool := decide (r = chr ']') || decide (r = chr ')')

/-- The number of bytes of the UTF-8 encoding of a sequence of code points. -/
def utf8ByteLength (s : List Rune) : Nat := (s.map utf8Len).sum

/-- What every result of `scanNext` at the position `pos` satisfies: the new position
is not before `pos` and not after the end of the source; the call consumed at least
one rune or was at the end of the source; a generator is returned only after a rune
was consumed; and with `allowEof = false` a nil generator comes with an error. -/
def scannedOk (src : List Rune) (pos : Nat) (allowEof : Bool) (r : Scanned) : Prop :=
  pos ≤ r.2.2 ∧ r.2.2 ≤ src.length ∧ (pos < r.2.2 ∨ pos = src.length)
    ∧ (r.1.isSome = true → pos < r.2.2)
    ∧ (allowEof = false → r.2.1 = none → r.1.isSome = true)

/-- Two sources of the same length that hold the same runes from the position `p` on. -/
def sameFrom (p : Nat) (s t : List Rune) : Prop :=
  s.length = t.length ∧ ∀ i, p ≤ i → peek s i = peek t i

mutual
/-- Whether an AST holds a Production node, at any nesting depth. -/
def Generator.hasProduction : Generator → Bool
  | Generator.pattern _ g => g.hasProduction
  | Generator.particle _ _ _ => false
  | Generator.production _ _ _ _ => true
  | Generator.altGroup _ _ alt => hasProductionList alt
  | Generator.seqGroup _ _ seq => hasProductionList seq
/-- Whether an AST of a list holds a Production node. -/
def hasProductionList : List Generator → Bool
  | [] => false
  | g :: gs => g.hasProduction || hasProductionList gs
end

/-! ## The ranges written in a source text

The definitions below read the range suffixes off the text of a source by the grammar
of the pattern language, on the list of runes and without the scanner. The theorems
on the range invariant compare them with the ranges of the AST that `MakePattern`
builds. -/

/-- The range suffix at the head of a text, read off the text by the grammar
`range := '?' | '{' INTEGER ',' INTEGER '}'`: the range and the text after it. `?` is
`{0,1}`; an explicit range gives its two integers in the order written, an integer
being a non-empty run of ASCII digits with a value below `2 ^ 63`; where no suffix
stands the range is the default `{1,1}` and the text is left as it is; `none` for an
opening brace that begins no well-formed range. -/
def readRange : List Rune → Option ((Nat × Nat) × List Rune)
  | [] => some ((1, 1), [])
  | c :: rest =>
    if c = chr '?' then some ((0, 1), rest)
    else if c = chr '\x7b' then
      match rest.dropWhile isAsciiDigit with
      | [] => none
      | c1 :: rest1 =>
        match rest1.dropWhile isAsciiDigit with
        | [] => none
        | c2 :: rest2 =>
          let a := rest.takeWhile isAsciiDigit
          let b := rest1.takeWhile isAsciiDigit
          if c1 = chr ',' ∧ c2 = chr '\x7d' ∧ a ≠ [] ∧ b ≠ []
              ∧ decimalValue a < 2 ^ 63 ∧ decimalValue b < 2 ^ 63 then
            some ((decimalValue a, decimalValue b), rest2)
          else none
    else some ((1, 1), c :: rest)

/-- The integer at the head of a text, well formed or not: the run of runes that
`unicode.IsNumber` accepts, with the value `strconv.Atoi` gives it (0 for an empty
run), whether the run is a valid integer, and the text after the run. -/
def readInteger (L : Lib) (text : List Rune) : Nat × Bool × List Rune :=
  let run := text.takeWhile (IsNumber L)
  if run = [] then (0, false, text.dropWhile (IsNumber L))
  else ((Atoi run).1, (Atoi run).2.isNone, text.dropWhile (IsNumber L))

/-- What is kept of a malformed explicit range, from the text after its opening brace:
the bounds read before the fault and the text left after it. A first integer that is
not valid leaves the second bound at 1; so does a rune other than the comma after the
first integer, and that rune is passed; a second integer that is not valid is the
second bound as it is; a rune other than the closing brace after it is passed. -/
def partialRange (L : Lib) (text : List Rune) : (Nat × Nat) × List Rune :=
  match readInteger L text with
  | (a, false, text1) => ((a, 1), text1)
  | (a, true, []) => ((a, 1), [])
  | (a, true, c1 :: text2) =>
    if c1 ≠ chr ',' then ((a, 1), text2)
    else
      match readInteger L text2 with
      | (b, false, text3) => ((a, b), text3)
      | (b, true, text3) => ((a, b), text3.drop 1)

/-- The range suffix after a closing bracket, `]` or `)`: the one `readRange` reads;
and for an opening brace that begins no well-formed range, which `MakePattern`
accepts after a group, what `partialRange` keeps of it. -/
def rangeAfterCloser (L : Lib) (text : List Rune) : (Nat × Nat) × List Rune :=
  match readRange text with
  | some rt => rt
  | none => partialRange L (text.drop 1)

/-- The text after the identifier at the head of a text, an identifier being a letter
or `_` followed by letters, numbers and `_`; `none` when no identifier starts the
text. -/
def skipIdent (L : Lib) : List Rune → Option (List Rune)
  | [] => none
  | d :: rest => if identStart L d then some (rest.dropWhile (identChar L)) else none

/-- The ranges written in a text, one for each token, in the order of the text. The
text is read flat, from left to right: tab, space and the opening brackets `[` and `(`
are passed; a backslash is passed together with the rune after it; `$` with the
identifier after it is a token; every other rune is a token, a closing bracket too;
and each token is followed by its range suffix, read by `readRange`, after a closing
bracket by `rangeAfterCloser`. So the text `{3,1}` that stands at the start, after a
backslash or after another suffix is five tokens, not a range. The rune `EOF` ends
the text as its end does. `none` when a token other than a closing bracket is
followed by an opening brace that begins no well-formed range, or `$` by no
identifier. The first argument bounds the number of steps; the length of the text is
enough. -/
def writtenRangesFrom (L : Lib) : Nat → List Rune → Option (List (Nat × Nat))
  | 0, _ => some []
  | _ + 1, [] => some []
  | k + 1, c :: rest =>
    if c = EOF then some []
    else if c = chr '\t' ∨ c = chr ' ' ∨ c = chr '[' ∨ c = chr '(' then
      writtenRangesFrom L k rest
    else if c = chr '\\' then writtenRangesFrom L k (rest.drop 1)
    else
      match (if c = chr '$' then skipIdent L rest else some rest) with
      | none => none
      | some text =>
        match (if isCloser c then some (rangeAfterCloser L text) else readRange text) with
        | none => none
        | some (r, text1) =>
          match writtenRangesFrom L k text1 with
          | none => none
          | some rs => some (r :: rs)

/-- The ranges written in a source, one for each token, in the order of the text. -/
def writtenRanges (L : Lib) (src : List Rune) : Option (List (Nat × Nat)) :=
  writtenRangesFrom L src.length src

/-- The relation between the ranges written in the text of a source from the position
`pos` on and those from `pos1` on, `ok` telling whether the ranges written between
the two positions are in order: the ranges from `pos` on are some ranges `rs1`, in
order exactly when `ok` holds, followed by the ranges from `pos1` on. -/
def rangesTrack (L : Lib) (src : List Rune) (pos pos1 : Nat) (ok : Bool) : Prop :=
  ∃ rs1 : List (Nat × Nat), (ok = true ↔ ∀ r ∈ rs1, r.1 ≤ r.2)
    ∧ writtenRanges L (src.drop pos) =
        (writtenRanges L (src.drop pos1)).map (fun rs => rs1 ++ rs)

end Wordgen

/-! ## Lemmas and theorems -/

namespace Wordgen

/-! ### The scanner at the end of the source and at a known rune -/

theorem peek_length (src : List Rune) : peek src src.length = EOF := by
  simp [peek]

theorem next_length (src : List Rune) : next src src.length = (EOF, src.length) := by
  simp [next]

theorem peek_append_cons (pre rest : List Rune) (r : Rune) :
    peek (pre ++ r :: rest) pre.length = r := by
  simp [peek, List.getD_eq_getElem?_getD, List.getElem?_append_right (le_refl pre.length)]

theorem next_append_cons (pre rest : List Rune) (r : Rune) :
    next (pre ++ r :: rest) pre.length = (r, pre.length + 1) := by
  simp [next, List.getD_eq_getElem?_getD, List.getElem?_append_right (le_refl pre.length)]

/-! ### Identifiers -/

theorem identChar_valid (L : Lib) (r : Rune) (h : identChar L r = true) :
    invalidRune r = false := by
  cases hv : invalidRune r with
  | false => rfl
  | true =>
    exfalso
    have h1 : IsLetter L r = false := by simp [IsLetter, hv]
    have h2 : IsNumber L r = false := by simp [IsNumber, hv]
    have h3 : r = chr '_' := by simpa [identChar, h1, h2] using h
    rw [h3] at hv
    revert hv
    decide

theorem identChar_EOF (L : Lib) : identChar L EOF = false := by
  cases h : identChar L EOF with
  | false => rfl
  | true =>
    have := identChar_valid L EOF h
    revert this
    decide

theorem identStart_identChar (L : Lib) (r : Rune) (h : identStart L r = true) :
    identChar L r = true := by
  unfold identStart at h
  unfold identChar
  rcases Bool.or_eq_true _ _ |>.mp h with h | h
  · simp [h]
  · simp [h]

theorem runesToString_valid (rs : List Rune) (h : ∀ r ∈ rs, invalidRune r = false) :
    runesToString rs = rs := by
  induction rs with
  | nil => rfl
  | cons r rs ih =>
    have hr := h r (List.mem_cons_self _ _)
    have := ih (fun x hx => h x (List.mem_cons_of_mem _ hx))
    simp only [runesToString, List.map_cons] at this ⊢
    rw [this]
    simp [hr]

theorem scanIdentLoop_all (L : Lib) :
    ∀ (rest pre acc : List Rune) (k : Nat),
      (∀ r ∈ rest, identChar L r = true) → rest.length ≤ k →
      scanIdentLoop L (pre ++ rest) k pre.length acc = (acc ++ rest, (pre ++ rest).length) := by
  intro rest
  induction rest with
  | nil =>
    intro pre acc k _ _
    cases k with
    | zero => simp [scanIdentLoop]
    | succ k =>
      have h := identChar_EOF L
      unfold identChar at h
      rw [List.append_nil, scanIdentLoop]
      simp only [peek_length, h, Bool.not_false, if_true, List.append_nil]
  | cons r rs ih =>
    intro pre acc k hall hk
    cases k with
    | zero => simp at hk
    | succ k =>
      have hr := hall r (List.mem_cons_self _ _)
      unfold identChar at hr
      rw [scanIdentLoop]
      simp only [peek_append_cons, next_append_cons, hr, Bool.not_true]
      have := ih (pre ++ [r]) (acc ++ [r]) k (fun x hx => hall x (List.mem_cons_of_mem _ hx))
        (by simpa using hk)
      simpa using this

theorem isIdent_cons (L : Lib) (c : Rune) (rest : List Rune) (h : isIdent L (c :: rest) = true) :
    identStart L c = true ∧ ∀ r ∈ rest, identChar L r = true := by
  simpa [isIdent] using h

theorem isIdent_valid (L : Lib) (name : List Rune) (h : isIdent L name = true) :
    runesToString name = name := by
  cases name with
  | nil => rfl
  | cons c rest =>
    obtain ⟨h1, h2⟩ := isIdent_cons L c rest h
    apply runesToString_valid
    intro r hr
    rcases List.mem_cons.mp hr with rfl | hr
    · exact identChar_valid L _ (identStart_identChar L _ h1)
    · exact identChar_valid L _ (h2 r hr)

theorem scanRange_length (L : Lib) (src : List Rune) :
    scanRange L src src.length = (1, 1, none, src.length) := by
  simp [scanRange, peek_length, EOF, chr]

theorem scanIdent_all (L : Lib) (pre : List Rune) (c : Rune) (rest : List Rune)
    (h : isIdent L (c :: rest) = true) :
    scanIdent L (pre ++ c :: rest) pre.length =
      (c :: rest, none, (pre ++ c :: rest).length) := by
  obtain ⟨h1, h2⟩ := isIdent_cons L c rest h
  have hs := h1
  unfold identStart at hs
  unfold scanIdent
  simp only [peek_append_cons, next_append_cons, hs, if_true]
  have key : scanIdentLoop L (pre ++ c :: rest)
      ((pre ++ c :: rest).length - (pre.length + 1)) (pre.length + 1) [c] =
      (c :: rest, (pre ++ c :: rest).length) := by
    have := scanIdentLoop_all L rest (pre ++ [c]) [c]
      ((pre ++ c :: rest).length - (pre.length + 1)) h2
      (by simp only [List.length_append, List.length_cons]; omega)
    simpa using this
  rw [key]
  simp only []
  rw [isIdent_valid L _ h]

theorem scanProduction_ident (L : Lib) (pre : List Rune) (name : List Rune)
    (h : isIdent L name = true) :
    scanProduction L (pre ++ name) pre.length =
      (some (Generator.production 1 1 name none), none, (pre ++ name).length) := by
  cases name with
  | nil => simp [isIdent] at h
  | cons c rest =>
    have hc : c ≠ EOF := by
      intro hc
      have := identStart_identChar L c (isIdent_cons L c rest h).1
      rw [hc, identChar_EOF] at this
      exact Bool.noConfusion this
    unfold scanProduction
    simp only [peek_append_cons, hc, if_false, scanIdent_all L pre c rest h, scanRange_length]

theorem scanNext_length_allowEof (L : Lib) (src : List Rune) (fuel pos : Nat)
    (hpos : pos = src.length) :
    scanNext L src (fuel + 1) pos true = some (none, none, pos) := by
  subst hpos
  rw [scanNext, next_length]
  rfl

theorem makePatternLoop_length (L : Lib) (src : List Rune) (k pos : Nat)
    (acc : List Generator) (hpos : pos = src.length) :
    makePatternLoop L src (k + 1) pos acc = some (acc, none) := by
  rw [makePatternLoop, scanNext_length_allowEof L src _ pos hpos]

theorem compile_production (L : Lib) (name : List Rune) (h : isIdent L name = true) :
    MakePattern L (chr '$' :: name) =
      some ({ src := chr '$' :: name,
              gen := Generator.seqGroup 1 1 [Generator.production 1 1 name none] }, none) := by
  have hp := scanProduction_ident L [chr '$'] name h
  simp only [List.singleton_append, List.length_singleton] at hp
  have hsrc : runesToString (chr '$' :: name) = chr '$' :: name := by
    have := isIdent_valid L name h
    simp only [runesToString, List.map_cons] at this ⊢
    rw [this]
    rfl
  have h1 : scanNext L (chr '$' :: name) ((chr '$' :: name).length + 1) 0 true =
      some (some (Generator.production 1 1 name none), none, (chr '$' :: name).length) := by
    rw [scanNext]
    have hn : next (chr '$' :: name) 0 = (chr '$', 1) := by simp [next]
    rw [hn]
    simp only [hp]
    rfl
  unfold MakePattern
  rw [makePatternLoop, h1]
  simp only [List.nil_append]
  rw [show (chr '$' :: name).length = name.length + 1 from rfl,
    makePatternLoop_length L (chr '$' :: name) name.length (name.length + 1) _ rfl, hsrc]

/-! ### Escapes (C1) -/

/-- Claim C1, at the failing input. For every rune `c` the source `\` `c` does not
compile to a Particle holding `c`: `scanNext` consumes the escaped rune and discards
it, then meets the end of the input with `allowEof` forced to false, so `MakePattern`
returns `eofError` and a pattern without children. In particular `\$` yields no
literal `$`. -/
theorem escape_pair_is_eof (L : Lib) (c : Rune) :
    MakePattern L [chr '\\', c] =
      some ({ src := runesToString [chr '\\', c], gen := Generator.seqGroup 1 1 [] },
        some Error.eofError)
    ∧ MakePattern L (runes "\\$") =
      some ({ src := runes "\\$", gen := Generator.seqGroup 1 1 [] }, some Error.eofError) :=
  ⟨rfl, rfl⟩

/-! ### Repetition counts (C2) -/

theorem timesLoop_iterate (f : Ctx → Exec) (step : Ctx → Ctx) (len : Ctx → Nat)
    (hf : ∀ c, f c = Exec.ret (step c) (len c) none) :
    ∀ (n : Nat) (c : Ctx) (acc : Nat),
      timesLoop f n c acc =
        Exec.ret (step^[n] c) (acc + ∑ i in Finset.range n, len (step^[i] c)) none := by
  intro n
  induction n with
  | zero => intro c acc; simp [timesLoop]
  | succ n ih =>
    intro c acc
    rw [timesLoop, hf c]
    simp only []
    rw [ih (step c) (acc + len c), Finset.sum_range_succ']
    simp only [Function.iterate_succ, Function.comp_apply, Function.iterate_zero, id_eq]
    congr 1
    omega

theorem timesLoop_writeRune (v : Rune) :
    ∀ (n : Nat) (c : Ctx) (acc : Nat),
      timesLoop (fun c => WriteRune c v) n c acc =
        Exec.ret { c with Builder := c.Builder ++ runesToString (List.replicate n v) }
          (acc + n * utf8Len v) none := by
  intro n
  induction n with
  | zero => intro c acc; simp [timesLoop, runesToString]
  | succ n ih =>
    intro c acc
    show timesLoop (fun c => WriteRune c v) n
      { c with Builder := c.Builder ++ runesToString [v] } (acc + utf8Len v) = _
    rw [ih]
    simp only [runesToString, List.replicate_succ, List.map_cons, List.map_nil,
      List.append_assoc, List.singleton_append]
    congr 1
    ring

theorem Generate_particle_exact (L : Lib) (fuel k : Nat) (v : Rune) (c : Ctx) :
    Generate L (fuel + 1) (Generator.particle k k v) c =
      Exec.ret { c with Builder := c.Builder ++ runesToString (List.replicate k v) }
        (k * utf8Len v) none := by
  simp [Generate, times, timesLoop_writeRune]

theorem timesCount_mem (L : Lib) (rngMin rngMax r : Nat) (hle : rngMin ≤ rngMax) :
    rngMin ≤ timesCount L rngMin rngMax r ∧ timesCount L rngMin rngMax r ≤ rngMax := by
  unfold timesCount
  constructor
  · exact le_min (le_max_right _ _) hle
  · exact min_le_right _ _

/-- Claim C2. When `rngMin ≤ rngMax` and the action never fails, `times` runs the action
exactly `n` times for some `n` with `rngMin ≤ n ≤ rngMax` (after one draw when the
bounds differ); exactly `k` times for the range `{k,k}`; 0 or 1 times for `{0,1}`;
and a Particle `a` with `{2,2}`, also as the compiled pattern `a{2,2}`, appends exactly
`aa`. -/
theorem times_repeats_within_range (L : Lib) (ctx : Ctx) (rngMin rngMax : Nat)
    (f : Ctx → Exec) (step : Ctx → Ctx) (len : Ctx → Nat)
    (hle : rngMin ≤ rngMax) (hf : ∀ c, f c = Exec.ret (step c) (len c) none) :
    (∃ n, rngMin ≤ n ∧ n ≤ rngMax ∧
      times L ctx rngMin rngMax f =
        Exec.ret (step^[n] (if rngMin = rngMax then ctx else (Int63 ctx).2))
          (∑ i in Finset.range n, len (step^[i] (if rngMin = rngMax then ctx else (Int63 ctx).2)))
          none)
    ∧ (∀ k, times L ctx k k f =
        Exec.ret (step^[k] ctx) (∑ i in Finset.range k, len (step^[i] ctx)) none)
    ∧ (∃ n, (n = 0 ∨ n = 1) ∧
        times L ctx 0 1 f =
          Exec.ret (step^[n] (Int63 ctx).2)
            (∑ i in Finset.range n, len (step^[i] (Int63 ctx).2)) none)
    ∧ (∀ fuel, Generate L (fuel + 1) (Generator.particle 2 2 (chr 'a')) ctx =
        Exec.ret { ctx with Builder := ctx.Builder ++ runes "aa" } 2 none)
    ∧ (MakePattern L (runes "a\x7b2,2\x7d") =
        some ({ src := runes "a\x7b2,2\x7d",
                gen := Generator.seqGroup 1 1 [Generator.particle 2 2 (chr 'a')] }, none)
      ∧ ∀ fuel, Generate L (fuel + 2)
          (Generator.seqGroup 1 1 [Generator.particle 2 2 (chr 'a')]) ctx =
        Exec.ret { ctx with Builder := ctx.Builder ++ runes "aa" } 2 none) := by
  have hkk : ∀ k, times L ctx k k f =
        Exec.ret (step^[k] ctx) (∑ i in Finset.range k, len (step^[i] ctx)) none := by
    intro k
    simp [times, timesLoop_iterate f step len hf]
  refine ⟨?_, hkk, ?_, fun fuel => ?_, rfl, fun fuel => ?_⟩
  rotate_left 2
  · rw [Generate_particle_exact]; rfl
  · rw [Generate]
    simp only [times, ne_eq, not_true_eq_false, if_false, timesLoop, seqLoop,
      Generate_particle_exact]
    rfl
  · by_cases h : rngMin = rngMax
    · subst h
      exact ⟨rngMin, le_refl _, le_refl _, by simpa using hkk rngMin⟩
    · obtain ⟨h1, h2⟩ := timesCount_mem L rngMin rngMax (Int63 ctx).1 hle
      refine ⟨timesCount L rngMin rngMax (Int63 ctx).1, h1, h2, ?_⟩
      simp [times, h, timesLoop_iterate f step len hf]
  · obtain ⟨_, h2⟩ := timesCount_mem L 0 1 (Int63 ctx).1 (by decide)
    refine ⟨timesCount L 0 1 (Int63 ctx).1, by omega, ?_⟩
    simp [times, timesLoop_iterate f step len hf]

/-- Witness of `times_repeats_within_range`: the range `{1,3}` and the action that
writes `a` in the example context. -/
theorem times_repeats_within_range_witness :
    ∃ n, 1 ≤ n ∧ n ≤ 3 ∧
      times exampleLib exampleCtx 1 3 (fun c => WriteRune c (chr 'a')) =
        Exec.ret
          ((fun c : Ctx => { c with Builder := c.Builder ++ [chr 'a'] })^[n]
            (if 1 = 3 then exampleCtx else (Int63 exampleCtx).2))
          (∑ i in Finset.range n, (fun _ : Ctx => 1)
            ((fun c : Ctx => { c with Builder := c.Builder ++ [chr 'a'] })^[i]
              (if 1 = 3 then exampleCtx else (Int63 exampleCtx).2)))
          none :=
  (times_repeats_within_range exampleLib exampleCtx 1 3 (fun c => WriteRune c (chr 'a'))
    (fun c => { c with Builder := c.Builder ++ [chr 'a'] }) (fun _ => 1)
    (by decide) (fun _ => rfl)).1

/-! ### Malformed range (C3) -/

/-- Counterexample to claim C3 as stated: the error `MakePattern` returns for `a{2,`
is not of the kind `SyntaxError`. -/
theorem malformed_range_not_syntaxError :
    ¬ ∃ p e, MakePattern exampleLib (runes "a\x7b2,") = some (p, some e)
        ∧ e.kind = ErrorKind.SyntaxError := by
  rintro ⟨p, e, h, hk⟩
  have h2 : MakePattern exampleLib (runes "a\x7b2,") =
      some ({ src := runes "a\x7b2,", gen := Generator.seqGroup 1 1 [] },
        some Error.invalidNumber) := rfl
  rw [h2] at h
  injection h with h
  injection h with _ h
  injection h with h
  subst h
  revert hk
  decide

/-- Claim C3, amended. Compiling `a{2,` returns an error and no parsed token: the
pattern returned is the root sequence without children, and the error is the
"Invalid number" of `scanInteger` (kind `InvalidNumber`), since the second integer of
the range is missing. -/
theorem malformed_range_invalidNumber (L : Lib) :
    MakePattern L (runes "a\x7b2,") =
      some ({ src := runes "a\x7b2,", gen := Generator.seqGroup 1 1 [] },
        some Error.invalidNumber)
    ∧ Error.invalidNumber.kind = ErrorKind.InvalidNumber
    ∧ Error.invalidNumber.kind ≠ ErrorKind.SyntaxError :=
  ⟨rfl, rfl, by decide⟩

/-! ### Unknown productions (C4) -/

/-- Claim C4. For every identifier `name` without an entry in the production table,
the source `$name` compiles, and generating it in any context returns the error
"Unknown production: name" with length 0 and leaves the context, in particular the
output accumulator, as it was; so it is for `$greeting` with the empty table and
every seed. -/
theorem unknown_production_by_name (L : Lib) (name : List Rune) (ctx : Ctx) (fuel : Nat)
    (hid : isIdent L name = true) (hno : ctx.tbl name = none) :
    (∃ p, MakePattern L (chr '$' :: name) = some (p, none)
      ∧ p.gen = Generator.seqGroup 1 1 [Generator.production 1 1 name none]
      ∧ p.Generate L (fuel + 2) ctx = Exec.ret ctx 0 (some (Error.unknownProduction name))
      ∧ (Error.unknownProduction name).kind = ErrorKind.UnknownProduction)
    ∧ (∀ seed : Int, ∃ p, MakePattern L (runes "$greeting") = some (p, none)
      ∧ p.Generate L (fuel + 2) (MakeCtx L seed emptyTable) =
          Exec.ret (MakeCtx L seed emptyTable) 0
            (some (Error.unknownProduction (runes "greeting")))
      ∧ (MakeCtx L seed emptyTable).Builder = []) := by
  have key : ∀ (nm : List Rune) (c : Ctx), isIdent L nm = true → c.tbl nm = none →
      ∃ p, MakePattern L (chr '$' :: nm) = some (p, none)
        ∧ p.gen = Generator.seqGroup 1 1 [Generator.production 1 1 nm none]
        ∧ p.Generate L (fuel + 2) c = Exec.ret c 0 (some (Error.unknownProduction nm)) := by
    intro nm c h1 h2
    refine ⟨_, compile_production L nm h1, rfl, ?_⟩
    simp [Pattern.Generate, Generate, times, timesLoop, seqLoop, productionAction, h2]
  constructor
  · obtain ⟨p, h1, h2, h3⟩ := key name ctx hid hno
    exact ⟨p, h1, h2, h3, rfl⟩
  · intro seed
    obtain ⟨p, h1, _, h3⟩ := key (runes "greeting") (MakeCtx L seed emptyTable) rfl rfl
    exact ⟨p, h1, h3, rfl⟩

/-- Witness of `unknown_production_by_name`: the name `greeting` in the example
context, whose table is empty. -/
theorem unknown_production_by_name_witness :
    isIdent exampleLib (runes "greeting") = true
    ∧ exampleCtx.tbl (runes "greeting") = none
    ∧ ∃ p, MakePattern exampleLib (chr '$' :: runes "greeting") = some (p, none)
      ∧ p.gen = Generator.seqGroup 1 1 [Generator.production 1 1 (runes "greeting") none]
      ∧ p.Generate exampleLib 2 exampleCtx =
          Exec.ret exampleCtx 0 (some (Error.unknownProduction (runes "greeting")))
      ∧ (Error.unknownProduction (runes "greeting")).kind = ErrorKind.UnknownProduction :=
  ⟨rfl, rfl, (unknown_production_by_name exampleLib (runes "greeting") exampleCtx 0 rfl rfl).1⟩

/-! ### Empty alternation (C5) -/

/-- Claim C5, at the failing input. The source `[]` compiles to an alternation without
children, and generating it returns no error: after the draw, the reduction modulo
the number of children panics with "integer divide by zero", in every context. -/
theorem empty_alternation_panics (L : Lib) (ctx : Ctx) (fuel : Nat) :
    MakePattern L (runes "[]") =
      some ({ src := runes "[]",
              gen := Generator.seqGroup 1 1 [Generator.altGroup 1 1 []] }, none)
    ∧ Pattern.Generate L (fuel + 2)
        { src := runes "[]", gen := Generator.seqGroup 1 1 [Generator.altGroup 1 1 []] } ctx =
      Exec.divideByZero (Int63 ctx).2 :=
  ⟨rfl, rfl⟩

/-! ### Alternation (C6) -/

theorem altPicks_length (vals : List Rune) (draws : Nat → Nat) :
    ∀ (k pos : Nat), (altPicks vals draws pos k).length = k := by
  intro k
  induction k with
  | zero => intro pos; rfl
  | succ k ih => intro pos; simp [altPicks, ih]

theorem altPicks_mem (vals : List Rune) (draws : Nat → Nat) (hne : vals ≠ []) :
    ∀ (k pos : Nat), ∀ v ∈ altPicks vals draws pos k, v ∈ vals := by
  intro k
  induction k with
  | zero => intro pos v hv; simp [altPicks] at hv
  | succ k ih =>
    intro pos v hv
    rw [altPicks] at hv
    rcases List.mem_cons.mp hv with rfl | hv
    · have hlen : 0 < vals.length := List.length_pos.mpr hne
      have hlt : draws pos % 2 ^ 63 % vals.length < vals.length := Nat.mod_lt _ hlen
      rw [List.getD_eq_getElem _ _ hlt]
      exact List.getElem_mem _
    · exact ih _ v hv

theorem altAction_particles (L : Lib) (fuel : Nat) (vals : List Rune) (hne : vals ≠ [])
    (c : Ctx) :
    altAction (Generate L (fuel + 1)) (vals.map (Generator.particle 1 1)) c =
      Exec.ret
        { Builder := c.Builder ++
            runesToString [vals.getD (c.rnd.draws c.rnd.pos % 2 ^ 63 % vals.length) 0],
          rnd := { c.rnd with pos := c.rnd.pos + 1 }, tbl := c.tbl }
        (utf8Len (vals.getD (c.rnd.draws c.rnd.pos % 2 ^ 63 % vals.length) 0)) none := by
  have hlen : 0 < vals.length := List.length_pos.mpr hne
  have hlt : c.rnd.draws c.rnd.pos % 2 ^ 63 % vals.length < vals.length := Nat.mod_lt _ hlen
  unfold altAction
  simp only [Int63, List.length_map, Nat.ne_of_gt hlen, if_false, List.get?_eq_getElem?,
    List.getElem?_map, List.getElem?_eq_getElem hlt, Option.map_some',
    Generate_particle_exact, List.getD_eq_getElem _ _ hlt]
  simp

theorem timesLoop_alt_particles (L : Lib) (fuel : Nat) (vals : List Rune) (hne : vals ≠ []) :
    ∀ (k : Nat) (c : Ctx) (acc : Nat),
      timesLoop (altAction (Generate L (fuel + 1)) (vals.map (Generator.particle 1 1))) k c acc =
        Exec.ret
          { Builder := c.Builder ++ runesToString (altPicks vals c.rnd.draws c.rnd.pos k),
            rnd := { c.rnd with pos := c.rnd.pos + k }, tbl := c.tbl }
          (acc + ((altPicks vals c.rnd.draws c.rnd.pos k).map utf8Len).sum) none := by
  intro k
  induction k with
  | zero => intro c acc; simp [timesLoop, altPicks, runesToString]
  | succ k ih =>
    intro c acc
    rw [timesLoop, altAction_particles L fuel vals hne c]
    simp only []
    rw [ih]
    simp only [altPicks, runesToString, List.map_cons, List.map_nil, List.append_assoc,
      List.singleton_append, List.sum_cons]
    rw [show c.rnd.pos + 1 + k = c.rnd.pos + (k + 1) by omega, Nat.add_assoc]

/-- Claim C6. For every non-empty list of Particle children with range `{1,1}` and
every `k`, generating the Alternation with range `{k,k}` makes `k` draws and appends
`k` code points, the one of each repetition being what the child at index
`r % n` writes for that repetition's raw draw `r` (the child's value itself when the
values are valid code points); the compiled pattern `[ab]{3,3}` generates three
characters, each `a` or `b`, in every context. -/
theorem alternation_selects_one_child (L : Lib) (vals : List Rune) (k fuel : Nat)
    (ctx : Ctx) (hne : vals ≠ []) :
    (Generate L (fuel + 2) (Generator.altGroup k k (vals.map (Generator.particle 1 1))) ctx =
        Exec.ret
          { Builder := ctx.Builder ++
              runesToString (altPicks vals ctx.rnd.draws ctx.rnd.pos k),
            rnd := { ctx.rnd with pos := ctx.rnd.pos + k }, tbl := ctx.tbl }
          ((altPicks vals ctx.rnd.draws ctx.rnd.pos k).map utf8Len).sum none
      ∧ (altPicks vals ctx.rnd.draws ctx.rnd.pos k).length = k
      ∧ (∀ v ∈ altPicks vals ctx.rnd.draws ctx.rnd.pos k, v ∈ vals)
      ∧ ((∀ v ∈ vals, invalidRune v = false) →
          runesToString (altPicks vals ctx.rnd.draws ctx.rnd.pos k) =
            altPicks vals ctx.rnd.draws ctx.rnd.pos k))
    ∧ (MakePattern L (runes "[ab]\x7b3,3\x7d") =
        some ({ src := runes "[ab]\x7b3,3\x7d",
                gen := Generator.seqGroup 1 1
                  [Generator.altGroup 3 3
                    [Generator.particle 1 1 (chr 'a'), Generator.particle 1 1 (chr 'b')]] },
          none)
      ∧ ∃ x y z : Rune, (x = chr 'a' ∨ x = chr 'b') ∧ (y = chr 'a' ∨ y = chr 'b')
          ∧ (z = chr 'a' ∨ z = chr 'b')
          ∧ Generate L (fuel + 3)
              (Generator.seqGroup 1 1
                [Generator.altGroup 3 3
                  [Generator.particle 1 1 (chr 'a'), Generator.particle 1 1 (chr 'b')]]) ctx =
            Exec.ret
              { Builder := ctx.Builder ++ [x, y, z],
                rnd := { ctx.rnd with pos := ctx.rnd.pos + 3 }, tbl := ctx.tbl } 3 none) := by
  have hgen : ∀ (vs : List Rune) (n : Nat), vs ≠ [] →
      Generate L (fuel + 2) (Generator.altGroup n n (vs.map (Generator.particle 1 1))) ctx =
        Exec.ret
          { Builder := ctx.Builder ++ runesToString (altPicks vs ctx.rnd.draws ctx.rnd.pos n),
            rnd := { ctx.rnd with pos := ctx.rnd.pos + n }, tbl := ctx.tbl }
          ((altPicks vs ctx.rnd.draws ctx.rnd.pos n).map utf8Len).sum none := by
    intro vs n hvs
    rw [Generate]
    simp only [times, ne_eq, not_true_eq_false, if_false]
    rw [timesLoop_alt_particles L fuel vs hvs, Nat.zero_add]
  refine ⟨⟨hgen vals k hne, altPicks_length _ _ _ _, altPicks_mem _ _ hne _ _, ?_⟩, rfl, ?_⟩
  · intro hval
    apply runesToString_valid
    intro r hr
    exact hval r (altPicks_mem _ _ hne _ _ r hr)
  · have hab : ∀ j, List.getD [chr 'a', chr 'b'] (j % 2) 0 = chr 'a'
        ∨ List.getD [chr 'a', chr 'b'] (j % 2) 0 = chr 'b' := by
      intro j
      rcases Nat.mod_two_eq_zero_or_one j with h | h <;> rw [h]
      · left; rfl
      · right; rfl
    have h3 := hgen [chr 'a', chr 'b'] 3 (by simp)
    refine ⟨_, _, _, hab (ctx.rnd.draws ctx.rnd.pos % 2 ^ 63),
      hab (ctx.rnd.draws (ctx.rnd.pos + 1) % 2 ^ 63),
      hab (ctx.rnd.draws (ctx.rnd.pos + 1 + 1) % 2 ^ 63), ?_⟩
    rw [Generate]
    simp only [times, ne_eq, not_true_eq_false, if_false, timesLoop, seqLoop]
    have h3' : Generate L (fuel + 2)
        (Generator.altGroup 3 3
          [Generator.particle 1 1 (chr 'a'), Generator.particle 1 1 (chr 'b')]) ctx = _ := h3
    rw [h3']
    simp only [altPicks, List.length_cons, List.length_nil, Nat.zero_add, Nat.reduceAdd]
    have e : ∀ j, runesToString [List.getD [chr 'a', chr 'b'] (j % 2) 0]
        = [List.getD [chr 'a', chr 'b'] (j % 2) 0]
        ∧ utf8Len (List.getD [chr 'a', chr 'b'] (j % 2) 0) = 1 := by
      intro j
      rcases Nat.mod_two_eq_zero_or_one j with h | h <;> rw [h] <;> exact ⟨rfl, rfl⟩
    have e1 := e (ctx.rnd.draws ctx.rnd.pos % 2 ^ 63)
    have e2 := e (ctx.rnd.draws (ctx.rnd.pos + 1) % 2 ^ 63)
    have e3 := e (ctx.rnd.draws (ctx.rnd.pos + 1 + 1) % 2 ^ 63)
    simp only [runesToString, List.map_cons, List.map_nil, List.cons.injEq, and_true] at e1 e2 e3
    simp only [runesToString, List.map_cons, List.map_nil, List.sum_cons, List.sum_nil,
      e1.1, e2.1, e3.1, e1.2, e2.2, e3.2]
    rfl

/-- Witness of `alternation_selects_one_child`: the children `a` and `b`, three
repetitions, the example context. -/
theorem alternation_selects_one_child_witness :
    [chr 'a', chr 'b'] ≠ []
    ∧ Generate exampleLib 2
        (Generator.altGroup 3 3 ([chr 'a', chr 'b'].map (Generator.particle 1 1)))
        exampleCtx =
      Exec.ret
        { Builder := exampleCtx.Builder ++
            runesToString
              (altPicks [chr 'a', chr 'b'] exampleCtx.rnd.draws exampleCtx.rnd.pos 3),
          rnd := { exampleCtx.rnd with pos := exampleCtx.rnd.pos + 3 },
          tbl := exampleCtx.tbl }
        ((altPicks [chr 'a', chr 'b'] exampleCtx.rnd.draws exampleCtx.rnd.pos 3).map
          utf8Len).sum none :=
  ⟨by decide,
    (alternation_selects_one_child exampleLib [chr 'a', chr 'b'] 3 0 exampleCtx
      (by decide)).1.1⟩

/-! ### Production references (C7) -/

theorem Generate_particle_draw (L : Lib) (fuel mn mx : Nat) (v : Rune) (c : Ctx)
    (h : mn ≠ mx) :
    Generate L (fuel + 1) (Generator.particle mn mx v) c =
      Exec.ret
        { Builder := c.Builder ++
            runesToString (List.replicate (timesCount L mn mx (Int63 c).1) v),
          rnd := { c.rnd with pos := c.rnd.pos + 1 }, tbl := c.tbl }
        (timesCount L mn mx (Int63 c).1 * utf8Len v) none := by
  simp [Generate, times, h, timesLoop_writeRune, Int63]

/-- Claim C7. With the production table that maps `x` to the compiled pattern
`y{1,3}`, generating the compiled pattern `$x` succeeds in every context: it makes
one draw and appends exactly `n` copies of `y` for some `n` with `1 ≤ n ≤ 3`, and
reports the length `n`. -/
theorem production_expands_rule (L : Lib) (b : List Rune) (rnd : Source) (fuel : Nat) :
    ∃ py p n,
      MakePattern L (runes "y\x7b1,3\x7d") = some (py, none)
      ∧ MakePattern L (runes "$x") = some (p, none)
      ∧ 1 ≤ n ∧ n ≤ 3
      ∧ p.Generate L (fuel + 5)
          { Builder := b, rnd := rnd, tbl := singleTable (runes "x") py.toGenerator } =
        Exec.ret
          { Builder := b ++ List.replicate n (chr 'y'),
            rnd := { rnd with pos := rnd.pos + 1 },
            tbl := singleTable (runes "x") py.toGenerator } n none := by
  obtain ⟨h1, h2⟩ := timesCount_mem L 1 3 (rnd.draws rnd.pos % 2 ^ 63) (by decide)
  refine ⟨{ src := runes "y\x7b1,3\x7d",
            gen := Generator.seqGroup 1 1 [Generator.particle 1 3 (chr 'y')] },
          { src := runes "$x",
            gen := Generator.seqGroup 1 1 [Generator.production 1 1 (runes "x") none] },
          timesCount L 1 3 (rnd.draws rnd.pos % 2 ^ 63), rfl, rfl, h1, h2, ?_⟩
  have hv : ∀ n, runesToString (List.replicate n (chr 'y')) = List.replicate n (chr 'y') := by
    intro n
    apply runesToString_valid
    intro r hr
    rw [List.eq_of_mem_replicate hr]
    decide
  have hl : utf8Len (chr 'y') = 1 := by decide
  simp only [Pattern.Generate, Pattern.toGenerator]
  rw [Generate]
  simp only [times, ne_eq, not_true_eq_false, if_false, timesLoop, seqLoop]
  rw [Generate]
  simp only [times, ne_eq, not_true_eq_false, if_false, timesLoop, productionAction,
    singleTable, if_true]
  rw [Generate, Generate]
  simp only [times, ne_eq, not_true_eq_false, if_false, timesLoop, seqLoop]
  rw [Generate_particle_draw L fuel 1 3 _ _ (by decide)]
  simp [Int63, hv, hl]

/-! ### Sequences (C8) -/

theorem seqLoop_of_SeqRun (gen : Generator → Ctx → Exec) :
    ∀ (gs : List Generator) (c c2 : Ctx) (outs : List (List Rune)) (lens : List Nat),
      SeqRun gen gs c outs lens c2 →
      ∀ acc, seqLoop gen gs c acc = Exec.ret c2 (acc + lens.sum) none
        ∧ c2.Builder = c.Builder ++ outs.flatten := by
  intro gs c c2 outs lens h
  induction h with
  | nil c => intro acc; simp [seqLoop]
  | cons g gs c c1 c2 out outs len lens hg hb _ ih =>
    intro acc
    obtain ⟨e1, e2⟩ := ih (acc + len)
    refine ⟨?_, ?_⟩
    · rw [seqLoop, hg]
      simp only []
      rw [e1, List.sum_cons, Nat.add_assoc]
    · rw [e2, hb, List.flatten_cons, List.append_assoc]

/-- Claim C8. When every child of a Sequence generates without error, one repetition
of the Sequence threads the context through the children from left to right, appends
the concatenation of their outputs in order and reports the sum of their lengths; and
the compiled pattern `(ab)?` generates the empty string or `ab`, in every context. -/
theorem sequence_expands_children_in_order (L : Lib) (fuel : Nat) (gs : List Generator)
    (c c2 : Ctx) (outs : List (List Rune)) (lens : List Nat)
    (hrun : SeqRun (Generate L fuel) gs c outs lens c2) :
    (seqLoop (Generate L fuel) gs c 0 = Exec.ret c2 lens.sum none
      ∧ Generate L (fuel + 1) (Generator.seqGroup 1 1 gs) c = Exec.ret c2 lens.sum none
      ∧ c2.Builder = c.Builder ++ outs.flatten)
    ∧ (MakePattern L (runes "(ab)?") =
        some ({ src := runes "(ab)?",
                gen := Generator.seqGroup 1 1
                  [Generator.seqGroup 0 1
                    [Generator.particle 1 1 (chr 'a'), Generator.particle 1 1 (chr 'b')]] },
          none)
      ∧ ∀ ctx : Ctx,
          Generate L (fuel + 3)
              (Generator.seqGroup 1 1
                [Generator.seqGroup 0 1
                  [Generator.particle 1 1 (chr 'a'), Generator.particle 1 1 (chr 'b')]]) ctx =
            Exec.ret { ctx with rnd := { ctx.rnd with pos := ctx.rnd.pos + 1 } } 0 none
          ∨ Generate L (fuel + 3)
              (Generator.seqGroup 1 1
                [Generator.seqGroup 0 1
                  [Generator.particle 1 1 (chr 'a'), Generator.particle 1 1 (chr 'b')]]) ctx =
            Exec.ret { ctx with Builder := ctx.Builder ++ runes "ab",
                                rnd := { ctx.rnd with pos := ctx.rnd.pos + 1 } } 2 none) := by
  obtain ⟨e1, e2⟩ := seqLoop_of_SeqRun (Generate L fuel) gs c c2 outs lens hrun 0
  rw [Nat.zero_add] at e1
  refine ⟨⟨e1, ?_, e2⟩, rfl, ?_⟩
  · rw [Generate]
    simp only [times, ne_eq, not_true_eq_false, if_false, timesLoop, e1, Nat.zero_add]
  · intro ctx
    obtain ⟨_, h2⟩ := timesCount_mem L 0 1 (Int63 ctx).1 (by decide)
    have hcases : timesCount L 0 1 (Int63 ctx).1 = 0 ∨ timesCount L 0 1 (Int63 ctx).1 = 1 := by
      omega
    have hinner : Generate L (fuel + 2)
        (Generator.seqGroup 0 1
          [Generator.particle 1 1 (chr 'a'), Generator.particle 1 1 (chr 'b')]) ctx =
        timesLoop (fun c => seqLoop (Generate L (fuel + 1))
            [Generator.particle 1 1 (chr 'a'), Generator.particle 1 1 (chr 'b')] c 0)
            (timesCount L 0 1 (Int63 ctx).1) (Int63 ctx).2 0 := by
      rw [Generate]
      simp only [times, ne_eq, Nat.zero_ne_one, not_false_eq_true, if_true]
    rcases hcases with h | h
    · left
      rw [h] at hinner
      rw [Generate]
      simp only [times, ne_eq, not_true_eq_false, if_false, timesLoop, seqLoop, hinner]
      rfl
    · right
      rw [h] at hinner
      simp only [timesLoop, seqLoop, Generate_particle_exact] at hinner
      rw [Generate]
      simp only [times, ne_eq, not_true_eq_false, if_false, timesLoop, seqLoop, hinner]
      simp [Int63, runesToString, invalidRune, chr, utf8Len, runes]

/-- Witness of `sequence_expands_children_in_order`: the children `a` and `b` in the
example context. -/
theorem sequence_expands_children_in_order_witness :
    Generate exampleLib 2
        (Generator.seqGroup 1 1
          [Generator.particle 1 1 (chr 'a'), Generator.particle 1 1 (chr 'b')]) exampleCtx =
      Exec.ret { exampleCtx with Builder := [chr 'a', chr 'b'] } [1, 1].sum none :=
  (sequence_expands_children_in_order exampleLib 1
    [Generator.particle 1 1 (chr 'a'), Generator.particle 1 1 (chr 'b')]
    exampleCtx { exampleCtx with Builder := [chr 'a', chr 'b'] }
    [[chr 'a'], [chr 'b']] [1, 1]
    (SeqRun.cons _ _ _ { exampleCtx with Builder := [chr 'a'] } _ _ _ _ _ rfl rfl
      (SeqRun.cons _ _ _ { exampleCtx with Builder := [chr 'a', chr 'b'] } _ _ _ _ _ rfl rfl
        (SeqRun.nil _)))).1.2.1

/-! ### Whitespace (C10) -/

/-- Claim C10, at the failing inputs. Whitespace before a token is skipped (`a b` and
`[a<tab>b]` compile to the AST of `ab` and `[ab]`), but a space before the closing bracket
of a group changes the result: `[a]` and `(ab)` compile, `[a ]` and `( a b )` return
`eofError`, because the group loops test for the closing bracket with `peek` before
`scanNext` skips the space, and `scanNext` then reads the bracket as a Particle. -/
theorem space_before_close_changes_result (L : Lib) :
    ((MakePattern L (runes "a b")).map (fun r => (r.1.gen, r.2)) =
        (MakePattern L (runes "ab")).map (fun r => (r.1.gen, r.2))
      ∧ (MakePattern L (runes "[a\tb]")).map (fun r => (r.1.gen, r.2)) =
        (MakePattern L (runes "[ab]")).map (fun r => (r.1.gen, r.2)))
    ∧ MakePattern L (runes "[a]") =
      some ({ src := runes "[a]",
              gen := Generator.seqGroup 1 1
                [Generator.altGroup 1 1 [Generator.particle 1 1 (chr 'a')]] }, none)
    ∧ MakePattern L (runes "[a ]") =
      some ({ src := runes "[a ]", gen := Generator.seqGroup 1 1 [] }, some Error.eofError)
    ∧ MakePattern L (runes "(ab)") =
      some ({ src := runes "(ab)",
              gen := Generator.seqGroup 1 1
                [Generator.seqGroup 1 1
                  [Generator.particle 1 1 (chr 'a'), Generator.particle 1 1 (chr 'b')]] }, none)
    ∧ MakePattern L (runes "( a b )") =
      some ({ src := runes "( a b )", gen := Generator.seqGroup 1 1 [] },
        some Error.eofError) :=
  ⟨⟨rfl, rfl⟩, rfl, rfl, rfl, rfl⟩

/-! ### Malformed range after a group (C12) -/

/-- Claim C12, at the failing inputs. After a group the error of `scanRange` is
discarded: `[ab]{2,`, `(ab){2;3}` and `[ab]{,3}` compile without error (to groups with
the ranges `{2,0}`, `{2,1}` and `{0,1}`, the rest of the suffix read as Particles),
while the same suffixes after a Particle return "Invalid number", "Expected ','" and
"Invalid number". -/
theorem group_range_error_discarded (L : Lib) :
    (MakePattern L (runes "[ab]\x7b2,") =
        some ({ src := runes "[ab]\x7b2,",
                gen := Generator.seqGroup 1 1
                  [Generator.altGroup 2 0
                    [Generator.particle 1 1 (chr 'a'), Generator.particle 1 1 (chr 'b')]] },
          none)
      ∧ MakePattern L (runes "a\x7b2,") =
        some ({ src := runes "a\x7b2,", gen := Generator.seqGroup 1 1 [] },
          some Error.invalidNumber))
    ∧ (MakePattern L (runes "(ab)\x7b2;3\x7d") =
        some ({ src := runes "(ab)\x7b2;3\x7d",
                gen := Generator.seqGroup 1 1
                  [Generator.seqGroup 2 1
                    [Generator.particle 1 1 (chr 'a'), Generator.particle 1 1 (chr 'b')],
                   Generator.particle 1 1 (chr '3'), Generator.particle 1 1 (chr '\x7d')] },
          none)
      ∧ MakePattern L (runes "a\x7b2;3\x7d") =
        some ({ src := runes "a\x7b2;3\x7d", gen := Generator.seqGroup 1 1 [] },
          some Error.expectedComma))
    ∧ (MakePattern L (runes "[ab]\x7b,3\x7d") =
        some ({ src := runes "[ab]\x7b,3\x7d",
                gen := Generator.seqGroup 1 1
                  [Generator.altGroup 0 1
                    [Generator.particle 1 1 (chr 'a'), Generator.particle 1 1 (chr 'b')],
                   Generator.particle 1 1 (chr ','), Generator.particle 1 1 (chr '3'),
                   Generator.particle 1 1 (chr '\x7d')] },
          none)
      ∧ MakePattern L (runes "a\x7b,3\x7d") =
        some ({ src := runes "a\x7b,3\x7d", gen := Generator.seqGroup 1 1 [] },
          some Error.invalidNumber)) :=
  ⟨⟨rfl, rfl⟩, ⟨rfl, rfl⟩, ⟨rfl, rfl⟩⟩

/-! ### Draws made by `times` (C15) -/

theorem times_eq_timesLoop (L : Lib) (ctx : Ctx) (mn mx : Nat) (f : Ctx → Exec) :
    times L ctx mn mx f =
      timesLoop f (if mn = mx then mn else timesCount L mn mx (ctx.rnd.draws ctx.rnd.pos % 2 ^ 63))
        { ctx with rnd := { ctx.rnd with pos := ctx.rnd.pos + (if mn = mx then 0 else 1) } } 0 := by
  by_cases h : mn = mx
  · subst h
    simp [times]
  · simp [times, h, Int63]

theorem Generate_production_unknown (L : Lib) (ctx : Ctx) (mn mx fuel : Nat)
    (name : GoString) (hno : ctx.tbl name = none) :
    Generate L (fuel + 1) (Generator.production mn mx name none) ctx =
      Exec.ret
        { ctx with rnd := { ctx.rnd with pos := ctx.rnd.pos + (if mn = mx then 0 else 1) } }
        0
        (if (if mn = mx then mn else timesCount L mn mx (ctx.rnd.draws ctx.rnd.pos % 2 ^ 63)) = 0
          then none else some (Error.unknownProduction name)) := by
  rw [Generate, times_eq_timesLoop]
  generalize (if mn = mx then mn else timesCount L mn mx (ctx.rnd.draws ctx.rnd.pos % 2 ^ 63)) = n
  cases n with
  | zero => rfl
  | succ n => simp [timesLoop, productionAction, hno]

/-- Claim C15. `times` makes exactly one draw when the bounds differ and none when
they are equal, before the loop starts and whatever count the draw yields: the loop
starts in the context after that draw; so generating a Particle advances the stream by
one draw when its bounds differ and leaves it where it was otherwise. -/
theorem times_draws_once (L : Lib) (ctx : Ctx) (mn mx : Nat) (f : Ctx → Exec)
    (fuel : Nat) (v : Rune) :
    times L ctx mn mx f =
        timesLoop f (if mn = mx then mn else timesCount L mn mx (ctx.rnd.draws ctx.rnd.pos % 2 ^ 63))
          { ctx with rnd := { ctx.rnd with pos := ctx.rnd.pos + (if mn = mx then 0 else 1) } } 0
    ∧ ∃ c len, Generate L (fuel + 1) (Generator.particle mn mx v) ctx = Exec.ret c len none
        ∧ c.rnd.draws = ctx.rnd.draws
        ∧ c.rnd.pos = ctx.rnd.pos + (if mn = mx then 0 else 1) := by
  refine ⟨times_eq_timesLoop L ctx mn mx f, ?_⟩
  by_cases h : mn = mx
  · subst h
    exact ⟨_, _, Generate_particle_exact L fuel mn v ctx, rfl, by simp⟩
  · exact ⟨_, _, Generate_particle_draw L fuel mn mx v ctx h, rfl, by simp [h]⟩

/-! ### Production lookup (C17) -/

/-- Counterexample to claim C17 as stated: with the empty table, generating the
compiled pattern `$x{0,0}` returns length 0 and no error. -/
theorem unknown_production_zero_repetitions :
    exampleCtx.tbl (runes "x") = none
    ∧ MakePattern exampleLib (runes "$x\x7b0,0\x7d") =
        some ({ src := runes "$x\x7b0,0\x7d",
                gen := Generator.seqGroup 1 1 [Generator.production 0 0 (runes "x") none] },
          none)
    ∧ Pattern.Generate exampleLib 2
        { src := runes "$x\x7b0,0\x7d",
          gen := Generator.seqGroup 1 1 [Generator.production 0 0 (runes "x") none] }
        exampleCtx = Exec.ret exampleCtx 0 none :=
  ⟨rfl, rfl, rfl⟩

/-- Claim C17, amended. The lookup of a Production happens inside its action, in the
first repetition. For a name without an entry in the table, generating the node makes
the draw of its range (if the bounds differ) and then returns length 0 with the error
"Unknown production: name" when the count of repetitions is at least 1, and with no
error when the count is 0; the count is at least 1 whenever both bounds are. -/
theorem unknown_production_needs_repetition (L : Lib) (ctx : Ctx) (mn mx fuel : Nat)
    (name : GoString) (hno : ctx.tbl name = none) :
    Generate L (fuel + 1) (Generator.production mn mx name none) ctx =
        Exec.ret
          { ctx with rnd := { ctx.rnd with pos := ctx.rnd.pos + (if mn = mx then 0 else 1) } }
          0
          (if (if mn = mx then mn else timesCount L mn mx (ctx.rnd.draws ctx.rnd.pos % 2 ^ 63)) = 0
            then none else some (Error.unknownProduction name))
    ∧ (1 ≤ mn → 1 ≤ mx →
        (if mn = mx then mn else timesCount L mn mx (ctx.rnd.draws ctx.rnd.pos % 2 ^ 63)) ≠ 0) := by
  constructor
  · exact Generate_production_unknown L ctx mn mx fuel name hno
  · intro h1 h2
    by_cases h : mn = mx
    · simp only [h, if_true]; omega
    · simp only [h, if_false]
      unfold timesCount
      have : 1 ≤ min (max ((L.roundScale (ctx.rnd.draws ctx.rnd.pos % 2 ^ 63)
          ((mx + uintSize - mn) % uintSize) % uintSize + mn) % uintSize) mn) mx :=
        le_min (le_trans h1 (le_max_right _ _)) h2
      exact Nat.one_le_iff_ne_zero.mp this

/-- Witness of `unknown_production_needs_repetition`: the node `$x?` in the example
context. -/
theorem unknown_production_needs_repetition_witness :
    exampleCtx.tbl (runes "x") = none
    ∧ Generate exampleLib 1 (Generator.production 0 1 (runes "x") none) exampleCtx =
        Exec.ret
          { exampleCtx with
            rnd := { exampleCtx.rnd with
              pos := exampleCtx.rnd.pos + (if 0 = 1 then 0 else 1) } }
          0
          (if (if 0 = 1 then 0 else
              timesCount exampleLib 0 1 (exampleCtx.rnd.draws exampleCtx.rnd.pos % 2 ^ 63)) = 0
            then none else some (Error.unknownProduction (runes "x"))) :=
  ⟨rfl, (unknown_production_needs_repetition exampleLib exampleCtx 0 1 0 (runes "x") rfl).1⟩

/-! ### Inverted ranges (C18) -/

theorem timesCount_inverted (L : Lib) (mn mx r : Nat) (h : mx < mn) :
    timesCount L mn mx r = mx := by
  unfold timesCount
  apply min_eq_right
  exact le_trans (le_of_lt h) (le_max_right _ _)

/-- Claim C18. For a range with `min > max`, `times` makes exactly one draw and runs
the action exactly `max` times, whatever the scaling of the draw returns for the span
`max - min`, which wraps modulo `2 ^ 64`; the source `a{3,1}` compiles, and generating
it appends exactly `a`. -/
theorem inverted_range_runs_max_times (L : Lib) (ctx : Ctx) (mn mx : Nat) (f : Ctx → Exec)
    (step : Ctx → Ctx) (len : Ctx → Nat) (fuel : Nat)
    (hinv : mx < mn) (hmn : mn < uintSize)
    (hf : ∀ c, f c = Exec.ret (step c) (len c) none) :
    (times L ctx mn mx f =
        Exec.ret
          (step^[mx] { ctx with rnd := { ctx.rnd with pos := ctx.rnd.pos + 1 } })
          (∑ i in Finset.range mx,
            len (step^[i] { ctx with rnd := { ctx.rnd with pos := ctx.rnd.pos + 1 } })) none
      ∧ (mx + uintSize - mn) % uintSize = uintSize - (mn - mx)
      ∧ ∀ r, timesCount L mn mx r = mx)
    ∧ (MakePattern L (runes "a\x7b3,1\x7d") =
        some ({ src := runes "a\x7b3,1\x7d",
                gen := Generator.seqGroup 1 1 [Generator.particle 3 1 (chr 'a')] }, none)
      ∧ Generate L (fuel + 2)
          (Generator.seqGroup 1 1 [Generator.particle 3 1 (chr 'a')]) ctx =
        Exec.ret
          { ctx with Builder := ctx.Builder ++ runes "a",
                     rnd := { ctx.rnd with pos := ctx.rnd.pos + 1 } } 1 none) := by
  refine ⟨⟨?_, ?_, fun r => timesCount_inverted L mn mx r hinv⟩, rfl, ?_⟩
  · rw [times_eq_timesLoop L ctx mn mx f]
    have hne : mn ≠ mx := by omega
    simp only [hne, if_false, timesCount_inverted L mn mx _ hinv]
    rw [timesLoop_iterate f step len hf, Nat.zero_add]
  · unfold uintSize at *
    rw [Nat.mod_eq_of_lt (by omega)]
    omega
  · rw [Generate]
    simp only [times, ne_eq, not_true_eq_false, if_false, timesLoop, seqLoop]
    rw [Generate_particle_draw L fuel 3 1 _ _ (by decide),
      timesCount_inverted L 3 1 _ (by decide)]
    rfl

/-- Witness of `inverted_range_runs_max_times`: the range `{3,1}` and the action that
writes `a` in the example context. -/
theorem inverted_range_runs_max_times_witness :
    1 < 3 ∧ 3 < uintSize ∧ ∀ r, timesCount exampleLib 3 1 r = 1 :=
  ⟨by decide, by decide,
    (inverted_range_runs_max_times exampleLib exampleCtx 3 1 (fun c => WriteRune c (chr 'a'))
      (fun c => { c with Builder := c.Builder ++ [chr 'a'] }) (fun _ => 1) 0
      (by decide) (by decide) (fun _ => rfl)).1.2.2⟩

/-! ### Errors during generation (C11) -/

theorem timesLoop_stops_at_error (f : Ctx → Exec) (e : Error) (c1 : Ctx) (len : Nat) :
    ∀ (j n : Nat) (cs : Nat → Ctx) (lens : Nat → Nat) (acc : Nat),
      (∀ i, i < j → f (cs i) = Exec.ret (cs (i + 1)) (lens i) none) →
      f (cs j) = Exec.ret c1 len (some e) → j < n →
      timesLoop f n (cs 0) acc =
        Exec.ret c1 (acc + ((∑ i in Finset.range j, lens i) + len)) (some e) := by
  intro j
  induction j with
  | zero =>
    intro n cs lens acc _ hfail hn
    obtain ⟨m, rfl⟩ : ∃ m, n = m + 1 := ⟨n - 1, by omega⟩
    rw [timesLoop, hfail]
    simp
  | succ j ih =>
    intro n cs lens acc hok hfail hn
    obtain ⟨m, rfl⟩ : ∃ m, n = m + 1 := ⟨n - 1, by omega⟩
    rw [timesLoop, hok 0 (by omega)]
    simp only []
    have := ih m (fun i => cs (i + 1)) (fun i => lens (i + 1)) (acc + lens 0)
      (fun i hi => hok (i + 1) (by omega)) hfail (by omega)
    simp only [Nat.zero_add] at this ⊢
    rw [this, Finset.sum_range_succ']
    congr 1
    omega

theorem seqLoop_stops_at_error (gen : Generator → Ctx → Exec) (g : Generator)
    (post : List Generator) (c2 : Ctx) (len : Nat) (e : Error) :
    ∀ (pre : List Generator) (c c1 : Ctx) (outs : List (List Rune)) (lens : List Nat),
      SeqRun gen pre c outs lens c1 →
      gen g c1 = Exec.ret c2 len (some e) →
      ∀ acc, seqLoop gen (pre ++ g :: post) c acc =
          Exec.ret c2 (acc + (lens.sum + len)) (some e)
        ∧ c1.Builder = c.Builder ++ outs.flatten := by
  intro pre c c1 outs lens h
  induction h with
  | nil c =>
    intro hg acc
    simp [seqLoop, hg]
  | cons g0 gs c c1 c3 out outs len0 lens hg0 hb _ ih =>
    intro hg acc
    obtain ⟨e1, e2⟩ := ih hg (acc + len0)
    refine ⟨?_, ?_⟩
    · rw [List.cons_append, seqLoop, hg0]
      simp only []
      rw [e1, List.sum_cons]
      congr 1
      omega
    · rw [e2, hb, List.flatten_cons, List.append_assoc]

theorem Exec.keepsOutput_trans {b b1 : List Rune} (h : b <+: b1) :
    ∀ x : Exec, Exec.keepsOutput b1 x → Exec.keepsOutput b x
  | Exec.ret _ _ _, hx => List.IsPrefix.trans h hx
  | Exec.divideByZero _, hx => List.IsPrefix.trans h hx
  | Exec.outOfFuel, _ => trivial

theorem timesLoop_keepsOutput (f : Ctx → Exec)
    (hf : ∀ c, Exec.keepsOutput c.Builder (f c)) :
    ∀ (n : Nat) (c : Ctx) (acc : Nat), Exec.keepsOutput c.Builder (timesLoop f n c acc) := by
  intro n
  induction n with
  | zero => intro c acc; exact List.prefix_refl _
  | succ n ih =>
    intro c acc
    rw [timesLoop]
    have h := hf c
    cases hfc : f c with
    | ret c1 len err =>
      rw [hfc] at h
      cases err with
      | none => exact Exec.keepsOutput_trans h _ (ih c1 (acc + len))
      | some e => exact h
    | divideByZero c1 => rw [hfc] at h; exact h
    | outOfFuel => trivial

theorem times_keepsOutput (L : Lib) (f : Ctx → Exec)
    (hf : ∀ c, Exec.keepsOutput c.Builder (f c)) (ctx : Ctx) (mn mx : Nat) :
    Exec.keepsOutput ctx.Builder (times L ctx mn mx f) := by
  rw [times_eq_timesLoop L ctx mn mx f]
  exact timesLoop_keepsOutput f hf _ _ _

theorem seqLoop_keepsOutput (gen : Generator → Ctx → Exec)
    (hgen : ∀ g c, Exec.keepsOutput c.Builder (gen g c)) :
    ∀ (gs : List Generator) (c : Ctx) (acc : Nat),
      Exec.keepsOutput c.Builder (seqLoop gen gs c acc) := by
  intro gs
  induction gs with
  | nil => intro c acc; exact List.prefix_refl _
  | cons g gs ih =>
    intro c acc
    rw [seqLoop]
    have h := hgen g c
    cases hfc : gen g c with
    | ret c1 len err =>
      rw [hfc] at h
      cases err with
      | none => exact Exec.keepsOutput_trans h _ (ih c1 (acc + len))
      | some e => exact h
    | divideByZero c1 => rw [hfc] at h; exact h
    | outOfFuel => trivial

theorem Generate_keepsOutput (L : Lib) :
    ∀ (fuel : Nat) (g : Generator) (ctx : Ctx),
      Exec.keepsOutput ctx.Builder (Generate L fuel g ctx) := by
  intro fuel
  induction fuel with
  | zero => intro g ctx; rw [Generate]; trivial
  | succ fuel ih =>
    intro g ctx
    cases g with
    | pattern src gen => rw [Generate]; exact ih gen ctx
    | particle mn mx v =>
      rw [Generate]
      refine times_keepsOutput L (fun c => WriteRune c v) (fun c => ?_) ctx mn mx
      exact List.prefix_append _ _
    | production mn mx name prod =>
      rw [Generate]
      refine times_keepsOutput L _ (fun c => ?_) ctx mn mx
      unfold productionAction
      cases prod with
      | some p => exact ih p c
      | none =>
        cases c.tbl name with
        | none => exact List.prefix_refl _
        | some p => exact ih p c
    | altGroup mn mx alt =>
      rw [Generate]
      refine times_keepsOutput L _ (fun c => ?_) ctx mn mx
      unfold altAction
      simp only [Int63]
      split
      · exact List.prefix_refl _
      · split
        · exact ih _ _
        · exact List.prefix_refl _
    | seqGroup mn mx seq =>
      rw [Generate]
      exact times_keepsOutput L _ (fun c => seqLoop_keepsOutput _ (ih) seq c 0) ctx mn mx

/-- Claim C11. When, in the context `times` starts its loop with (after the draw of
the range, if any), the invocations of an action before the `j`-th one succeed and
that one returns an error, and the count chosen is above `j`, `times` runs no later
repetition: it returns the error, the context the failing invocation left and the sum
of the lengths reported so far, the failing one included. The loop of a Sequence does the same at its first failing
child. No `Generate` call removes output: the accumulator after the call starts with
the accumulator before it. With an empty table, generating the compiled pattern
`ab$x` returns "Unknown production: x" with length 2 and leaves `ab` appended. -/
theorem generation_error_short_circuits (L : Lib) (f : Ctx → Exec) (ctx0 : Ctx)
    (mn mx : Nat) (cs : Nat → Ctx)
    (lens : Nat → Nat) (j : Nat) (c1 : Ctx) (len : Nat) (e : Error)
    (gen : Generator → Ctx → Exec) (pre post : List Generator) (g : Generator)
    (c d1 d2 : Ctx) (outs : List (List Rune)) (slens : List Nat) (slen : Nat) (e2 : Error)
    (hstart : cs 0 =
      { ctx0 with rnd := { ctx0.rnd with pos := ctx0.rnd.pos + (if mn = mx then 0 else 1) } })
    (hok : ∀ i, i < j → f (cs i) = Exec.ret (cs (i + 1)) (lens i) none)
    (hfail : f (cs j) = Exec.ret c1 len (some e))
    (hj : j < (if mn = mx then mn
      else timesCount L mn mx (ctx0.rnd.draws ctx0.rnd.pos % 2 ^ 63)))
    (hrun : SeqRun gen pre c outs slens d1)
    (hg : gen g d1 = Exec.ret d2 slen (some e2)) :
    times L ctx0 mn mx f = Exec.ret c1 ((∑ i in Finset.range j, lens i) + len) (some e)
    ∧ (seqLoop gen (pre ++ g :: post) c 0 = Exec.ret d2 (slens.sum + slen) (some e2)
      ∧ d1.Builder = c.Builder ++ outs.flatten)
    ∧ (∀ (fuel : Nat) (g0 : Generator) (ctx : Ctx),
        Exec.keepsOutput ctx.Builder (Generate L fuel g0 ctx))
    ∧ (MakePattern L (runes "ab$x") =
        some ({ src := runes "ab$x",
                gen := Generator.seqGroup 1 1
                  [Generator.particle 1 1 (chr 'a'), Generator.particle 1 1 (chr 'b'),
                   Generator.production 1 1 (runes "x") none] }, none)
      ∧ ∀ (fuel : Nat) (ctx : Ctx), ctx.tbl (runes "x") = none →
          Generate L (fuel + 2)
            (Generator.seqGroup 1 1
              [Generator.particle 1 1 (chr 'a'), Generator.particle 1 1 (chr 'b'),
               Generator.production 1 1 (runes "x") none]) ctx =
          Exec.ret { ctx with Builder := ctx.Builder ++ runes "ab" } 2
            (some (Error.unknownProduction (runes "x")))) := by
  refine ⟨?_, ?_, Generate_keepsOutput L, rfl, ?_⟩
  · rw [times_eq_timesLoop, ← hstart]
    have := timesLoop_stops_at_error f e c1 len j _ cs lens 0 hok hfail hj
    simpa using this
  · have := seqLoop_stops_at_error gen g post d2 slen e2 pre c d1 outs slens hrun hg 0
    simpa using this
  · intro fuel ctx hno
    rw [Generate]
    simp only [times, ne_eq, not_true_eq_false, if_false, timesLoop, seqLoop,
      Generate_particle_exact]
    have hx := Generate_production_unknown L
      { ctx with Builder := ctx.Builder ++ runesToString (List.replicate 1 (chr 'a'))
          ++ runesToString (List.replicate 1 (chr 'b')) } 1 1 fuel (runes "x") hno
    simp only [if_true] at hx
    rw [hx]
    simp [runesToString, invalidRune, chr, utf8Len, runes]

/-- Witness of `generation_error_short_circuits`: an action that writes `a` once and
then fails, and the children `a`, `b`, `$x`, `c` of a sequence with the empty table. -/
theorem generation_error_short_circuits_witness :
    times exampleLib exampleCtx 5 5
        (fun c => if c.Builder = [] then WriteRune c (chr 'a')
          else Exec.ret c 0 (some Error.eofError)) =
      Exec.ret { exampleCtx with Builder := [chr 'a'] }
        ((∑ i in Finset.range 1, (fun _ => 1) i) + 0) (some Error.eofError)
    ∧ seqLoop (Generate exampleLib 1)
        ([Generator.particle 1 1 (chr 'a'), Generator.particle 1 1 (chr 'b')]
          ++ Generator.production 1 1 (runes "x") none :: [Generator.particle 1 1 (chr 'c')])
        exampleCtx 0 =
      Exec.ret { exampleCtx with Builder := [chr 'a', chr 'b'] } ([1, 1].sum + 0)
        (some (Error.unknownProduction (runes "x"))) :=
  have h := generation_error_short_circuits exampleLib
    (fun c => if c.Builder = [] then WriteRune c (chr 'a')
      else Exec.ret c 0 (some Error.eofError))
    exampleCtx 5 5
    (fun i => { exampleCtx with Builder := List.replicate i (chr 'a') }) (fun _ => 1) 1
    { exampleCtx with Builder := [chr 'a'] } 0 Error.eofError
    (Generate exampleLib 1)
    [Generator.particle 1 1 (chr 'a'), Generator.particle 1 1 (chr 'b')]
    [Generator.particle 1 1 (chr 'c')]
    (Generator.production 1 1 (runes "x") none)
    exampleCtx { exampleCtx with Builder := [chr 'a', chr 'b'] }
    { exampleCtx with Builder := [chr 'a', chr 'b'] }
    [[chr 'a'], [chr 'b']] [1, 1] 0 (Error.unknownProduction (runes "x"))
    rfl
    (fun i hi => by
      have : i = 0 := by omega
      subst this
      rfl)
    rfl (by decide)
    (SeqRun.cons _ _ _ { exampleCtx with Builder := [chr 'a'] } _ _ _ _ _ rfl rfl
      (SeqRun.cons _ _ _ { exampleCtx with Builder := [chr 'a', chr 'b'] } _ _ _ _ _ rfl rfl
        (SeqRun.nil _)))
    rfl
  ⟨h.1, h.2.1.1⟩

/-! ### The three shapes of a range suffix (C16) -/

theorem isAsciiDigit_bounds (r : Int) (h : isAsciiDigit r = true) :
    (0x30 : Int) ≤ r ∧ r ≤ (0x39 : Int) := by
  simpa [isAsciiDigit] using h

theorem isAsciiDigit_valid (r : Int) (h : isAsciiDigit r = true) : invalidRune r = false := by
  obtain ⟨h1, h2⟩ := isAsciiDigit_bounds r h
  have a1 : ¬ r < 0 := by omega
  have a2 : ¬ (0x10FFFF : Int) < r := by omega
  have a3 : ¬ (0xD800 : Int) ≤ r := by omega
  simp [invalidRune, a1, a2, a3]

theorem isAsciiDigit_IsNumber (L : Lib) (r : Int) (h : isAsciiDigit r = true) :
    IsNumber L r = true := by
  obtain ⟨h1, h2⟩ := isAsciiDigit_bounds r h
  have h3 : r < (0x80 : Int) := by omega
  simp [IsNumber, isAsciiDigit_valid r h, h3, h1, h2]

theorem foldl_digits_le (ds : List Rune) :
    ∀ n : Nat, n ≤ ds.foldl (fun n r => n * 10 + (r - 0x30).toNat) n := by
  induction ds with
  | nil => intro n; exact le_refl _
  | cons d ds ih =>
    intro n
    simp only [List.foldl_cons]
    exact le_trans
      (le_trans (Nat.le_mul_of_pos_right n (by norm_num)) (Nat.le_add_right _ _)) (ih _)

theorem parseUintLoop_digits (ds : List Rune) (hds : ∀ r ∈ ds, isAsciiDigit r = true) :
    ∀ n : Nat, ds.foldl (fun n r => n * 10 + (r - 0x30).toNat) n < 2 ^ 63 →
      parseUintLoop ds n = some (some (ds.foldl (fun n r => n * 10 + (r - 0x30).toNat) n)) := by
  induction ds with
  | nil => intro n _; rfl
  | cons d ds ih =>
    intro n hn
    have hd := hds d (List.mem_cons_self _ _)
    have hd' : (decide (0x30 ≤ d) && decide (d ≤ 0x39)) = true := hd
    simp only [List.foldl_cons] at hn ⊢
    have hle := foldl_digits_le ds (n * 10 + (d - 0x30).toNat)
    have h1 : ¬ n ≥ (uintSize - 1) / 10 + 1 := by
      unfold uintSize
      omega
    have h2 : ¬ n * 10 + (d - 0x30).toNat ≥ uintSize := by
      unfold uintSize
      omega
    rw [parseUintLoop]
    simp only [hd', if_true, h1, if_false, h2]
    exact ih (fun r hr => hds r (List.mem_cons_of_mem _ hr)) _ hn

theorem Atoi_digits (ds : List Rune) (hds : ∀ r ∈ ds, isAsciiDigit r = true)
    (hv : decimalValue ds < 2 ^ 63) : Atoi ds = (decimalValue ds, none) := by
  unfold Atoi
  rw [parseUintLoop_digits ds hds 0 hv]
  have hq : ¬ List.foldl (fun n r => n * 10 + (r - 0x30).toNat) 0 ds ≥ 2 ^ 63 := by
    unfold decimalValue at hv
    omega
  simp only []
  rw [if_neg hq]
  rfl

theorem scanIntegerLoop_digits (L : Lib) (t : Rune) (post : List Rune)
    (ht : IsNumber L t = false) :
    ∀ (ds pre acc : List Rune) (k : Nat),
      (∀ r ∈ ds, isAsciiDigit r = true) → ds.length ≤ k →
      scanIntegerLoop L (pre ++ ds ++ t :: post) k pre.length acc =
        (acc ++ ds, pre.length + ds.length) := by
  intro ds
  induction ds with
  | nil =>
    intro pre acc k _ _
    cases k with
    | zero => simp [scanIntegerLoop]
    | succ k =>
      rw [List.append_nil, scanIntegerLoop]
      simp [peek_append_cons, ht]
  | cons d ds ih =>
    intro pre acc k hds hk
    cases k with
    | zero => simp at hk
    | succ k =>
      have hd := isAsciiDigit_IsNumber L d (hds d (List.mem_cons_self _ _))
      rw [scanIntegerLoop]
      have e : pre ++ d :: ds ++ t :: post = pre ++ d :: (ds ++ t :: post) := by simp
      rw [e]
      simp only [peek_append_cons, next_append_cons, hd, if_true]
      have := ih (pre ++ [d]) (acc ++ [d]) k (fun x hx => hds x (List.mem_cons_of_mem _ hx))
        (by simpa using hk)
      simpa [Nat.add_assoc, Nat.add_comm 1] using this

theorem scanInteger_digits (L : Lib) (pre ds : List Rune) (t : Rune) (post : List Rune)
    (hds : ∀ r ∈ ds, isAsciiDigit r = true) (hne : ds ≠ []) (ht : IsNumber L t = false)
    (hv : decimalValue ds < 2 ^ 63) :
    scanInteger L (pre ++ ds ++ t :: post) pre.length =
      (decimalValue ds, none, pre.length + ds.length) := by
  unfold scanInteger
  rw [scanIntegerLoop_digits L t post ht ds pre [] _ hds
    (by simp only [List.length_append, List.length_cons]; omega)]
  have hlen : 0 < ds.length := List.length_pos.mpr hne
  simp only [List.nil_append, gt_iff_lt, hlen, if_true]
  rw [runesToString_valid ds (fun r hr => isAsciiDigit_valid r (hds r hr)), Atoi_digits ds hds hv]

theorem scanRange_default (L : Lib) (src : List Rune) (pos : Nat)
    (h1 : peek src pos ≠ chr '?') (h2 : peek src pos ≠ chr '\x7b') :
    scanRange L src pos = (1, 1, none, pos) := by
  simp [scanRange, h1, h2]

theorem scanRange_question (L : Lib) (pre post : List Rune) :
    scanRange L (pre ++ chr '?' :: post) pre.length = (0, 1, none, pre.length + 1) := by
  simp [scanRange, peek_append_cons, next_append_cons]

theorem scanRange_explicit (L : Lib) (pre a b post : List Rune)
    (ha : ∀ r ∈ a, isAsciiDigit r = true) (hane : a ≠ [])
    (hb : ∀ r ∈ b, isAsciiDigit r = true) (hbne : b ≠ [])
    (hva : decimalValue a < 2 ^ 63) (hvb : decimalValue b < 2 ^ 63) :
    scanRange L (pre ++ chr '\x7b' :: (a ++ chr ',' :: (b ++ chr '\x7d' :: post))) pre.length =
      (decimalValue a, decimalValue b, none, pre.length + a.length + b.length + 3) := by
  obtain ⟨src, hsrc⟩ : ∃ src, src = pre ++ chr '\x7b' :: (a ++ chr ',' :: (b ++ chr '\x7d' :: post)) :=
    ⟨_, rfl⟩
  rw [← hsrc]
  have hcomma : IsNumber L (chr ',') = false := rfl
  have hbrace : IsNumber L (chr '\x7d') = false := rfl
  have hp0 : peek src pre.length = chr '\x7b' := by rw [hsrc, peek_append_cons]
  have hn0 : next src pre.length = (chr '\x7b', pre.length + 1) := by
    rw [hsrc, next_append_cons]
  have hI1 : scanInteger L src (pre.length + 1) =
      (decimalValue a, none, pre.length + 1 + a.length) := by
    have := scanInteger_digits L (pre ++ [chr '\x7b']) a (chr ',') (b ++ chr '\x7d' :: post)
      ha hane hcomma hva
    rw [show pre ++ [chr '\x7b'] ++ a ++ chr ',' :: (b ++ chr '\x7d' :: post) = src by
      rw [hsrc]; simp, List.length_append, List.length_singleton] at this
    exact this
  have hn1 : next src (pre.length + 1 + a.length) = (chr ',', pre.length + 1 + a.length + 1) := by
    have := next_append_cons (pre ++ [chr '\x7b'] ++ a) (b ++ chr '\x7d' :: post) (chr ',')
    rw [show pre ++ [chr '\x7b'] ++ a ++ chr ',' :: (b ++ chr '\x7d' :: post) = src by
      rw [hsrc]; simp] at this
    simp only [List.length_append, List.length_singleton] at this
    exact this
  have hI2 : scanInteger L src (pre.length + 1 + a.length + 1) =
      (decimalValue b, none, pre.length + 1 + a.length + 1 + b.length) := by
    have := scanInteger_digits L (pre ++ [chr '\x7b'] ++ a ++ [chr ',']) b (chr '\x7d') post
      hb hbne hbrace hvb
    rw [show pre ++ [chr '\x7b'] ++ a ++ [chr ','] ++ b ++ chr '\x7d' :: post = src by
      rw [hsrc]; simp] at this
    simp only [List.length_append, List.length_singleton] at this
    exact this
  have hn2 : next src (pre.length + 1 + a.length + 1 + b.length) =
      (chr '\x7d', pre.length + 1 + a.length + 1 + b.length + 1) := by
    have := next_append_cons (pre ++ [chr '\x7b'] ++ a ++ [chr ','] ++ b) post (chr '\x7d')
    rw [show pre ++ [chr '\x7b'] ++ a ++ [chr ','] ++ b ++ chr '\x7d' :: post = src by
      rw [hsrc]; simp] at this
    simp only [List.length_append, List.length_singleton] at this
    exact this
  have hq : chr '\x7b' ≠ chr '?' := by decide
  unfold scanRange
  simp only [hp0, hq, if_false, if_true, hn0, hI1, hn1, hI2, hn2, ne_eq, not_true_eq_false]
  congr 3
  omega

/-- Claim C16. `scanRange` reads the three shapes of a suffix: at `?` it consumes one
rune and returns `{0,1}`; at `{a,b}`, where `a` and `b` are non-empty runs of ASCII
decimal digits with values below `2 ^ 63`, it consumes the whole suffix and returns
the two values; at any other rune, and at the end of the source, it returns `{1,1}`
and leaves the position where it was. No error is returned in these cases. -/
theorem scanRange_three_shapes (L : Lib) (pre a b post src : List Rune) (pos : Nat)
    (ha : ∀ r ∈ a, isAsciiDigit r = true) (hane : a ≠ [])
    (hb : ∀ r ∈ b, isAsciiDigit r = true) (hbne : b ≠ [])
    (hva : decimalValue a < 2 ^ 63) (hvb : decimalValue b < 2 ^ 63) :
    scanRange L (pre ++ chr '?' :: post) pre.length = (0, 1, none, pre.length + 1)
    ∧ scanRange L (pre ++ chr '\x7b' :: (a ++ chr ',' :: (b ++ chr '\x7d' :: post))) pre.length =
        (decimalValue a, decimalValue b, none, pre.length + a.length + b.length + 3)
    ∧ (peek src pos ≠ chr '?' → peek src pos ≠ chr '\x7b' →
        scanRange L src pos = (1, 1, none, pos))
    ∧ scanRange L src src.length = (1, 1, none, src.length) :=
  ⟨scanRange_question L pre post,
    scanRange_explicit L pre a b post ha hane hb hbne hva hvb,
    scanRange_default L src pos,
    scanRange_length L src⟩

/-- Witness of `scanRange_three_shapes`: the suffix `{12,345}` after `a`. -/
theorem scanRange_three_shapes_witness :
    decimalValue (runes "12") = 12 ∧ decimalValue (runes "345") = 345
    ∧ scanRange exampleLib (runes "a\x7b12,345\x7db") 1 = (12, 345, none, 9) :=
  ⟨by decide, by decide,
    (scanRange_three_shapes exampleLib (runes "a") (runes "12") (runes "345") (runes "b")
      (runes "ab") 1 (by decide) (by decide) (by decide) (by decide) (by decide)
      (by decide)).2.1⟩

/-! ### Plain literals (C13, C19) -/

theorem isSpecial_false (r : Rune) (h : isSpecial r = false) :
    r ≠ chr '\t' ∧ r ≠ chr ' ' ∧ r ≠ chr '\\' ∧ r ≠ chr '[' ∧ r ≠ chr '(' ∧ r ≠ chr '$'
      ∧ r ≠ chr '?' ∧ r ≠ chr '\x7b' := by
  have h' : ((((((r ≠ chr '\t' ∧ r ≠ chr ' ') ∧ r ≠ chr '\\') ∧ r ≠ chr '[') ∧ r ≠ chr '(')
      ∧ r ≠ chr '$') ∧ r ≠ chr '?') ∧ r ≠ chr '\x7b' := by
    simpa [isSpecial] using h
  obtain ⟨⟨⟨⟨⟨⟨⟨a1, a2⟩, a3⟩, a4⟩, a5⟩, a6⟩, a7⟩, a8⟩ := h'
  exact ⟨a1, a2, a3, a4, a5, a6, a7, a8⟩

theorem peek_plain (pre rest : List Rune) (h : ∀ r ∈ rest, isSpecial r = false) :
    peek (pre ++ rest) pre.length ≠ chr '?' ∧ peek (pre ++ rest) pre.length ≠ chr '\x7b' := by
  cases rest with
  | nil =>
    rw [List.append_nil, peek_length]
    exact ⟨by decide, by decide⟩
  | cons r rs =>
    rw [peek_append_cons]
    have := isSpecial_false r (h r (List.mem_cons_self _ _))
    exact ⟨this.2.2.2.2.2.2.1, this.2.2.2.2.2.2.2⟩

theorem scanNext_plain (L : Lib) (pre post : List Rune) (r : Rune) (fuel : Nat) (b : Bool)
    (hr : isSpecial r = false) (heof : r ≠ EOF) (hpost : ∀ x ∈ post, isSpecial x = false) :
    scanNext L (pre ++ r :: post) (fuel + 1) pre.length b =
      some (some (Generator.particle 1 1 r), none, pre.length + 1) := by
  obtain ⟨h1, h2, h3, h4, h5, h6, _, _⟩ := isSpecial_false r hr
  have hp := peek_plain (pre ++ [r]) post hpost
  simp only [List.append_assoc, List.singleton_append, List.length_append,
    List.length_singleton] at hp
  rw [scanNext, next_append_cons]
  simp only [h1, h2, h3, h4, h5, h6, heof, or_self, if_false,
    scanRange_default L _ _ hp.1 hp.2]

theorem scanNext_length_noEof (L : Lib) (src : List Rune) (fuel pos : Nat)
    (hpos : pos = src.length) :
    scanNext L src (fuel + 1) pos false = some (none, some Error.eofError, pos) := by
  subst hpos
  rw [scanNext, next_length]
  rfl

theorem makePatternLoop_plain (L : Lib) :
    ∀ (rest pre : List Rune) (acc : List Generator) (k : Nat),
      (∀ r ∈ rest, isSpecial r = false) → (∀ r ∈ rest, r ≠ EOF) → rest.length < k →
      makePatternLoop L (pre ++ rest) k pre.length acc =
        some (acc ++ rest.map (Generator.particle 1 1), none) := by
  intro rest
  induction rest with
  | nil =>
    intro pre acc k _ _ hk
    obtain ⟨m, rfl⟩ : ∃ m, k = m + 1 := ⟨k - 1, by simp at hk; omega⟩
    rw [makePatternLoop_length L _ m _ acc (by simp)]
    simp
  | cons r rs ih =>
    intro pre acc k hs he hk
    obtain ⟨m, rfl⟩ : ∃ m, k = m + 1 := ⟨k - 1, by simp at hk; omega⟩
    rw [makePatternLoop, scanNext_plain L pre rs r _ true (hs r (List.mem_cons_self _ _))
      (he r (List.mem_cons_self _ _)) (fun x hx => hs x (List.mem_cons_of_mem _ hx))]
    simp only []
    have := ih (pre ++ [r]) (acc ++ [Generator.particle 1 1 r]) m
      (fun x hx => hs x (List.mem_cons_of_mem _ hx))
      (fun x hx => he x (List.mem_cons_of_mem _ hx)) (by simp at hk; omega)
    simpa using this

theorem seqLoop_particles (L : Lib) (fuel : Nat) :
    ∀ (vals : List Rune) (c : Ctx) (acc : Nat),
      seqLoop (Generate L (fuel + 1)) (vals.map (Generator.particle 1 1)) c acc =
        Exec.ret { c with Builder := c.Builder ++ runesToString vals }
          (acc + utf8ByteLength vals) none := by
  intro vals
  induction vals with
  | nil => intro c acc; simp [seqLoop, runesToString, utf8ByteLength]
  | cons v vs ih =>
    intro c acc
    rw [List.map_cons, seqLoop, Generate_particle_exact]
    simp only []
    rw [ih]
    simp only [runesToString, utf8ByteLength, List.replicate_succ, List.replicate_zero,
      List.map_cons, List.map_nil, List.append_assoc, List.singleton_append, List.sum_cons,
      Nat.one_mul]
    congr 1
    omega

/-- Claim C19. A source of valid code points, none of them tab, space, backslash,
`[`, `(`, `$`, `?` or the opening brace, compiles without error to the root Sequence
`{1,1}` whose children are the Particles `{1,1}` of its code points in order; and
generating it appends exactly the source (from an empty accumulator the output is the
source), makes no draw and reports the number of bytes of the UTF-8 encoding of the
source, which is 2 for the one code point U+00E9. -/
theorem literal_round_trip (L : Lib) (s : List Rune) (ctx : Ctx) (fuel : Nat)
    (hplain : ∀ r ∈ s, isSpecial r = false) (hvalid : ∀ r ∈ s, invalidRune r = false) :
    MakePattern L s =
        some ({ src := s, gen := Generator.seqGroup 1 1 (s.map (Generator.particle 1 1)) },
          none)
    ∧ Generate L (fuel + 2) (Generator.seqGroup 1 1 (s.map (Generator.particle 1 1))) ctx =
        Exec.ret { ctx with Builder := ctx.Builder ++ s } (utf8ByteLength s) none
    ∧ (ctx.Builder = [] →
        Generate L (fuel + 2) (Generator.seqGroup 1 1 (s.map (Generator.particle 1 1))) ctx =
          Exec.ret { ctx with Builder := s } (utf8ByteLength s) none)
    ∧ (utf8ByteLength [0xE9] = 2 ∧ [(0xE9 : Rune)].length = 1) := by
  have heof : ∀ r ∈ s, r ≠ EOF := by
    intro r hr h
    have := hvalid r hr
    rw [h] at this
    revert this
    decide
  have hgen : Generate L (fuel + 2) (Generator.seqGroup 1 1 (s.map (Generator.particle 1 1)))
      ctx = Exec.ret { ctx with Builder := ctx.Builder ++ s } (utf8ByteLength s) none := by
    rw [Generate]
    simp only [times, ne_eq, not_true_eq_false, if_false, timesLoop, seqLoop_particles,
      Nat.zero_add, runesToString_valid s hvalid]
  refine ⟨?_, hgen, ?_, by decide, rfl⟩
  · unfold MakePattern
    have := makePatternLoop_plain L s [] [] (s.length + 1) hplain heof (by omega)
    simp only [List.nil_append, List.length_nil] at this
    rw [this, runesToString_valid s hvalid]
  · intro hb
    rw [hgen, hb, List.nil_append]

/-- Witness of `literal_round_trip`: the source `a]é` in the example context. -/
theorem literal_round_trip_witness :
    MakePattern exampleLib [chr 'a', chr ']', 0xE9] =
        some ({ src := [chr 'a', chr ']', 0xE9],
                gen := Generator.seqGroup 1 1
                  ([chr 'a', chr ']', 0xE9].map (Generator.particle 1 1)) }, none)
    ∧ Generate exampleLib 2
        (Generator.seqGroup 1 1 ([chr 'a', chr ']', 0xE9].map (Generator.particle 1 1)))
        exampleCtx =
      Exec.ret { exampleCtx with Builder := exampleCtx.Builder ++ [chr 'a', chr ']', 0xE9] }
        (utf8ByteLength [chr 'a', chr ']', 0xE9]) none
    ∧ utf8ByteLength [chr 'a', chr ']', 0xE9] = 4 :=
  have h := literal_round_trip exampleLib [chr 'a', chr ']', 0xE9] exampleCtx 0
    (by decide) (by decide)
  ⟨h.1, h.2.1, by decide⟩

theorem scanGroupLoop_unterminated (L : Lib) (close : Rune) (hclose : isCloser close = true)
    (fuel : Nat) :
    ∀ (rest pre : List Rune) (acc : List Generator) (k : Nat),
      (∀ r ∈ rest, isSpecial r = false ∧ isCloser r = false) → rest.length < k →
      ∃ pos1, scanGroupLoop close (pre ++ rest)
          (fun p => scanNext L (pre ++ rest) (fuel + 1) p false) k pre.length acc =
        some (none, some Error.eofError, pos1) := by
  have hceof : EOF ≠ close := by
    intro h
    rw [← h] at hclose
    revert hclose
    decide
  intro rest
  induction rest with
  | nil =>
    intro pre acc k _ hk
    obtain ⟨m, rfl⟩ : ∃ m, k = m + 1 := ⟨k - 1, by simp at hk; omega⟩
    refine ⟨pre.length, ?_⟩
    rw [List.append_nil, scanGroupLoop, peek_length]
    simp only [hceof, if_false, scanNext_length_noEof L pre fuel pre.length rfl]
  | cons r rs ih =>
    intro pre acc k hall hk
    obtain ⟨m, rfl⟩ : ∃ m, k = m + 1 := ⟨k - 1, by simp at hk; omega⟩
    obtain ⟨hs, hc⟩ := hall r (List.mem_cons_self _ _)
    have hrc : r ≠ close := by
      intro h
      rw [h, hclose] at hc
      exact Bool.noConfusion hc
    rw [scanGroupLoop, peek_append_cons]
    simp only [hrc, if_false]
    by_cases heof : r = EOF
    · refine ⟨pre.length + 1, ?_⟩
      have : scanNext L (pre ++ r :: rs) (fuel + 1) pre.length false =
          some (none, some Error.eofError, pre.length + 1) := by
        rw [scanNext, next_append_cons, heof]
        rfl
      rw [this]
    · rw [scanNext_plain L pre rs r fuel false hs heof
        (fun x hx => (hall x (List.mem_cons_of_mem _ hx)).1)]
      simp only []
      have := ih (pre ++ [r]) (acc ++ [Generator.particle 1 1 r]) m
        (fun x hx => hall x (List.mem_cons_of_mem _ hx)) (by simp at hk; omega)
      simpa using this

theorem compile_unterminated_alt (L : Lib) (body : List Rune)
    (hbody : ∀ r ∈ body, isSpecial r = false ∧ isCloser r = false) :
    MakePattern L (chr '[' :: body) =
      some ({ src := runesToString (chr '[' :: body), gen := Generator.seqGroup 1 1 [] },
        some Error.eofError) := by
  obtain ⟨pos1, h⟩ := scanGroupLoop_unterminated L (chr ']') (by decide) body.length
    body [chr '['] [] ((chr '[' :: body).length - 1 + 1) hbody
    (by simp only [List.length_cons]; omega)
  have hn : scanNext L (chr '[' :: body) ((chr '[' :: body).length + 1) 0 true =
      some (none, some Error.eofError, pos1) := by
    rw [scanNext]
    have hnx : next (chr '[' :: body) 0 = (chr '[', 1) := by simp [next]
    rw [hnx]
    have e1 : ¬ (chr '[' = chr '\t' ∨ chr '[' = chr ' ') := by decide
    have e2 : chr '[' ≠ chr '\\' := by decide
    simp only [e1, e2, if_false, if_true, scanAltGroup]
    simp only [List.singleton_append, List.length_singleton, List.length_cons,
      List.length_nil, Nat.zero_add] at h
    simp only [List.length_cons]
    rw [h]
  unfold MakePattern
  rw [makePatternLoop, hn]

theorem compile_unterminated_seq (L : Lib) (body : List Rune)
    (hbody : ∀ r ∈ body, isSpecial r = false ∧ isCloser r = false) :
    MakePattern L (chr '(' :: body) =
      some ({ src := runesToString (chr '(' :: body), gen := Generator.seqGroup 1 1 [] },
        some Error.eofError) := by
  obtain ⟨pos1, h⟩ := scanGroupLoop_unterminated L (chr ')') (by decide) body.length
    body [chr '('] [] ((chr '(' :: body).length - 1 + 1) hbody
    (by simp only [List.length_cons]; omega)
  have hn : scanNext L (chr '(' :: body) ((chr '(' :: body).length + 1) 0 true =
      some (none, some Error.eofError, pos1) := by
    rw [scanNext]
    have hnx : next (chr '(' :: body) 0 = (chr '(', 1) := by simp [next]
    rw [hnx]
    have e1 : ¬ (chr '(' = chr '\t' ∨ chr '(' = chr ' ') := by decide
    have e2 : chr '(' ≠ chr '\\' := by decide
    have e3 : chr '(' ≠ chr '[' := by decide
    simp only [e1, e2, e3, if_false, if_true, scanSeqGroup]
    simp only [List.singleton_append, List.length_singleton, List.length_cons,
      List.length_nil, Nat.zero_add] at h
    simp only [List.length_cons]
    rw [h]
  unfold MakePattern
  rw [makePatternLoop, hn]

/-- Claim C13. A source made of `[` or `(` followed by any number of runes that are
none of tab, space, backslash, `[`, `(`, `$`, `?`, the opening brace, `]` and `)`
does not compile to a pattern that holds the group: `MakePattern` returns `eofError`
(kind `UnexpectedEOF`) and a root sequence without children. -/
theorem unterminated_group_is_eof (L : Lib) (body : List Rune)
    (hbody : ∀ r ∈ body, isSpecial r = false ∧ isCloser r = false) :
    MakePattern L (chr '[' :: body) =
        some ({ src := runesToString (chr '[' :: body), gen := Generator.seqGroup 1 1 [] },
          some Error.eofError)
    ∧ MakePattern L (chr '(' :: body) =
        some ({ src := runesToString (chr '(' :: body), gen := Generator.seqGroup 1 1 [] },
          some Error.eofError)
    ∧ Error.eofError.kind = ErrorKind.UnexpectedEOF :=
  ⟨compile_unterminated_alt L body hbody, compile_unterminated_seq L body hbody, rfl⟩

/-- Witness of `unterminated_group_is_eof`: the body `abc`. -/
theorem unterminated_group_is_eof_witness :
    MakePattern exampleLib (chr '[' :: runes "abc") =
        some ({ src := runesToString (chr '[' :: runes "abc"),
                gen := Generator.seqGroup 1 1 [] }, some Error.eofError)
    ∧ MakePattern exampleLib (chr '(' :: runes "abc") =
        some ({ src := runesToString (chr '(' :: runes "abc"),
                gen := Generator.seqGroup 1 1 [] }, some Error.eofError) :=
  have h := unterminated_group_is_eof exampleLib (runes "abc") (by decide)
  ⟨h.1, h.2.1⟩

/-! ### Positions and termination of the parser (C20) -/

theorem next_bounds (src : List Rune) (pos : Nat) :
    pos ≤ (next src pos).2 ∧ (pos ≤ src.length → (next src pos).2 ≤ src.length) := by
  unfold next
  split
  · simp
  · simp
    omega

theorem next_of_lt (src : List Rune) (pos : Nat) (h : pos < src.length) :
    (next src pos).2 = pos + 1 := by
  simp [next, Nat.not_le_of_lt h]

theorem next_of_ge (src : List Rune) (pos : Nat) (h : src.length ≤ pos) :
    next src pos = (EOF, pos) := by
  simp [next, h]

theorem peek_of_ge (src : List Rune) (pos : Nat) (h : src.length ≤ pos) :
    peek src pos = EOF := by
  simp [peek, h]

theorem next_fst (src : List Rune) (pos : Nat) : (next src pos).1 = peek src pos := by
  unfold next peek
  split <;> rfl

theorem lt_of_peek_ne_EOF (src : List Rune) (pos : Nat) (h : peek src pos ≠ EOF) :
    pos < src.length := by
  by_contra hc
  exact h (peek_of_ge src pos (Nat.le_of_not_lt hc))

theorem scanIntegerLoop_bounds (L : Lib) (src : List Rune) :
    ∀ (k pos : Nat) (str : List Rune),
      pos ≤ (scanIntegerLoop L src k pos str).2
        ∧ (pos ≤ src.length → (scanIntegerLoop L src k pos str).2 ≤ src.length) := by
  intro k
  induction k with
  | zero => intro pos str; simp [scanIntegerLoop]
  | succ k ih =>
    intro pos str
    rw [scanIntegerLoop]
    split
    · obtain ⟨h1, h2⟩ := ih (next src pos).2 (str ++ [peek src pos])
      obtain ⟨n1, n2⟩ := next_bounds src pos
      exact ⟨le_trans n1 h1, fun h => h2 (n2 h)⟩
    · simp

theorem scanInteger_bounds (L : Lib) (src : List Rune) (pos : Nat) :
    pos ≤ (scanInteger L src pos).2.2
      ∧ (pos ≤ src.length → (scanInteger L src pos).2.2 ≤ src.length) := by
  have h := scanIntegerLoop_bounds L src (src.length - pos) pos []
  unfold scanInteger
  simp only []
  split <;> exact h

theorem scanIdentLoop_bounds (L : Lib) (src : List Rune) :
    ∀ (k pos : Nat) (val : List Rune),
      pos ≤ (scanIdentLoop L src k pos val).2
        ∧ (pos ≤ src.length → (scanIdentLoop L src k pos val).2 ≤ src.length) := by
  intro k
  induction k with
  | zero => intro pos val; simp [scanIdentLoop]
  | succ k ih =>
    intro pos val
    rw [scanIdentLoop]
    split
    · simp
    · obtain ⟨h1, h2⟩ := ih (next src pos).2 (val ++ [peek src pos])
      obtain ⟨n1, n2⟩ := next_bounds src pos
      exact ⟨le_trans n1 h1, fun h => h2 (n2 h)⟩

theorem scanIdent_bounds (L : Lib) (src : List Rune) (pos : Nat) :
    pos ≤ (scanIdent L src pos).2.2
      ∧ (pos ≤ src.length → (scanIdent L src pos).2.2 ≤ src.length) := by
  unfold scanIdent
  simp only []
  split
  · obtain ⟨h1, h2⟩ := scanIdentLoop_bounds L src (src.length - (next src pos).2)
      (next src pos).2 [peek src pos]
    obtain ⟨n1, n2⟩ := next_bounds src pos
    exact ⟨le_trans n1 h1, fun h => h2 (n2 h)⟩
  · simp

theorem scanRange_bounds (L : Lib) (src : List Rune) (pos : Nat) :
    pos ≤ (scanRange L src pos).2.2.2
      ∧ (pos ≤ src.length → (scanRange L src pos).2.2.2 ≤ src.length) := by
  obtain ⟨n1, n2⟩ := next_bounds src pos
  unfold scanRange
  simp only []
  split
  · exact ⟨n1, n2⟩
  · split
    · obtain ⟨a1, a2⟩ := scanInteger_bounds L src (next src pos).2
      split
      · rename_i rngMin e pos2 heq
        rw [heq] at a1 a2
        exact ⟨le_trans n1 a1, fun h => a2 (n2 h)⟩
      · rename_i rngMin pos2 heq
        rw [heq] at a1 a2
        simp only at a1 a2
        obtain ⟨b1, b2⟩ := next_bounds src pos2
        split
        · exact ⟨le_trans n1 (le_trans a1 b1), fun h => b2 (a2 (n2 h))⟩
        · obtain ⟨c1, c2⟩ := scanInteger_bounds L src (next src pos2).2
          split
          · rename_i rngMax e pos4 heq2
            rw [heq2] at c1 c2
            exact ⟨le_trans n1 (le_trans a1 (le_trans b1 c1)), fun h => c2 (b2 (a2 (n2 h)))⟩
          · rename_i rngMax pos4 heq2
            rw [heq2] at c1 c2
            simp only at c1 c2
            obtain ⟨d1, d2⟩ := next_bounds src pos4
            split
            · exact ⟨le_trans n1 (le_trans a1 (le_trans b1 (le_trans c1 d1))),
                fun h => d2 (c2 (b2 (a2 (n2 h))))⟩
            · exact ⟨le_trans n1 (le_trans a1 (le_trans b1 (le_trans c1 d1))),
                fun h => d2 (c2 (b2 (a2 (n2 h))))⟩
    · simp

theorem scanProduction_bounds (L : Lib) (src : List Rune) (pos : Nat) :
    pos ≤ (scanProduction L src pos).2.2
      ∧ (pos ≤ src.length → (scanProduction L src pos).2.2 ≤ src.length)
      ∧ ((scanProduction L src pos).1.isSome = true → pos < (scanProduction L src pos).2.2)
      ∧ ((scanProduction L src pos).2.1 = none → (scanProduction L src pos).1.isSome = true) := by
  unfold scanProduction
  split
  · simp
  · rename_i hpk
    obtain ⟨i1, i2⟩ := scanIdent_bounds L src pos
    split
    · rename_i name pos1 heq
      rw [heq] at i1 i2
      simp only at i1 i2
      obtain ⟨r1, r2⟩ := scanRange_bounds L src pos1
      have hlt : pos < pos1 := by
        have hpl := lt_of_peek_ne_EOF src pos hpk
        unfold scanIdent at heq
        simp only [] at heq
        split at heq
        · have hb := (scanIdentLoop_bounds L src (src.length - (next src pos).2)
            (next src pos).2 [peek src pos]).1
          simp only [Prod.mk.injEq] at heq
          rw [heq.2.2, next_of_lt src pos hpl] at hb
          omega
        · simp at heq
      rcases hsr : scanRange L src pos1 with ⟨mn, mx, er, p2⟩
      rw [hsr] at r1 r2
      simp only at r1 r2 ⊢
      exact ⟨by omega, fun h => r2 (i2 h), fun _ => by omega, fun _ => rfl⟩
    · rename_i e pos1 heq
      rw [heq] at i1 i2
      simp only at i1 i2
      exact ⟨i1, i2, by simp, by simp⟩

theorem scanGroupLoop_total (close : Rune) (src : List Rune) (sn : Nat → Option Scanned)
    (pos0 : Nat) (hclose : close ≠ EOF)
    (hsn : ∀ p, pos0 ≤ p → p ≤ src.length → ∃ r, sn p = some r ∧ scannedOk src p false r) :
    ∀ (k pos : Nat) (acc : List Generator),
      pos0 ≤ pos → pos ≤ src.length → src.length - pos < k →
      ∃ res e pos1, scanGroupLoop close src sn k pos acc = some (res, e, pos1)
        ∧ pos ≤ pos1 ∧ pos1 ≤ src.length ∧ (pos < pos1 ∨ pos = src.length)
        ∧ (res.isSome = true → pos < pos1) ∧ (e = none → res.isSome = true) := by
  intro k
  induction k with
  | zero => intro pos acc _ _ hk; omega
  | succ k ih =>
    intro pos acc h0 hle hk
    rw [scanGroupLoop]
    split
    · rename_i hpk
      have hlt : pos < src.length := lt_of_peek_ne_EOF src pos (by rw [hpk]; exact hclose)
      refine ⟨some acc, none, (next src pos).2, rfl, ?_⟩
      rw [next_of_lt src pos hlt]
      exact ⟨by omega, by omega, Or.inl (by omega), fun _ => by omega, fun _ => rfl⟩
    · obtain ⟨r, hr, h1, h2, h3, h4, h5⟩ := hsn pos h0 hle
      rw [hr]
      rcases r with ⟨g, e, p1⟩
      simp only at h1 h2 h3 h4 h5
      cases e with
      | some err =>
        cases g <;> exact ⟨none, some err, p1, rfl, h1, h2, h3, by simp, by simp⟩
      | none =>
        cases g with
        | none => simp at h5
        | some gen =>
          have hlt : pos < p1 := h4 rfl
          obtain ⟨res, e, pos1, he, b1, b2, _, b4, b5⟩ :=
            ih p1 (acc ++ [gen]) (by omega) h2 (by omega)
          exact ⟨res, e, pos1, he, by omega, b2, Or.inl (by omega), fun _ => by omega, b5⟩

theorem scanAltGroup_total (L : Lib) (src : List Rune) (sn : Nat → Option Scanned)
    (pos : Nat) (b : Bool) (hle : pos ≤ src.length)
    (hsn : ∀ p, pos ≤ p → p ≤ src.length → ∃ r, sn p = some r ∧ scannedOk src p false r) :
    ∃ r, scanAltGroup L src sn pos = some r ∧ scannedOk src pos b r := by
  obtain ⟨res, e, pos1, he, b1, b2, b3, b4, b5⟩ :=
    scanGroupLoop_total (chr ']') src sn pos (by decide) hsn (src.length - pos + 1) pos []
      (le_refl _) hle (by omega)
  unfold scanAltGroup
  cases res with
  | none =>
    rw [he]
    exact ⟨_, rfl, b1, b2, b3, by simp, fun _ h => by simpa using b5 h⟩
  | some alt =>
    rw [he]
    simp only []
    obtain ⟨r1, r2⟩ := scanRange_bounds L src pos1
    have hlt := b4 rfl
    rcases hsr : scanRange L src pos1 with ⟨mn, mx, er, p2⟩
    rw [hsr] at r1 r2
    simp only at r1 r2 ⊢
    exact ⟨_, rfl, by simp only []; omega, r2 b2, Or.inl (by simp only []; omega),
      fun _ => by simp only []; omega, fun _ _ => rfl⟩

theorem scanSeqGroup_total (L : Lib) (src : List Rune) (sn : Nat → Option Scanned)
    (pos : Nat) (b : Bool) (hle : pos ≤ src.length)
    (hsn : ∀ p, pos ≤ p → p ≤ src.length → ∃ r, sn p = some r ∧ scannedOk src p false r) :
    ∃ r, scanSeqGroup L src sn pos = some r ∧ scannedOk src pos b r := by
  obtain ⟨res, e, pos1, he, b1, b2, b3, b4, b5⟩ :=
    scanGroupLoop_total (chr ')') src sn pos (by decide) hsn (src.length - pos + 1) pos []
      (le_refl _) hle (by omega)
  unfold scanSeqGroup
  cases res with
  | none =>
    rw [he]
    exact ⟨_, rfl, b1, b2, b3, by simp, fun _ h => by simpa using b5 h⟩
  | some seq =>
    rw [he]
    simp only []
    obtain ⟨r1, r2⟩ := scanRange_bounds L src pos1
    have hlt := b4 rfl
    rcases hsr : scanRange L src pos1 with ⟨mn, mx, er, p2⟩
    rw [hsr] at r1 r2
    simp only at r1 r2 ⊢
    exact ⟨_, rfl, by simp only []; omega, r2 b2, Or.inl (by simp only []; omega),
      fun _ => by simp only []; omega, fun _ _ => rfl⟩

theorem scannedOk_shift (src : List Rune) (pos p1 : Nat) (b b1 : Bool) (r : Scanned)
    (hlt : pos < p1) (hb : b = false → b1 = false) (h : scannedOk src p1 b1 r) :
    scannedOk src pos b r := by
  obtain ⟨h1, h2, _, _, h5⟩ := h
  exact ⟨by omega, h2, Or.inl (by omega), fun _ => by omega, fun hbf => h5 (hb hbf)⟩

theorem scanNext_total (L : Lib) (src : List Rune) :
    ∀ (fuel pos : Nat) (b : Bool), pos ≤ src.length → src.length - pos < fuel →
      ∃ r, scanNext L src fuel pos b = some r ∧ scannedOk src pos b r := by
  intro fuel
  induction fuel with
  | zero => intro pos b _ hf; omega
  | succ fuel ih =>
    intro pos b hle hf
    have hch := next_fst src pos
    have hnb := next_bounds src pos
    rw [scanNext]
    simp only []
    split
    · rename_i hws
      have hlt : pos < src.length := lt_of_peek_ne_EOF src pos (by
        rw [← hch]; rcases hws with h | h <;> rw [h] <;> decide)
      have hn := next_of_lt src pos hlt
      obtain ⟨r, hr, hok⟩ := ih (next src pos).2 b (by omega) (by omega)
      exact ⟨r, hr, scannedOk_shift src pos _ b b r (by omega) id hok⟩
    · split
      · rename_i hesc
        have hlt : pos < src.length := lt_of_peek_ne_EOF src pos (by
          rw [← hch, hesc]; decide)
        have hn := next_of_lt src pos hlt
        obtain ⟨m1, m2⟩ := next_bounds src (next src pos).2
        obtain ⟨r, hr, hok⟩ := ih (next src (next src pos).2).2 false
          (m2 (by omega)) (by omega)
        exact ⟨r, hr, scannedOk_shift src pos _ b false r (by omega) (fun _ => rfl) hok⟩
      · split
        · rename_i hbr
          have hlt : pos < src.length := lt_of_peek_ne_EOF src pos (by
            rw [← hch, hbr]; decide)
          have hn := next_of_lt src pos hlt
          obtain ⟨r, hr, hok⟩ := scanAltGroup_total L src
            (fun p => scanNext L src fuel p false) (next src pos).2 b (by omega)
            (fun p hp hpl => ih p false hpl (by omega))
          exact ⟨r, hr, scannedOk_shift src pos _ b b r (by omega) id hok⟩
        · split
          · rename_i hbr
            have hlt : pos < src.length := lt_of_peek_ne_EOF src pos (by
              rw [← hch, hbr]; decide)
            have hn := next_of_lt src pos hlt
            obtain ⟨r, hr, hok⟩ := scanSeqGroup_total L src
              (fun p => scanNext L src fuel p false) (next src pos).2 b (by omega)
              (fun p hp hpl => ih p false hpl (by omega))
            exact ⟨r, hr, scannedOk_shift src pos _ b b r (by omega) id hok⟩
          · split
            · rename_i hd
              have hlt : pos < src.length := lt_of_peek_ne_EOF src pos (by
                rw [← hch, hd]; decide)
              have hn := next_of_lt src pos hlt
              obtain ⟨p1, p2, p3, p4⟩ := scanProduction_bounds L src (next src pos).2
              exact ⟨_, rfl, by omega, p2 (by omega), Or.inl (by omega), fun _ => by omega,
                fun _ h => p4 h⟩
            · split
              · refine ⟨(none, if (!b) = true then some Error.eofError else none,
                  (next src pos).2), by split <;> rfl, hnb.1, hnb.2 hle, ?_, by simp, ?_⟩
                · by_cases hlt : pos < src.length
                  · left; rw [next_of_lt src pos hlt]; omega
                  · right; omega
                · intro hb
                  simp [hb]
              · rename_i hne
                have hlt : pos < src.length := lt_of_peek_ne_EOF src pos (by
                  rw [← hch]; exact hne)
                have hn := next_of_lt src pos hlt
                obtain ⟨r1, r2⟩ := scanRange_bounds L src (next src pos).2
                rcases hsr : scanRange L src (next src pos).2 with ⟨mn, mx, er, p2⟩
                rw [hsr] at r1 r2
                simp only at r1 r2 ⊢
                exact ⟨_, rfl, by simp only []; omega, r2 (by omega),
                  Or.inl (by simp only []; omega), fun _ => by simp only []; omega,
                  fun _ _ => rfl⟩

theorem makePatternLoop_total (L : Lib) (src : List Rune) :
    ∀ (k pos : Nat) (acc : List Generator), pos ≤ src.length → src.length - pos < k →
      ∃ seq e, makePatternLoop L src k pos acc = some (seq, e) := by
  intro k
  induction k with
  | zero => intro pos acc _ hk; omega
  | succ k ih =>
    intro pos acc hle hk
    obtain ⟨r, hr, h1, h2, _, h4, _⟩ := scanNext_total L src (src.length + 1) pos true hle
      (by omega)
    rw [makePatternLoop, hr]
    rcases r with ⟨g, e, p1⟩
    simp only at h1 h2 h4
    cases e with
    | some err => cases g <;> exact ⟨_, _, rfl⟩
    | none =>
      cases g with
      | none => exact ⟨_, _, rfl⟩
      | some gen =>
        have hlt : pos < p1 := h4 rfl
        exact ih p1 (acc ++ [gen]) h2 (by omega)

/-- Claim C20. `MakePattern` returns for every source: the bounds of its loops, which
decrease at every call, never run out. With a bound above the number of runes left,
every call of `scanNext`, `scanAltGroup` and `scanSeqGroup` returns, the position it
returns is not before the position it started at and not after the end of the source,
and it consumed at least one rune unless it started at the end of the source. `peek`
and `next` read the source only below its length: at or after the end they return
`EOF` and `next` does not advance. -/
theorem compile_is_total (L : Lib) (src : List Rune) (fuel pos : Nat) (b : Bool)
    (hpos : pos ≤ src.length) (hfuel : src.length - pos < fuel) :
    (∃ p err, MakePattern L src = some (p, err))
    ∧ (∃ r, scanNext L src fuel pos b = some r ∧ scannedOk src pos b r)
    ∧ (∃ r, scanAltGroup L src (fun p => scanNext L src fuel p false) pos = some r
        ∧ scannedOk src pos b r)
    ∧ (∃ r, scanSeqGroup L src (fun p => scanNext L src fuel p false) pos = some r
        ∧ scannedOk src pos b r)
    ∧ (pos ≤ (next src pos).2 ∧ (next src pos).2 ≤ src.length)
    ∧ (∀ p, src.length ≤ p → peek src p = EOF ∧ next src p = (EOF, p)) := by
  refine ⟨?_, scanNext_total L src fuel pos b hpos hfuel,
    scanAltGroup_total L src _ pos b hpos
      (fun p hp hpl => scanNext_total L src fuel p false hpl (by omega)),
    scanSeqGroup_total L src _ pos b hpos
      (fun p hp hpl => scanNext_total L src fuel p false hpl (by omega)),
    ⟨(next_bounds src pos).1, (next_bounds src pos).2 hpos⟩,
    fun p hp => ⟨peek_of_ge src p hp, next_of_ge src p hp⟩⟩
  obtain ⟨seq, e, h⟩ := makePatternLoop_total L src (src.length + 1) 0 [] (Nat.zero_le _)
    (by omega)
  unfold MakePattern
  rw [h]
  exact ⟨_, _, rfl⟩

/-- Witness of `compile_is_total`: the source `[a(b)]` from its start. -/
theorem compile_is_total_witness :
    (0 ≤ (runes "[a(b)]").length ∧ (runes "[a(b)]").length - 0 < 7)
    ∧ ∃ r, scanNext exampleLib (runes "[a(b)]") 7 0 true = some r
        ∧ scannedOk (runes "[a(b)]") 0 true r :=
  ⟨⟨by decide, by decide⟩,
    (compile_is_total exampleLib (runes "[a(b)]") 7 0 true (by decide) (by decide)).2.1⟩

/-! ### Escaped runes (C14) -/

theorem next_eq_peek (src : List Rune) (pos : Nat) :
    next src pos = (peek src pos, if src.length ≤ pos then pos else pos + 1) := by
  unfold next peek
  split <;> rfl

theorem sameFrom_next (p : Nat) (s t : List Rune) (h : sameFrom p s t) (pos : Nat)
    (hp : p ≤ pos) : next s pos = next t pos := by
  rw [next_eq_peek, next_eq_peek, h.2 pos hp, h.1]

theorem sameFrom_scanIntegerLoop (L : Lib) (p : Nat) (s t : List Rune) (h : sameFrom p s t) :
    ∀ (k pos : Nat) (str : List Rune), p ≤ pos →
      scanIntegerLoop L s k pos str = scanIntegerLoop L t k pos str := by
  intro k
  induction k with
  | zero => intro pos str _; rfl
  | succ k ih =>
    intro pos str hp
    rw [scanIntegerLoop, scanIntegerLoop, h.2 pos hp, sameFrom_next p s t h pos hp,
      ih _ _ (le_trans hp (next_bounds t pos).1)]

theorem sameFrom_scanInteger (L : Lib) (p : Nat) (s t : List Rune) (h : sameFrom p s t)
    (pos : Nat) (hp : p ≤ pos) : scanInteger L s pos = scanInteger L t pos := by
  unfold scanInteger
  rw [sameFrom_scanIntegerLoop L p s t h _ _ _ hp, h.1]

theorem sameFrom_scanIdentLoop (L : Lib) (p : Nat) (s t : List Rune) (h : sameFrom p s t) :
    ∀ (k pos : Nat) (val : List Rune), p ≤ pos →
      scanIdentLoop L s k pos val = scanIdentLoop L t k pos val := by
  intro k
  induction k with
  | zero => intro pos val _; rfl
  | succ k ih =>
    intro pos val hp
    rw [scanIdentLoop, scanIdentLoop, h.2 pos hp, sameFrom_next p s t h pos hp,
      ih _ _ (le_trans hp (next_bounds t pos).1)]

theorem sameFrom_scanIdent (L : Lib) (p : Nat) (s t : List Rune) (h : sameFrom p s t)
    (pos : Nat) (hp : p ≤ pos) : scanIdent L s pos = scanIdent L t pos := by
  unfold scanIdent
  simp only []
  rw [h.2 pos hp, sameFrom_next p s t h pos hp,
    sameFrom_scanIdentLoop L p s t h _ _ _ (le_trans hp (next_bounds t pos).1), h.1]

theorem sameFrom_scanRange (L : Lib) (p : Nat) (s t : List Rune) (h : sameFrom p s t)
    (pos : Nat) (hp : p ≤ pos) : scanRange L s pos = scanRange L t pos := by
  have hn := sameFrom_next p s t h pos hp
  have hp1 : p ≤ (next t pos).2 := le_trans hp (next_bounds t pos).1
  have hi1 := sameFrom_scanInteger L p s t h _ hp1
  unfold scanRange
  simp only []
  rw [h.2 pos hp, hn, hi1]
  split
  · rfl
  · split
    · rcases hsi : scanInteger L t (next t pos).2 with ⟨mn, e, p2⟩
      have hp2 : p ≤ p2 := by
        have := (scanInteger_bounds L t (next t pos).2).1
        rw [hsi] at this
        exact le_trans hp1 this
      cases e with
      | some err => rfl
      | none =>
        simp only []
        have hn2 := sameFrom_next p s t h p2 hp2
        have hp3 : p ≤ (next t p2).2 := le_trans hp2 (next_bounds t p2).1
        rw [hn2, sameFrom_scanInteger L p s t h _ hp3]
        split
        · rfl
        · rcases hsi2 : scanInteger L t (next t p2).2 with ⟨mx, e2, p4⟩
          have hp4 : p ≤ p4 := by
            have := (scanInteger_bounds L t (next t p2).2).1
            rw [hsi2] at this
            exact le_trans hp3 this
          cases e2 with
          | some err => rfl
          | none =>
            simp only []
            rw [sameFrom_next p s t h p4 hp4]
    · rfl

theorem sameFrom_scanProduction (L : Lib) (p : Nat) (s t : List Rune) (h : sameFrom p s t)
    (pos : Nat) (hp : p ≤ pos) : scanProduction L s pos = scanProduction L t pos := by
  unfold scanProduction
  rw [h.2 pos hp, sameFrom_scanIdent L p s t h pos hp]
  split
  · rfl
  · rcases hsi : scanIdent L t pos with ⟨name, e, p1⟩
    have hp1 : p ≤ p1 := by
      have := (scanIdent_bounds L t pos).1
      rw [hsi] at this
      exact le_trans hp this
    cases e with
    | some err => rfl
    | none =>
      simp only []
      rw [sameFrom_scanRange L p s t h p1 hp1]

theorem sameFrom_mono {p q : Nat} {s t : List Rune} (h : sameFrom p s t) (hpq : p ≤ q) :
    sameFrom q s t :=
  ⟨h.1, fun i hi => h.2 i (le_trans hpq hi)⟩

theorem sameFrom_scanGroupLoop (close : Rune) (p : Nat) (s t : List Rune)
    (h : sameFrom p s t) (sn sn1 : Nat → Option Scanned)
    (hsn : ∀ q, p ≤ q → q ≤ t.length → ∃ r, sn1 q = some r ∧ scannedOk t q false r)
    (heq : ∀ q, p ≤ q → q ≤ t.length → sn q = sn1 q) :
    ∀ (k pos : Nat) (acc : List Generator), p ≤ pos → pos ≤ t.length →
      scanGroupLoop close s sn k pos acc = scanGroupLoop close t sn1 k pos acc := by
  intro k
  induction k with
  | zero => intro pos acc _ _; rfl
  | succ k ih =>
    intro pos acc hp hle
    rw [scanGroupLoop, scanGroupLoop, h.2 pos hp, sameFrom_next p s t h pos hp,
      heq pos hp hle]
    split
    · rfl
    · obtain ⟨r, hr, h1, h2, _⟩ := hsn pos hp hle
      rw [hr]
      rcases r with ⟨g, e, p1⟩
      simp only at h1 h2
      cases e with
      | some err => cases g <;> rfl
      | none =>
        cases g with
        | none => rfl
        | some gen => exact ih p1 _ (le_trans hp h1) h2

theorem sameFrom_scanAltGroup (L : Lib) (p : Nat) (s t : List Rune)
    (h : sameFrom p s t) (sn sn1 : Nat → Option Scanned)
    (hsn : ∀ q, p ≤ q → q ≤ t.length → ∃ r, sn1 q = some r ∧ scannedOk t q false r)
    (heq : ∀ q, p ≤ q → q ≤ t.length → sn q = sn1 q) (pos : Nat) (hp : p ≤ pos)
    (hle : pos ≤ t.length) :
    scanAltGroup L s sn pos = scanAltGroup L t sn1 pos := by
  unfold scanAltGroup
  rw [sameFrom_scanGroupLoop _ p s t h sn sn1 hsn heq _ pos [] hp hle, h.1]
  obtain ⟨res, e, pos1, he, b1, _⟩ := scanGroupLoop_total (chr ']') t sn1 pos (by decide)
    (fun q hq hql => hsn q (le_trans hp hq) hql) (t.length - pos + 1) pos [] (le_refl _) hle
    (by omega)
  rw [he]
  cases res with
  | none => rfl
  | some alt =>
    simp only []
    rw [sameFrom_scanRange L p s t h pos1 (le_trans hp b1)]

theorem sameFrom_scanSeqGroup (L : Lib) (p : Nat) (s t : List Rune)
    (h : sameFrom p s t) (sn sn1 : Nat → Option Scanned)
    (hsn : ∀ q, p ≤ q → q ≤ t.length → ∃ r, sn1 q = some r ∧ scannedOk t q false r)
    (heq : ∀ q, p ≤ q → q ≤ t.length → sn q = sn1 q) (pos : Nat) (hp : p ≤ pos)
    (hle : pos ≤ t.length) :
    scanSeqGroup L s sn pos = scanSeqGroup L t sn1 pos := by
  unfold scanSeqGroup
  rw [sameFrom_scanGroupLoop _ p s t h sn sn1 hsn heq _ pos [] hp hle, h.1]
  obtain ⟨res, e, pos1, he, b1, _⟩ := scanGroupLoop_total (chr ')') t sn1 pos (by decide)
    (fun q hq hql => hsn q (le_trans hp hq) hql) (t.length - pos + 1) pos [] (le_refl _) hle
    (by omega)
  rw [he]
  cases res with
  | none => rfl
  | some seq =>
    simp only []
    rw [sameFrom_scanRange L p s t h pos1 (le_trans hp b1)]

theorem sameFrom_scanNext (L : Lib) (p : Nat) (s t : List Rune) (h : sameFrom p s t) :
    ∀ (fuel pos : Nat) (b : Bool), p ≤ pos → pos ≤ t.length → t.length - pos < fuel →
      scanNext L s fuel pos b = scanNext L t fuel pos b := by
  intro fuel
  induction fuel with
  | zero => intro pos b _ _ hf; omega
  | succ fuel ih =>
    intro pos b hp hle hf
    have hnb := next_bounds t pos
    have hch := next_fst t pos
    have hp1 : p ≤ (next t pos).2 := le_trans hp hnb.1
    have hlt : ∀ c : Rune, (next t pos).1 = c → c ≠ EOF →
        (next t pos).2 = pos + 1 ∧ pos < t.length := by
      intro c hc hne
      have := lt_of_peek_ne_EOF t pos (by rw [← hch, hc]; exact hne)
      exact ⟨next_of_lt t pos this, this⟩
    have hgrp : pos < t.length →
        (∀ q, p ≤ q → q ≤ t.length → pos + 1 ≤ q →
          ∃ r, scanNext L t fuel q false = some r ∧ scannedOk t q false r)
        ∧ (∀ q, p ≤ q → q ≤ t.length → pos + 1 ≤ q →
          scanNext L s fuel q false = scanNext L t fuel q false) := by
      intro hl
      exact ⟨fun q _ hql hpq => scanNext_total L t fuel q false hql (by omega),
        fun q hq hql hpq => ih q false hq hql (by omega)⟩
    rw [scanNext, scanNext, sameFrom_next p s t h pos hp]
    simp only []
    split
    · rename_i hws
      obtain ⟨hn, hl⟩ := hlt _ rfl (by rcases hws with h | h <;> rw [h] <;> decide)
      exact ih _ b hp1 (hnb.2 hle) (by omega)
    · split
      · rename_i hesc
        obtain ⟨hn, hl⟩ := hlt _ rfl (by rw [hesc]; decide)
        have m := next_bounds t (next t pos).2
        rw [sameFrom_next p s t h _ hp1]
        exact ih _ false (le_trans hp1 m.1) (m.2 (hnb.2 hle)) (by omega)
      · split
        · rename_i hbr
          obtain ⟨hn, hl⟩ := hlt _ rfl (by rw [hbr]; decide)
          obtain ⟨g1, g2⟩ := hgrp hl
          exact sameFrom_scanAltGroup L (next t pos).2 s t (sameFrom_mono h hp1) _ _
            (fun q hq hql => g1 q (le_trans hp1 hq) hql (by omega))
            (fun q hq hql => g2 q (le_trans hp1 hq) hql (by omega))
            (next t pos).2 (le_refl _) (hnb.2 hle)
        · split
          · rename_i hbr
            obtain ⟨hn, hl⟩ := hlt _ rfl (by rw [hbr]; decide)
            obtain ⟨g1, g2⟩ := hgrp hl
            exact sameFrom_scanSeqGroup L (next t pos).2 s t (sameFrom_mono h hp1) _ _
              (fun q hq hql => g1 q (le_trans hp1 hq) hql (by omega))
              (fun q hq hql => g2 q (le_trans hp1 hq) hql (by omega))
              (next t pos).2 (le_refl _) (hnb.2 hle)
          · split
            · rw [sameFrom_scanProduction L p s t h _ hp1]
            · split
              · rfl
              · rw [sameFrom_scanRange L p s t h _ hp1]

theorem sameFrom_makePatternLoop (L : Lib) (p : Nat) (s t : List Rune) (h : sameFrom p s t) :
    ∀ (k pos : Nat) (acc : List Generator), p ≤ pos → pos ≤ t.length →
      makePatternLoop L s k pos acc = makePatternLoop L t k pos acc := by
  intro k
  induction k with
  | zero => intro pos acc _ _; rfl
  | succ k ih =>
    intro pos acc hp hle
    obtain ⟨r, hr, h1, h2, _⟩ := scanNext_total L t (t.length + 1) pos true hle (by omega)
    rw [makePatternLoop, makePatternLoop, h.1,
      sameFrom_scanNext L p s t h (t.length + 1) pos true hp hle (by omega), hr]
    rcases r with ⟨g, e, p1⟩
    simp only at h1 h2
    cases e with
    | some err => cases g <;> rfl
    | none =>
      cases g with
      | none => rfl
      | some gen => exact ih p1 _ (le_trans hp h1) h2

theorem identChar_not_special (L : Lib) (r : Rune) (h : identChar L r = true) :
    isSpecial r = false := by
  cases hs : isSpecial r with
  | false => rfl
  | true =>
    exfalso
    have hs' : ((((((r = chr '\t' ∨ r = chr ' ') ∨ r = chr '\\') ∨ r = chr '[') ∨ r = chr '(')
        ∨ r = chr '$') ∨ r = chr '?') ∨ r = chr '\x7b' := by
      simpa [isSpecial] using hs
    have hf : ∀ c : Rune, identChar L c = false → r = c → False := by
      intro c hc hrc
      rw [hrc, hc] at h
      exact Bool.noConfusion h
    rcases hs' with ((((((h1 | h1) | h1) | h1) | h1) | h1) | h1) | h1
    · exact hf (chr '\t') rfl h1
    · exact hf (chr ' ') rfl h1
    · exact hf (chr '\\') rfl h1
    · exact hf (chr '[') rfl h1
    · exact hf (chr '(') rfl h1
    · exact hf (chr '$') rfl h1
    · exact hf (chr '?') rfl h1
    · exact hf (chr '\x7b') rfl h1

theorem hasProductionList_particles (vals : List Rune) :
    hasProductionList (vals.map (Generator.particle 1 1)) = false := by
  induction vals with
  | nil => rfl
  | cons v vs ih => simp [hasProductionList, Generator.hasProduction, ih]

theorem sameFrom_escaped (c d : Rune) (s : List Rune) :
    sameFrom 2 (chr '\\' :: c :: s) (chr '\\' :: d :: s) := by
  refine ⟨rfl, fun i hi => ?_⟩
  obtain ⟨j, rfl⟩ : ∃ j, i = j + 2 := ⟨i - 2, by omega⟩
  simp [peek, List.getD_eq_getElem?_getD]

theorem makePatternLoop_escape (L : Lib) (c : Rune) (s : List Rune) :
    makePatternLoop L (chr '\\' :: c :: s) ((chr '\\' :: c :: s).length + 1) 0 [] =
      match scanNext L (chr '\\' :: c :: s) (s.length + 2) 2 false with
      | none => none
      | some (_, some e, _) => some ([], some e)
      | some (none, none, _) => some ([], none)
      | some (some gen, none, pos1) =>
        makePatternLoop L (chr '\\' :: c :: s) (s.length + 2) pos1 ([] ++ [gen]) := by
  have h0 : next (chr '\\' :: c :: s) 0 = (chr '\\', 1) := by simp [next]
  have h1 : (next (chr '\\' :: c :: s) 1).2 = 2 := by simp [next]
  have hs : scanNext L (chr '\\' :: c :: s) ((chr '\\' :: c :: s).length + 1) 0 true =
      scanNext L (chr '\\' :: c :: s) (s.length + 2) 2 false := by
    rw [scanNext, h0]
    have e1 : ¬ (chr '\\' = chr '\t' ∨ chr '\\' = chr ' ') := by decide
    simp only [e1, if_false, if_true, h1, List.length_cons]
  rw [makePatternLoop, hs]
  rfl

theorem compile_escaped_irrelevant (L : Lib) (c d : Rune) (s : List Rune) :
    (MakePattern L (chr '\\' :: c :: s)).map (fun r => (r.1.gen, r.2)) =
      (MakePattern L (chr '\\' :: d :: s)).map (fun r => (r.1.gen, r.2)) := by
  have hsame := sameFrom_escaped c d s
  have hloop : makePatternLoop L (chr '\\' :: c :: s) ((chr '\\' :: c :: s).length + 1) 0 [] =
      makePatternLoop L (chr '\\' :: d :: s) ((chr '\\' :: d :: s).length + 1) 0 [] := by
    rw [makePatternLoop_escape, makePatternLoop_escape,
      sameFrom_scanNext L 2 _ _ hsame (s.length + 2) 2 false (le_refl _)
        (by simp only [List.length_cons]; omega) (by simp only [List.length_cons]; omega)]
    obtain ⟨r, hr, h1, h2, _⟩ := scanNext_total L (chr '\\' :: d :: s) (s.length + 2) 2 false
      (by simp only [List.length_cons]; omega) (by simp only [List.length_cons]; omega)
    rw [hr]
    rcases r with ⟨g, e, p1⟩
    simp only at h1 h2
    cases e with
    | some err => cases g <;> rfl
    | none =>
      cases g with
      | none => rfl
      | some gen => exact sameFrom_makePatternLoop L 2 _ _ hsame _ p1 _ h1 h2
  unfold MakePattern
  rw [hloop]
  cases makePatternLoop L (chr '\\' :: d :: s) ((chr '\\' :: d :: s).length + 1) 0 [] with
  | none => rfl
  | some r => rfl

theorem compile_escaped_plain (L : Lib) (c r : Rune) (rest : List Rune)
    (hplain : ∀ x ∈ r :: rest, isSpecial x = false) (heof : ∀ x ∈ r :: rest, x ≠ EOF) :
    MakePattern L (chr '\\' :: c :: r :: rest) =
      some ({ src := runesToString (chr '\\' :: c :: r :: rest),
              gen := Generator.seqGroup 1 1 ((r :: rest).map (Generator.particle 1 1)) },
        none) := by
  have hn := scanNext_plain L [chr '\\', c] rest r (rest.length + 2) false
    (hplain r (List.mem_cons_self _ _)) (heof r (List.mem_cons_self _ _))
    (fun x hx => hplain x (List.mem_cons_of_mem _ hx))
  have hl := makePatternLoop_plain L rest [chr '\\', c, r] [Generator.particle 1 1 r]
    (rest.length + 3) (fun x hx => hplain x (List.mem_cons_of_mem _ hx))
    (fun x hx => heof x (List.mem_cons_of_mem _ hx)) (by omega)
  simp only [List.cons_append, List.nil_append, List.length_cons, List.length_nil,
    Nat.zero_add, Nat.reduceAdd] at hn hl
  unfold MakePattern
  rw [makePatternLoop_escape]
  simp only [List.length_cons]
  rw [hn]
  simp only [List.nil_append]
  rw [hl]
  rfl

/-- Claim C14. A rune that follows a backslash is never read as syntax. For every
identifier `name`, the source `\$name` compiles without error to the Particles of
`name`, an AST without a Production node. For every source `s`, compiling `\[`
followed by `s` gives the AST and the error that compiling `\` `c` followed by `s`
gives for any other rune `c`: the `[` opens no group and asks for no `]`; so `\[ab`
compiles to the Particles `a` and `b`. In `[a\]` the `]` does not close the group and
`MakePattern` returns `eofError`. -/
theorem escaped_rune_stays_inert (L : Lib) (name s : List Rune) (c : Rune)
    (hid : isIdent L name = true) :
    (∃ p, MakePattern L (chr '\\' :: chr '$' :: name) = some (p, none)
      ∧ p.gen = Generator.seqGroup 1 1 (name.map (Generator.particle 1 1))
      ∧ p.gen.hasProduction = false)
    ∧ ((MakePattern L (chr '\\' :: chr '[' :: s)).map (fun r => (r.1.gen, r.2)) =
        (MakePattern L (chr '\\' :: c :: s)).map (fun r => (r.1.gen, r.2))
      ∧ MakePattern L (runes "\\[ab") =
        some ({ src := runes "\\[ab",
                gen := Generator.seqGroup 1 1
                  [Generator.particle 1 1 (chr 'a'), Generator.particle 1 1 (chr 'b')] },
          none))
    ∧ (MakePattern L (runes "[a\\]") =
        some ({ src := runes "[a\\]", gen := Generator.seqGroup 1 1 [] },
          some Error.eofError)
      ∧ Error.eofError.kind = ErrorKind.UnexpectedEOF) := by
  refine ⟨?_, ⟨compile_escaped_irrelevant L _ c s, rfl⟩, rfl, rfl⟩
  cases name with
  | nil => simp [isIdent] at hid
  | cons r rest =>
    obtain ⟨h1, h2⟩ := isIdent_cons L r rest hid
    have hchar : ∀ x ∈ r :: rest, identChar L x = true := by
      intro x hx
      rcases List.mem_cons.mp hx with rfl | hx
      · exact identStart_identChar L _ h1
      · exact h2 x hx
    have hplain : ∀ x ∈ r :: rest, isSpecial x = false :=
      fun x hx => identChar_not_special L x (hchar x hx)
    have heof : ∀ x ∈ r :: rest, x ≠ EOF := by
      intro x hx he
      have := hchar x hx
      rw [he, identChar_EOF] at this
      exact Bool.noConfusion this
    refine ⟨_, compile_escaped_plain L (chr '$') r rest hplain heof, rfl, ?_⟩
    simp only [Generator.hasProduction]
    exact hasProductionList_particles (r :: rest)

/-- Witness of `escaped_rune_stays_inert`: the identifier `name`. -/
theorem escaped_rune_stays_inert_witness :
    isIdent exampleLib (runes "name") = true
    ∧ ∃ p, MakePattern exampleLib (chr '\\' :: chr '$' :: runes "name") = some (p, none)
      ∧ p.gen = Generator.seqGroup 1 1 ((runes "name").map (Generator.particle 1 1))
      ∧ p.gen.hasProduction = false :=
  ⟨rfl, (escaped_rune_stays_inert exampleLib (runes "name") [] (chr 'a') rfl).1⟩

/-! ### The range invariant (C9) -/

theorem rangesOKList_append (xs ys : List Generator) :
    rangesOKList (xs ++ ys) = (rangesOKList xs && rangesOKList ys) := by
  induction xs with
  | nil => simp [rangesOKList]
  | cons x xs ih => simp [rangesOKList, ih, Bool.and_assoc]

theorem drop_cons_facts (src : List Rune) (pos : Nat) (c : Rune) (rest : List Rune)
    (h : src.drop pos = c :: rest) :
    pos < src.length ∧ peek src pos = c ∧ next src pos = (c, pos + 1)
      ∧ src.drop (pos + 1) = rest := by
  have hlt : pos < src.length := by
    by_contra hc
    rw [List.drop_eq_nil_of_le (Nat.le_of_not_lt hc)] at h
    exact List.noConfusion h
  rw [List.drop_eq_getElem_cons hlt] at h
  have h1 : src[pos] = c := (List.cons.inj h).1
  have h2 : src.drop (pos + 1) = rest := (List.cons.inj h).2
  have hp : peek src pos = c := by
    simp [peek, Nat.not_le_of_lt hlt, List.getD_eq_getElem?_getD, List.getElem?_eq_getElem hlt, h1]
  have hn : next src pos = (c, pos + 1) := by
    simp [next, Nat.not_le_of_lt hlt, List.getD_eq_getElem?_getD, List.getElem?_eq_getElem hlt, h1]
  exact ⟨hlt, hp, hn, h2⟩

theorem drop_nil_facts (src : List Rune) (pos : Nat) (h : src.drop pos = []) :
    src.length ≤ pos ∧ peek src pos = EOF ∧ next src pos = (EOF, pos) := by
  have hle : src.length ≤ pos := List.drop_eq_nil_iff.mp h
  exact ⟨hle, peek_of_ge src pos hle, next_of_ge src pos hle⟩

theorem IsNumber_EOF (L : Lib) : IsNumber L EOF = false := by
  simp [IsNumber, invalidRune, EOF]

theorem IsNumber_valid (L : Lib) (r : Rune) (h : IsNumber L r = true) :
    invalidRune r = false := by
  cases hv : invalidRune r with
  | false => rfl
  | true => simp [IsNumber, hv] at h

theorem scanIntegerLoop_takeWhile (L : Lib) (src : List Rune) :
    ∀ (k pos : Nat) (acc : List Rune), src.length - pos ≤ k →
      scanIntegerLoop L src k pos acc =
        (acc ++ (src.drop pos).takeWhile (IsNumber L),
          pos + ((src.drop pos).takeWhile (IsNumber L)).length) := by
  intro k
  induction k with
  | zero =>
    intro pos acc hk
    have : src.drop pos = [] := List.drop_eq_nil_of_le (by omega)
    simp [scanIntegerLoop, this]
  | succ k ih =>
    intro pos acc hk
    rw [scanIntegerLoop]
    cases hd : src.drop pos with
    | nil =>
      obtain ⟨_, hp, _⟩ := drop_nil_facts src pos hd
      simp [hp, IsNumber_EOF]
    | cons c rest =>
      obtain ⟨hlt, hp, hn, hr⟩ := drop_cons_facts src pos c rest hd
      simp only [hp, hn]
      cases hc : IsNumber L c with
      | false => simp [List.takeWhile, hc]
      | true =>
        simp only [if_true]
        rw [ih (pos + 1) (acc ++ [c]) (by omega), hr]
        simp [List.takeWhile, hc]
        omega

theorem parseUintLoop_nondigit (ds : List Rune) (h : ∃ r ∈ ds, isAsciiDigit r = false) :
    ∀ (n v : Nat), parseUintLoop ds n ≠ some (some v) := by
  induction ds with
  | nil => obtain ⟨r, hr, _⟩ := h; simp at hr
  | cons d ds ih =>
    intro n v
    rw [parseUintLoop]
    cases hd : isAsciiDigit d with
    | false =>
      have hd' : (decide (0x30 ≤ d) && decide (d ≤ 0x39)) = false := hd
      simp [hd']
    | true =>
      have hd' : (decide (0x30 ≤ d) && decide (d ≤ 0x39)) = true := hd
      have htail : ∃ r ∈ ds, isAsciiDigit r = false := by
        obtain ⟨r, hr, hrd⟩ := h
        rcases List.mem_cons.mp hr with rfl | hr
        · rw [hd] at hrd; exact Bool.noConfusion hrd
        · exact ⟨r, hr, hrd⟩
      simp only [hd', if_true]
      split
      · simp
      · split
        · simp
        · exact ih htail _ v

theorem parseUintLoop_value (ds : List Rune) :
    ∀ (n v : Nat), parseUintLoop ds n = some (some v) →
      v = ds.foldl (fun n r => n * 10 + (r - 0x30).toNat) n := by
  induction ds with
  | nil => intro n v h; simpa [parseUintLoop] using h.symm
  | cons d ds ih =>
    intro n v h
    rw [parseUintLoop] at h
    split at h
    · split at h
      · simp at h
      · simp only [] at h
        split at h
        · simp at h
        · simpa using ih _ v h
    · simp at h

theorem Atoi_ok (s : List Rune) (v : Nat) (h : Atoi s = (v, none)) :
    (∀ r ∈ s, isAsciiDigit r = true) ∧ v = decimalValue s ∧ v < 2 ^ 63 := by
  unfold Atoi at h
  split at h
  · simp at h
  · simp at h
  · rename_i n hp
    split at h
    · simp at h
    · rename_i hlt
      simp only [Prod.mk.injEq, and_true] at h
      have hall : ∀ r ∈ s, isAsciiDigit r = true := by
        intro r hr
        cases hd : isAsciiDigit r with
        | true => rfl
        | false => exact absurd hp (parseUintLoop_nondigit s ⟨r, hr, hd⟩ 0 n)
      have hv := parseUintLoop_value s 0 n hp
      refine ⟨hall, ?_, ?_⟩
      · rw [← h, hv]; rfl
      · omega

theorem drop_takeWhile_length (p : Rune → Bool) (l : List Rune) :
    l.drop (l.takeWhile p).length = l.dropWhile p := by
  induction l with
  | nil => rfl
  | cons x xs ih =>
    cases hx : p x with
    | false => simp [List.takeWhile, List.dropWhile, hx]
    | true => simpa [List.takeWhile, List.dropWhile, hx] using ih

theorem drop_add_takeWhile (p : Rune → Bool) (src : List Rune) (pos : Nat) :
    src.drop (pos + ((src.drop pos).takeWhile p).length) = (src.drop pos).dropWhile p := by
  rw [← drop_takeWhile_length p (src.drop pos), List.drop_drop, Nat.add_comm]

theorem takeWhile_weaken (p q : Rune → Bool) (hqp : ∀ x, q x = true → p x = true) :
    ∀ l : List Rune, (∀ x ∈ l.takeWhile p, q x = true) →
      l.takeWhile q = l.takeWhile p ∧ l.dropWhile q = l.dropWhile p := by
  intro l
  induction l with
  | nil => intro _; exact ⟨rfl, rfl⟩
  | cons x xs ih =>
    intro h
    cases hx : p x with
    | false =>
      have hq : q x = false := by
        cases hq : q x with
        | false => rfl
        | true => rw [hqp x hq] at hx; exact Bool.noConfusion hx
      simp [List.takeWhile, List.dropWhile, hx, hq]
    | true =>
      have hq : q x = true := h x (by simp [List.takeWhile, hx])
      have := ih (fun y hy => h y (by simp [List.takeWhile, hx, hy]))
      simp [List.takeWhile, List.dropWhile, hx, hq, this.1, this.2]

theorem scanInteger_ok (L : Lib) (src : List Rune) (pos v p1 : Nat)
    (h : scanInteger L src pos = (v, none, p1)) :
    (src.drop pos).takeWhile isAsciiDigit ≠ []
      ∧ v = decimalValue ((src.drop pos).takeWhile isAsciiDigit)
      ∧ v < 2 ^ 63
      ∧ p1 = pos + ((src.drop pos).takeWhile isAsciiDigit).length
      ∧ src.drop p1 = (src.drop pos).dropWhile isAsciiDigit := by
  unfold scanInteger at h
  rw [scanIntegerLoop_takeWhile L src _ pos [] (le_refl _)] at h
  simp only [List.nil_append] at h
  have hvalid : runesToString ((src.drop pos).takeWhile (IsNumber L)) =
      (src.drop pos).takeWhile (IsNumber L) :=
    runesToString_valid _ (fun r hr => IsNumber_valid L r (List.mem_takeWhile_imp hr))
  split at h
  · rename_i hlen
    rw [hvalid] at h
    rcases hA : Atoi ((src.drop pos).takeWhile (IsNumber L)) with ⟨val, err⟩
    rw [hA] at h
    simp only [Prod.mk.injEq] at h
    obtain ⟨h1, h2, h3⟩ := h
    subst h1
    subst h2
    obtain ⟨hall, hv, hlt⟩ := Atoi_ok _ _ hA
    obtain ⟨e1, e2⟩ := takeWhile_weaken (IsNumber L) isAsciiDigit
      (fun x hx => isAsciiDigit_IsNumber L x hx) (src.drop pos) hall
    rw [e1, e2]
    refine ⟨?_, hv, hlt, h3.symm, ?_⟩
    · intro hnil
      rw [hnil] at hlen
      simp at hlen
    · rw [← h3]
      exact drop_add_takeWhile (IsNumber L) src pos
  · simp at h

theorem drop_next (src : List Rune) (pos : Nat) :
    src.drop (next src pos).2 = (src.drop pos).drop 1 := by
  cases hd : src.drop pos with
  | nil =>
    obtain ⟨_, _, hn⟩ := drop_nil_facts src pos hd
    rw [hn]
    simpa using hd
  | cons c rest =>
    obtain ⟨_, _, hn, hr⟩ := drop_cons_facts src pos c rest hd
    rw [hn]
    simpa using hr

/-- What `scanRange` returns without an error is the range suffix `readRange` reads
off the text at the position. -/
theorem scanRange_readRange (L : Lib) (src : List Rune) (pos a b p1 : Nat)
    (h : scanRange L src pos = (a, b, none, p1)) :
    readRange (src.drop pos) = some ((a, b), src.drop p1) := by
  unfold scanRange at h
  simp only [] at h
  cases hd : src.drop pos with
  | nil =>
    obtain ⟨_, hp, _⟩ := drop_nil_facts src pos hd
    have e1 : ¬ EOF = chr '?' := by decide
    have e2 : ¬ EOF = chr '\x7b' := by decide
    simp only [hp, e1, e2, if_false, Prod.mk.injEq, true_and] at h
    obtain ⟨h1, h2, h3⟩ := h
    subst h1; subst h2; subst h3
    rw [hd]
    rfl
  | cons c rest =>
    obtain ⟨hlt, hp, hn, hr⟩ := drop_cons_facts src pos c rest hd
    rw [hp, hn] at h
    simp only [] at h
    unfold readRange
    by_cases hq : c = chr '?'
    · simp only [hq, if_true, Prod.mk.injEq, true_and] at h ⊢
      obtain ⟨h1, h2, h3⟩ := h
      subst h1; subst h2; subst h3
      rw [hr]
    · simp only [hq, if_false] at h ⊢
      by_cases hb : c = chr '\x7b'
      · simp only [hb, if_true] at h ⊢
        rcases hI1 : scanInteger L src (pos + 1) with ⟨v1, e1, p2⟩
        rw [hI1] at h
        cases e1 with
        | some e => simp at h
        | none =>
          simp only [] at h
          obtain ⟨a1, a2, a3, a4, a5⟩ := scanInteger_ok L src (pos + 1) v1 p2 hI1
          rw [hr] at a1 a2 a4 a5
          cases hd2 : rest.dropWhile isAsciiDigit with
          | nil =>
            rw [hd2] at a5
            obtain ⟨_, _, hn2⟩ := drop_nil_facts src p2 a5
            rw [hn2] at h
            have : EOF ≠ chr ',' := by decide
            simp [this] at h
          | cons c1 rest1 =>
            rw [hd2] at a5
            obtain ⟨_, _, hn2, hr2⟩ := drop_cons_facts src p2 c1 rest1 a5
            rw [hn2] at h
            simp only [] at h
            by_cases hc1 : c1 = chr ','
            · simp only [hc1, ne_eq, not_true_eq_false, if_false] at h
              rcases hI2 : scanInteger L src (p2 + 1) with ⟨v2, e2, p4⟩
              rw [hI2] at h
              cases e2 with
              | some e => simp at h
              | none =>
                simp only [] at h
                obtain ⟨b1, b2, b3, b4, b5⟩ := scanInteger_ok L src (p2 + 1) v2 p4 hI2
                rw [hr2] at b1 b2 b4 b5
                cases hd3 : rest1.dropWhile isAsciiDigit with
                | nil =>
                  rw [hd3] at b5
                  obtain ⟨_, _, hn3⟩ := drop_nil_facts src p4 b5
                  rw [hn3] at h
                  have : EOF ≠ chr '\x7d' := by decide
                  simp [this] at h
                | cons c2 rest2 =>
                  rw [hd3] at b5
                  obtain ⟨_, _, hn3, hr3⟩ := drop_cons_facts src p4 c2 rest2 b5
                  rw [hn3] at h
                  simp only [] at h
                  by_cases hc2 : c2 = chr '\x7d'
                  · simp only [hc2, ne_eq, not_true_eq_false, if_false, Prod.mk.injEq,
                      true_and] at h
                    obtain ⟨h1, h2, h3⟩ := h
                    subst h1; subst h2; subst h3
                    simp only []
                    rw [hd3]
                    simp only []
                    rw [if_pos ⟨hc1, hc2, a1, b1, by rw [← a2]; exact a3,
                      by rw [← b2]; exact b3⟩, ← a2, ← b2, hr3]
                  · simp [hc2] at h
            · simp [hc1] at h
      · simp only [hb, if_false, Prod.mk.injEq, true_and] at h ⊢
        obtain ⟨h1, h2, h3⟩ := h
        subst h1; subst h2; subst h3
        rw [hd]

/-- The range suffix `readRange` reads off the text at a position is what `scanRange`
returns there, without an error. -/
theorem readRange_scanRange (L : Lib) (src : List Rune) (pos : Nat) (r : Nat × Nat)
    (t1 : List Rune) (h : readRange (src.drop pos) = some (r, t1)) :
    ∃ p1, scanRange L src pos = (r.1, r.2, none, p1) ∧ src.drop p1 = t1 := by
  cases hd : src.drop pos with
  | nil =>
    rw [hd] at h
    obtain ⟨_, hp, _⟩ := drop_nil_facts src pos hd
    simp only [readRange, Option.some.injEq, Prod.mk.injEq] at h
    obtain ⟨h1, h2⟩ := h
    subst h1; subst h2
    refine ⟨pos, ?_, hd⟩
    exact scanRange_default L src pos (by rw [hp]; decide) (by rw [hp]; decide)
  | cons c rest =>
    rw [hd] at h
    obtain ⟨hlt, hp, hn, hr⟩ := drop_cons_facts src pos c rest hd
    unfold readRange at h
    by_cases hq : c = chr '?'
    · simp only [hq, if_true, Option.some.injEq, Prod.mk.injEq] at h
      obtain ⟨h1, h2⟩ := h
      subst h1; subst h2
      refine ⟨pos + 1, ?_, hr⟩
      simp [scanRange, hp, hn, hq]
    · simp only [hq, if_false] at h
      by_cases hb : c = chr '\x7b'
      · simp only [hb, if_true] at h
        split at h
        · simp at h
        · rename_i c1 rest1 hd2
          split at h
          · simp at h
          · rename_i c2 rest2 hd3
            split at h
            · rename_i hcond
              obtain ⟨hc1, hc2, ha, hbne, hva, hvb⟩ := hcond
              simp only [Option.some.injEq, Prod.mk.injEq] at h
              obtain ⟨h1, h2⟩ := h
              subst h1; subst h2
              have e1 : rest = rest.takeWhile isAsciiDigit ++ chr ',' :: rest1 := by
                rw [← hc1, ← hd2, List.takeWhile_append_dropWhile]
              have e2 : rest1 = rest1.takeWhile isAsciiDigit ++ chr '\x7d' :: rest2 := by
                rw [← hc2, ← hd3, List.takeWhile_append_dropWhile]
              have hsrc : src = src.take pos ++ chr '\x7b' ::
                  (rest.takeWhile isAsciiDigit ++ chr ',' ::
                    (rest1.takeWhile isAsciiDigit ++ chr '\x7d' :: rest2)) := by
                rw [← e2, ← e1, ← hb, ← hd, List.take_append_drop]
              have hlen : (src.take pos).length = pos := by
                simp [List.length_take, Nat.le_of_lt hlt]
              have key := scanRange_explicit L (src.take pos) (rest.takeWhile isAsciiDigit)
                (rest1.takeWhile isAsciiDigit) rest2
                (fun x hx => List.mem_takeWhile_imp hx) ha
                (fun x hx => List.mem_takeWhile_imp hx) hbne hva hvb
              rw [← hsrc, hlen] at key
              refine ⟨_, key, ?_⟩
              have k1 := drop_add_takeWhile isAsciiDigit src (pos + 1)
              rw [hr, hd2] at k1
              obtain ⟨_, _, _, k2⟩ := drop_cons_facts _ _ _ _ k1
              have k3 := drop_add_takeWhile isAsciiDigit src
                (pos + 1 + (rest.takeWhile isAsciiDigit).length + 1)
              rw [k2, hd3] at k3
              obtain ⟨_, _, _, k4⟩ := drop_cons_facts _ _ _ _ k3
              rw [show pos + (rest.takeWhile isAsciiDigit).length
                  + (rest1.takeWhile isAsciiDigit).length + 3
                = pos + 1 + (rest.takeWhile isAsciiDigit).length + 1
                  + (rest1.takeWhile isAsciiDigit).length + 1 by omega]
              exact k4
            · simp at h
      · simp only [hb, if_false, Option.some.injEq, Prod.mk.injEq] at h
        obtain ⟨h1, h2⟩ := h
        subst h1; subst h2
        refine ⟨pos, ?_, hd⟩
        exact scanRange_default L src pos (by rw [hp]; exact hq) (by rw [hp]; exact hb)

theorem scanIdentLoop_takeWhile (L : Lib) (src : List Rune) :
    ∀ (k pos : Nat) (acc : List Rune), src.length - pos ≤ k →
      scanIdentLoop L src k pos acc =
        (acc ++ (src.drop pos).takeWhile (identChar L),
          pos + ((src.drop pos).takeWhile (identChar L)).length) := by
  intro k
  induction k with
  | zero =>
    intro pos acc hk
    have : src.drop pos = [] := List.drop_eq_nil_of_le (by omega)
    simp [scanIdentLoop, this]
  | succ k ih =>
    intro pos acc hk
    rw [scanIdentLoop]
    cases hd : src.drop pos with
    | nil =>
      obtain ⟨_, hp, _⟩ := drop_nil_facts src pos hd
      have he := identChar_EOF L
      unfold identChar at he
      simp [hp, he]
    | cons c rest =>
      obtain ⟨hlt, hp, hn, hr⟩ := drop_cons_facts src pos c rest hd
      simp only [hp, hn]
      cases hc : identChar L c with
      | false =>
        have hc' := hc
        unfold identChar at hc'
        simp [List.takeWhile, hc, hc']
      | true =>
        have hc' := hc
        unfold identChar at hc'
        simp only [hc', Bool.not_true, Bool.false_eq_true, if_false]
        rw [ih (pos + 1) (acc ++ [c]) (by omega), hr]
        simp [List.takeWhile, hc]
        omega

/-- A production reference that `scanProduction` reads without an error is `$`
followed by an identifier and by the range suffix that `readRange` reads off the
text. -/
theorem scanProduction_skipIdent (L : Lib) (src : List Rune) (pos : Nat) (g : Generator)
    (p1 : Nat) (h : scanProduction L src pos = (some g, none, p1)) :
    ∃ t mn mx name, skipIdent L (src.drop pos) = some t
      ∧ readRange t = some ((mn, mx), src.drop p1)
      ∧ g = Generator.production mn mx name none := by
  unfold scanProduction at h
  split at h
  · simp at h
  · rename_i hne
    cases hd : src.drop pos with
    | nil =>
      obtain ⟨_, hp, _⟩ := drop_nil_facts src pos hd
      exact absurd hp hne
    | cons d rest =>
      obtain ⟨hlt, hp, hn, hr⟩ := drop_cons_facts src pos d rest hd
      unfold scanIdent at h
      simp only [hp, hn] at h
      cases hs : identStart L d with
      | false =>
        have hs' := hs
        unfold identStart at hs'
        simp [hs'] at h
      | true =>
        have hs' := hs
        unfold identStart at hs'
        simp only [hs', if_true] at h
        rw [scanIdentLoop_takeWhile L src _ (pos + 1) [d] (le_refl _), hr] at h
        simp only [] at h
        rcases hR : scanRange L src (pos + 1 + (rest.takeWhile (identChar L)).length)
          with ⟨mn, mx, er, p2⟩
        rw [hR] at h
        simp only [Prod.mk.injEq, Option.some.injEq] at h
        obtain ⟨h1, h2, h3⟩ := h
        subst h2; subst h3
        have hdrop := drop_add_takeWhile (identChar L) src (pos + 1)
        rw [hr] at hdrop
        have := scanRange_readRange L src _ mn mx p2 hR
        rw [hdrop] at this
        exact ⟨_, mn, mx, _, by simp [skipIdent, hs], this, h1.symm⟩

theorem scanInteger_readInteger (L : Lib) (src : List Rune) (pos : Nat) :
    readInteger L (src.drop pos) =
      ((scanInteger L src pos).1, (scanInteger L src pos).2.1.isNone,
        src.drop (scanInteger L src pos).2.2) := by
  unfold scanInteger
  rw [scanIntegerLoop_takeWhile L src _ pos [] (le_refl _)]
  simp only [List.nil_append]
  have hvalid : runesToString ((src.drop pos).takeWhile (IsNumber L)) =
      (src.drop pos).takeWhile (IsNumber L) :=
    runesToString_valid _ (fun r hr => IsNumber_valid L r (List.mem_takeWhile_imp hr))
  have hdrop := drop_add_takeWhile (IsNumber L) src pos
  unfold readInteger
  simp only []
  by_cases hn : (src.drop pos).takeWhile (IsNumber L) = []
  · rw [if_pos hn]
    have hl : ¬ ((src.drop pos).takeWhile (IsNumber L)).length > 0 := by
      rw [hn]; simp
    rw [if_neg hl, hdrop]
    rfl
  · rw [if_neg hn]
    have hl : ((src.drop pos).takeWhile (IsNumber L)).length > 0 :=
      List.length_pos.mpr hn
    rw [if_pos hl, hvalid]
    rcases Atoi ((src.drop pos).takeWhile (IsNumber L)) with ⟨val, err⟩
    simp only []
    rw [hdrop]

/-- What `scanRange` returns at an opening brace, with or without an error, is what
`partialRange` keeps of the text after the brace. -/
theorem scanRange_partialRange (L : Lib) (src : List Rune) (pos : Nat) (rest : List Rune)
    (hd : src.drop pos = chr '\x7b' :: rest) :
    partialRange L rest =
      (((scanRange L src pos).1, (scanRange L src pos).2.1),
        src.drop (scanRange L src pos).2.2.2) := by
  obtain ⟨hlt, hp, hn, hr⟩ := drop_cons_facts src pos _ rest hd
  have hq : ¬ chr '\x7b' = chr '?' := by decide
  unfold scanRange
  simp only [hp, hq, if_false, if_true, hn]
  have hI1 := scanInteger_readInteger L src (pos + 1)
  rw [hr] at hI1
  unfold partialRange
  rw [hI1]
  rcases scanInteger L src (pos + 1) with ⟨v1, e1, p2⟩
  cases e1 with
  | some e => rfl
  | none =>
    simp only [Option.isNone_none]
    rcases hd2 : src.drop p2 with _ | ⟨c1, t2⟩
    · obtain ⟨_, _, hn2⟩ := drop_nil_facts src p2 hd2
      have : EOF ≠ chr ',' := by decide
      simp only [hn2, this, ne_eq, not_false_eq_true, if_true]
      rw [hd2]
    · obtain ⟨_, _, hn2, hr2⟩ := drop_cons_facts src p2 c1 t2 hd2
      simp only [hn2]
      by_cases hc1 : c1 = chr ','
      · have hI2 := scanInteger_readInteger L src (p2 + 1)
        rw [hr2] at hI2
        simp only [hc1, ne_eq, not_true_eq_false, if_false]
        rw [hI2]
        rcases scanInteger L src (p2 + 1) with ⟨v2, e2, p4⟩
        cases e2 with
        | some e => rfl
        | none =>
          simp only [Option.isNone_none]
          have hdn := drop_next src p4
          split <;> simp only [hdn]
      · simp only [ne_eq, hc1, not_false_eq_true, if_true]
        rw [hr2]

theorem readRange_none_cons (t : List Rune) (h : readRange t = none) :
    ∃ rest, t = chr '\x7b' :: rest := by
  cases t with
  | nil => simp [readRange] at h
  | cons c rest =>
    unfold readRange at h
    simp only [] at h
    by_cases hq : c = chr '?'
    · rw [if_pos hq] at h
      simp at h
    · rw [if_neg hq] at h
      by_cases hc : c = chr '\x7b'
      · exact ⟨rest, by rw [hc]⟩
      · rw [if_neg hc] at h
        simp at h

/-- What `scanRange` returns at a position, with or without an error, is the range
suffix `rangeAfterCloser` reads off the text there. -/
theorem scanRange_rangeAfterCloser (L : Lib) (src : List Rune) (pos : Nat) :
    rangeAfterCloser L (src.drop pos) =
      (((scanRange L src pos).1, (scanRange L src pos).2.1),
        src.drop (scanRange L src pos).2.2.2) := by
  unfold rangeAfterCloser
  cases hrr : readRange (src.drop pos) with
  | some rt =>
    obtain ⟨r, t1⟩ := rt
    obtain ⟨p1, hsr, hdrop⟩ := readRange_scanRange L src pos r t1 hrr
    rw [hsr]
    simp only []
    rw [hdrop]
  | none =>
    obtain ⟨rest, hd⟩ := readRange_none_cons _ hrr
    simp only []
    rw [hd]
    exact scanRange_partialRange L src pos rest hd

theorem readRange_length (t : List Rune) (r : Nat × Nat) (t1 : List Rune)
    (h : readRange t = some (r, t1)) : t1.length ≤ t.length := by
  cases t with
  | nil =>
    simp only [readRange, Option.some.injEq, Prod.mk.injEq] at h
    rw [← h.2]
  | cons c rest =>
    unfold readRange at h
    simp only [] at h
    by_cases hq : c = chr '?'
    · rw [if_pos hq] at h
      simp only [Option.some.injEq, Prod.mk.injEq] at h
      rw [← h.2]
      exact Nat.le_succ _
    · rw [if_neg hq] at h
      by_cases hc : c = chr '\x7b'
      · rw [if_pos hc] at h
        split at h
        · simp at h
        · rename_i c1 rest1 hd2
          split at h
          · simp at h
          · rename_i c2 rest2 hd3
            split at h
            · simp only [Option.some.injEq, Prod.mk.injEq] at h
              rw [← h.2]
              have l1 := (@List.dropWhile_sublist _ rest isAsciiDigit).length_le
              have l2 := (@List.dropWhile_sublist _ rest1 isAsciiDigit).length_le
              rw [hd2] at l1
              rw [hd3] at l2
              simp only [List.length_cons] at l1 l2 ⊢
              omega
            · simp at h
      · rw [if_neg hc] at h
        simp only [Option.some.injEq, Prod.mk.injEq] at h
        rw [← h.2]

theorem rangeAfterCloser_length (L : Lib) (t : List Rune) :
    (rangeAfterCloser L t).2.length ≤ t.length := by
  have key := scanRange_rangeAfterCloser L t 0
  simp only [List.drop_zero] at key
  rw [key]
  simp

theorem skipIdent_length (L : Lib) (t t1 : List Rune) (h : skipIdent L t = some t1) :
    t1.length < t.length := by
  cases t with
  | nil => simp [skipIdent] at h
  | cons d rest =>
    simp only [skipIdent] at h
    split at h
    · simp only [Option.some.injEq] at h
      rw [← h]
      exact Nat.lt_succ_of_le (List.dropWhile_sublist _).length_le
    · simp at h

theorem tokenRange_length (L : Lib) (c : Rune) (text : List Rune) (r : Nat × Nat)
    (text1 : List Rune)
    (h : (if isCloser c then some (rangeAfterCloser L text) else readRange text) =
      some (r, text1)) : text1.length ≤ text.length := by
  split at h
  · simp only [Option.some.injEq] at h
    have := rangeAfterCloser_length L text
    rw [h] at this
    exact this
  · exact readRange_length _ _ _ h

theorem writtenRangesFrom_fuel (L : Lib) :
    ∀ (k1 k2 : Nat) (t : List Rune), t.length ≤ k1 → t.length ≤ k2 →
      writtenRangesFrom L k1 t = writtenRangesFrom L k2 t := by
  intro k1
  induction k1 with
  | zero =>
    intro k2 t h1 _
    have : t = [] := List.length_eq_zero.mp (Nat.le_zero.mp h1)
    subst this
    cases k2 <;> rfl
  | succ k1 ih =>
    intro k2 t h1 h2
    cases t with
    | nil => cases k2 <;> rfl
    | cons c rest =>
      cases k2 with
      | zero => simp at h2
      | succ k2 =>
        simp only [List.length_cons, Nat.add_le_add_iff_right] at h1 h2
        rw [writtenRangesFrom, writtenRangesFrom]
        split
        · rfl
        · split
          · exact ih k2 rest h1 h2
          · split
            · have := List.length_drop 1 rest
              exact ih k2 _ (by omega) (by omega)
            · split
              · rfl
              · rename_i text htext
                have hlen : text.length ≤ rest.length := by
                  split at htext
                  · exact Nat.le_of_lt (skipIdent_length L _ _ htext)
                  · simp only [Option.some.injEq] at htext
                    rw [htext]
                split
                · rfl
                · rename_i r text1 hrd
                  have := tokenRange_length L c text r text1 hrd
                  rw [ih k2 text1 (by omega) (by omega)]

theorem writtenRanges_cons (L : Lib) (c : Rune) (rest : List Rune) :
    writtenRanges L (c :: rest) =
      if c = EOF then some []
      else if c = chr '\t' ∨ c = chr ' ' ∨ c = chr '[' ∨ c = chr '(' then writtenRanges L rest
      else if c = chr '\\' then writtenRanges L (rest.drop 1)
      else
        match (if c = chr '$' then skipIdent L rest else some rest) with
        | none => none
        | some text =>
          match (if isCloser c then some (rangeAfterCloser L text) else readRange text) with
          | none => none
          | some (r, text1) =>
            match writtenRanges L text1 with
            | none => none
            | some rs => some (r :: rs) := by
  unfold writtenRanges
  simp only [List.length_cons]
  rw [writtenRangesFrom]
  by_cases h1 : c = EOF
  · simp only [h1, if_true]
  · by_cases h2 : c = chr '\t' ∨ c = chr ' ' ∨ c = chr '[' ∨ c = chr '('
    · simp only [h1, h2, if_false, if_true]
    · by_cases h3 : c = chr '\\'
      · simp only [h1, h2, h3, if_false, if_true]
        exact writtenRangesFrom_fuel L _ _ _ (by simp) (le_refl _)
      · rw [if_neg h1, if_neg h2, if_neg h3, if_neg h1, if_neg h2, if_neg h3]
        cases ht : (if c = chr '$' then skipIdent L rest else some rest) with
        | none => rfl
        | some text =>
          have hlen : text.length ≤ rest.length := by
            split at ht
            · exact Nat.le_of_lt (skipIdent_length L _ _ ht)
            · simp only [Option.some.injEq] at ht
              rw [ht]
          simp only []
          cases hr : (if isCloser c then some (rangeAfterCloser L text) else readRange text) with
          | none => rfl
          | some rt =>
            obtain ⟨r, text1⟩ := rt
            have := tokenRange_length L c text r text1 hr
            simp only []
            rw [writtenRangesFrom_fuel L rest.length text1.length text1 (by omega) (le_refl _)]

theorem writtenRanges_skip (L : Lib) (c : Rune) (rest : List Rune)
    (h : c = chr '\t' ∨ c = chr ' ' ∨ c = chr '[' ∨ c = chr '(') :
    writtenRanges L (c :: rest) = writtenRanges L rest := by
  have h1 : ¬ c = EOF := by
    rcases h with h | h | h | h <;> rw [h] <;> decide
  rw [writtenRanges_cons, if_neg h1, if_pos h]

theorem writtenRanges_escape (L : Lib) (rest : List Rune) :
    writtenRanges L (chr '\\' :: rest) = writtenRanges L (rest.drop 1) := by
  rw [writtenRanges_cons]
  rfl

theorem writtenRanges_end (L : Lib) (rest : List Rune) :
    writtenRanges L (EOF :: rest) = some [] := by
  rw [writtenRanges_cons]
  rfl

theorem writtenRanges_token (L : Lib) (c : Rune) (rest : List Rune)
    (h1 : c ≠ EOF) (h2 : ¬ (c = chr '\t' ∨ c = chr ' ' ∨ c = chr '[' ∨ c = chr '('))
    (h3 : c ≠ chr '\\') (h4 : c ≠ chr '$') (r : Nat × Nat) (text1 : List Rune)
    (hr : (if isCloser c then some (rangeAfterCloser L rest) else readRange rest) =
      some (r, text1)) :
    writtenRanges L (c :: rest) = (writtenRanges L text1).map (fun rs => r :: rs) := by
  rw [writtenRanges_cons, if_neg h1, if_neg h2, if_neg h3, if_neg h4]
  simp only []
  rw [hr]
  simp only []
  cases writtenRanges L text1 <;> rfl

theorem writtenRanges_production (L : Lib) (rest text : List Rune) (r : Nat × Nat)
    (text1 : List Rune) (hs : skipIdent L rest = some text)
    (hr : readRange text = some (r, text1)) :
    writtenRanges L (chr '$' :: rest) = (writtenRanges L text1).map (fun rs => r :: rs) := by
  rw [writtenRanges_cons]
  have h1 : ¬ chr '$' = EOF := by decide
  have h2 : ¬ (chr '$' = chr '\t' ∨ chr '$' = chr ' ' ∨ chr '$' = chr '[' ∨ chr '$' = chr '(') := by
    decide
  have h3 : ¬ chr '$' = chr '\\' := by decide
  have h4 : isCloser (chr '$') = false := by decide
  rw [if_neg h1, if_neg h2, if_neg h3, if_pos rfl, hs]
  simp only [h4, Bool.false_eq_true, if_false]
  rw [hr]
  simp only []
  cases writtenRanges L text1 <;> rfl

theorem rangesTrack_nil (L : Lib) (src : List Rune) (pos : Nat) :
    rangesTrack L src pos pos true := by
  refine ⟨[], by simp, ?_⟩
  cases writtenRanges L (src.drop pos) <;> rfl

theorem rangesTrack_one (L : Lib) (src : List Rune) (pos pos1 : Nat) (r : Nat × Nat)
    (h : writtenRanges L (src.drop pos) =
      (writtenRanges L (src.drop pos1)).map (fun rs => r :: rs)) :
    rangesTrack L src pos pos1 (decide (r.1 ≤ r.2)) := by
  refine ⟨[r], by simp, ?_⟩
  rw [h]
  rfl

theorem rangesTrack_of_eq (L : Lib) (src : List Rune) (pos p1 pos1 : Nat) (ok : Bool)
    (h : writtenRanges L (src.drop pos) = writtenRanges L (src.drop p1))
    (ht : rangesTrack L src p1 pos1 ok) : rangesTrack L src pos pos1 ok := by
  unfold rangesTrack at ht ⊢
  rw [h]
  exact ht

theorem rangesTrack_trans (L : Lib) (src : List Rune) (pos p1 pos1 : Nat) (ok1 ok2 : Bool)
    (h1 : rangesTrack L src pos p1 ok1) (h2 : rangesTrack L src p1 pos1 ok2) :
    rangesTrack L src pos pos1 (ok1 && ok2) := by
  obtain ⟨rs1, hok1, hw1⟩ := h1
  obtain ⟨rs2, hok2, hw2⟩ := h2
  refine ⟨rs1 ++ rs2, ?_, ?_⟩
  · rw [Bool.and_eq_true, hok1, hok2]
    constructor
    · rintro ⟨a, b⟩ r hr
      rcases List.mem_append.mp hr with hr | hr
      · exact a r hr
      · exact b r hr
    · intro a
      exact ⟨fun r hr => a r (List.mem_append_left _ hr),
        fun r hr => a r (List.mem_append_right _ hr)⟩
  · rw [hw1, hw2]
    cases writtenRanges L (src.drop pos1) with
    | none => rfl
    | some rs => simp

theorem isCloser_token (c : Rune) (hc : isCloser c = true) :
    c ≠ EOF ∧ ¬ (c = chr '\t' ∨ c = chr ' ' ∨ c = chr '[' ∨ c = chr '(')
      ∧ c ≠ chr '\\' ∧ c ≠ chr '$' := by
  have : c = chr ']' ∨ c = chr ')' := by simpa [isCloser] using hc
  rcases this with h | h <;> rw [h] <;> decide

theorem scanGroupLoop_track (L : Lib) (close : Rune) (src : List Rune)
    (hclose : close ≠ EOF) (sn : Nat → Option Scanned)
    (hsn : ∀ pos g pos1, sn pos = some (some g, none, pos1) →
      rangesTrack L src pos pos1 g.rangesOK) :
    ∀ (k pos : Nat) (acc alt : List Generator) (e : Option Error) (pos1 : Nat),
      scanGroupLoop close src sn k pos acc = some (some alt, e, pos1) →
      ∃ pc ok, src.drop pc = close :: src.drop pos1 ∧ rangesTrack L src pos pc ok
        ∧ rangesOKList alt = (rangesOKList acc && ok) := by
  intro k
  induction k with
  | zero => intro pos acc alt e pos1 h; simp [scanGroupLoop] at h
  | succ k ih =>
    intro pos acc alt e pos1 h
    rw [scanGroupLoop] at h
    split at h
    · rename_i hp
      simp only [Option.some.injEq, Prod.mk.injEq] at h
      obtain ⟨h1, _, h3⟩ := h
      subst h1
      refine ⟨pos, true, ?_, rangesTrack_nil L src pos, by simp⟩
      cases hd : src.drop pos with
      | nil =>
        obtain ⟨_, hp2, _⟩ := drop_nil_facts src pos hd
        exact absurd (hp.symm.trans hp2) hclose
      | cons c rest =>
        obtain ⟨_, hp2, hn, hr⟩ := drop_cons_facts src pos c rest hd
        rw [hn] at h3
        simp only at h3
        rw [← h3, hr, ← hp, hp2]
    · split at h
      · simp at h
      · simp at h
      · simp at h
      · rename_i gen p1 hs
        obtain ⟨pc, ok, hpc, ht, hok⟩ := ih p1 (acc ++ [gen]) alt e pos1 h
        refine ⟨pc, gen.rangesOK && ok, hpc, rangesTrack_trans L src _ _ _ _ _ (hsn _ _ _ hs) ht, ?_⟩
        rw [hok, rangesOKList_append]
        simp [rangesOKList, Bool.and_assoc]

/-- After the closing bracket of a group the range of the group is the range suffix
`rangeAfterCloser` reads off the text, whether `scanRange` returns an error there or
not. -/
theorem rangesTrack_closer (L : Lib) (src : List Rune) (close : Rune)
    (hclose : isCloser close = true) (pos pc p1 : Nat) (ok : Bool)
    (hpc : src.drop pc = close :: src.drop p1) (ht : rangesTrack L src pos pc ok) :
    rangesTrack L src pos (scanRange L src p1).2.2.2
      (decide ((scanRange L src p1).1 ≤ (scanRange L src p1).2.1) && ok) := by
  obtain ⟨c1, c2, c3, c4⟩ := isCloser_token close hclose
  have hw := writtenRanges_token L close (src.drop p1) c1 c2 c3 c4 _ _
    (by rw [if_pos hclose, scanRange_rangeAfterCloser L src p1])
  rw [← hpc] at hw
  rw [Bool.and_comm]
  exact rangesTrack_trans L src _ _ _ _ _ ht (rangesTrack_one L src pc _ _ hw)

theorem scanAltGroup_track (L : Lib) (src : List Rune) (sn : Nat → Option Scanned)
    (hsn : ∀ pos g pos1, sn pos = some (some g, none, pos1) →
      rangesTrack L src pos pos1 g.rangesOK)
    (pos : Nat) (g : Generator) (e : Option Error) (pos1 : Nat)
    (h : scanAltGroup L src sn pos = some (some g, e, pos1)) :
    rangesTrack L src pos pos1 g.rangesOK := by
  unfold scanAltGroup at h
  split at h
  · simp at h
  · rename_i alt _ p1 hl
    obtain ⟨pc, ok, hpc, ht, hok⟩ :=
      scanGroupLoop_track L _ src (by decide) sn hsn _ _ [] _ _ _ hl
    have key := rangesTrack_closer L src (chr ']') (by decide) pos pc p1 ok hpc ht
    rcases hsr : scanRange L src p1 with ⟨mn, mx, er, p2⟩
    rw [hsr] at h key
    simp only [Option.some.injEq, Prod.mk.injEq] at h
    obtain ⟨h1, _, h3⟩ := h
    subst h1; subst h3
    simp only [rangesOKList, Bool.true_and] at hok
    simpa [Generator.rangesOK, hok] using key
  · simp at h

theorem scanSeqGroup_track (L : Lib) (src : List Rune) (sn : Nat → Option Scanned)
    (hsn : ∀ pos g pos1, sn pos = some (some g, none, pos1) →
      rangesTrack L src pos pos1 g.rangesOK)
    (pos : Nat) (g : Generator) (e : Option Error) (pos1 : Nat)
    (h : scanSeqGroup L src sn pos = some (some g, e, pos1)) :
    rangesTrack L src pos pos1 g.rangesOK := by
  unfold scanSeqGroup at h
  split at h
  · simp at h
  · rename_i seq _ p1 hl
    obtain ⟨pc, ok, hpc, ht, hok⟩ :=
      scanGroupLoop_track L _ src (by decide) sn hsn _ _ [] _ _ _ hl
    have key := rangesTrack_closer L src (chr ')') (by decide) pos pc p1 ok hpc ht
    rcases hsr : scanRange L src p1 with ⟨mn, mx, er, p2⟩
    rw [hsr] at h key
    simp only [Option.some.injEq, Prod.mk.injEq] at h
    obtain ⟨h1, _, h3⟩ := h
    subst h1; subst h3
    simp only [rangesOKList, Bool.true_and] at hok
    simpa [Generator.rangesOK, hok] using key
  · simp at h

theorem scanGroupLoop_error (close : Rune) (src : List Rune) (sn : Nat → Option Scanned) :
    ∀ (k pos : Nat) (acc : List Generator) (e : Option Error) (pos1 : Nat),
      scanGroupLoop close src sn k pos acc = some (none, e, pos1) → e ≠ none := by
  intro k
  induction k with
  | zero => intro pos acc e pos1 h; simp [scanGroupLoop] at h
  | succ k ih =>
    intro pos acc e pos1 h
    rw [scanGroupLoop] at h
    split at h
    · simp at h
    · split at h
      · simp at h
      · simp only [Option.some.injEq, Prod.mk.injEq, true_and] at h
        rw [← h.1]
        simp
      · simp at h
      · exact ih _ _ _ _ h

theorem scanAltGroup_error (L : Lib) (src : List Rune) (sn : Nat → Option Scanned)
    (pos : Nat) (e : Option Error) (pos1 : Nat)
    (h : scanAltGroup L src sn pos = some (none, e, pos1)) : e ≠ none := by
  unfold scanAltGroup at h
  split at h
  · simp at h
  · simp at h
  · rename_i err p1 hl
    simp only [Option.some.injEq, Prod.mk.injEq, true_and] at h
    rw [← h.1]
    exact scanGroupLoop_error _ src sn _ _ _ _ _ hl

theorem scanSeqGroup_error (L : Lib) (src : List Rune) (sn : Nat → Option Scanned)
    (pos : Nat) (e : Option Error) (pos1 : Nat)
    (h : scanSeqGroup L src sn pos = some (none, e, pos1)) : e ≠ none := by
  unfold scanSeqGroup at h
  split at h
  · simp at h
  · simp at h
  · rename_i err p1 hl
    simp only [Option.some.injEq, Prod.mk.injEq, true_and] at h
    rw [← h.1]
    exact scanGroupLoop_error _ src sn _ _ _ _ _ hl

theorem scanNext_cons (L : Lib) (src : List Rune) (fuel pos : Nat) (b : Bool) (c : Rune)
    (rest : List Rune) (hd : src.drop pos = c :: rest) :
    scanNext L src (fuel + 1) pos b =
      if c = chr '\t' ∨ c = chr ' ' then scanNext L src fuel (pos + 1) b
      else if c = chr '\\' then scanNext L src fuel (next src (pos + 1)).2 false
      else if c = chr '[' then
        scanAltGroup L src (fun p => scanNext L src fuel p false) (pos + 1)
      else if c = chr '(' then
        scanSeqGroup L src (fun p => scanNext L src fuel p false) (pos + 1)
      else if c = chr '$' then some (scanProduction L src (pos + 1))
      else if c = EOF then
        if !b then some (none, some Error.eofError, pos + 1) else some (none, none, pos + 1)
      else
        some (some (Generator.particle (scanRange L src (pos + 1)).1
          (scanRange L src (pos + 1)).2.1 c), (scanRange L src (pos + 1)).2.2.1,
          (scanRange L src (pos + 1)).2.2.2) := by
  rw [scanNext, (drop_cons_facts src pos c rest hd).2.2.1]

/-- The parser and the text agree on the ranges: a node that `scanNext` returns
without an error has its ranges, and those of the nodes below it, in order exactly
when the ranges written in the text it consumed are; and where `scanNext` meets the
end of the input the text holds no further token. -/
theorem scanNext_track (L : Lib) (src : List Rune) :
    ∀ (fuel pos : Nat) (b : Bool),
      (∀ g pos1, scanNext L src fuel pos b = some (some g, none, pos1) →
        rangesTrack L src pos pos1 g.rangesOK)
      ∧ (∀ pos1, scanNext L src fuel pos b = some (none, none, pos1) →
        writtenRanges L (src.drop pos) = some []) := by
  intro fuel
  induction fuel with
  | zero =>
    intro pos b
    constructor
    · intro g pos1 h; simp [scanNext] at h
    · intro pos1 h; simp [scanNext] at h
  | succ fuel ih =>
    intro pos b
    rcases hd : src.drop pos with _ | ⟨c, rest⟩
    · obtain ⟨_, _, hn⟩ := drop_nil_facts src pos hd
      constructor
      · intro g pos1 h
        rw [scanNext, hn] at h
        have e1 : ¬ (EOF = chr '\t' ∨ EOF = chr ' ') := by decide
        have e2 : ¬ EOF = chr '\\' := by decide
        have e3 : ¬ EOF = chr '[' := by decide
        have e4 : ¬ EOF = chr '(' := by decide
        have e5 : ¬ EOF = chr '$' := by decide
        simp only [e1, e2, e3, e4, e5, if_false, if_true] at h
        split at h <;> simp at h
      · intro pos1 _
        rfl
    · obtain ⟨hlt, hp, hn, hr⟩ := drop_cons_facts src pos c rest hd
      have hstep := scanNext_cons L src fuel pos b c rest hd
      by_cases h1 : c = chr '\t' ∨ c = chr ' '
      · have hsk : writtenRanges L (c :: rest) = writtenRanges L rest :=
          writtenRanges_skip L c rest (h1.elim Or.inl (fun h => Or.inr (Or.inl h)))
        rw [if_pos h1] at hstep
        rw [hstep]
        obtain ⟨i1, i2⟩ := ih (pos + 1) b
        rw [hr] at i2
        constructor
        · intro g pos1 h
          exact rangesTrack_of_eq L src pos (pos + 1) pos1 _ (by rw [hd, hr]; exact hsk)
            (i1 g pos1 h)
        · intro pos1 h
          rw [hsk]
          exact i2 pos1 h
      · by_cases h2 : c = chr '\\'
        · rw [if_neg h1, if_pos h2] at hstep
          rw [hstep]
          obtain ⟨i1, i2⟩ := ih (next src (pos + 1)).2 false
          have hdn : src.drop (next src (pos + 1)).2 = rest.drop 1 := by
            rw [drop_next, hr]
          rw [hdn] at i2
          have hsk : writtenRanges L (c :: rest) = writtenRanges L (rest.drop 1) := by
            rw [h2]; exact writtenRanges_escape L rest
          constructor
          · intro g pos1 h
            exact rangesTrack_of_eq L src pos _ pos1 _ (by rw [hd, hdn]; exact hsk)
              (i1 g pos1 h)
          · intro pos1 h
            rw [hsk]
            exact i2 pos1 h
        · by_cases h3 : c = chr '['
          · have hsk : writtenRanges L (c :: rest) = writtenRanges L rest :=
              writtenRanges_skip L c rest (Or.inr (Or.inr (Or.inl h3)))
            rw [if_neg h1, if_neg h2, if_pos h3] at hstep
            rw [hstep]
            constructor
            · intro g pos1 h
              exact rangesTrack_of_eq L src pos (pos + 1) pos1 _ (by rw [hd, hr]; exact hsk)
                (scanAltGroup_track L src _ (fun p g p1 hh => (ih p false).1 g p1 hh)
                  _ _ _ _ h)
            · intro pos1 h
              exact absurd rfl (scanAltGroup_error L src _ _ _ _ h)
          · by_cases h4 : c = chr '('
            · have hsk : writtenRanges L (c :: rest) = writtenRanges L rest :=
                writtenRanges_skip L c rest (Or.inr (Or.inr (Or.inr h4)))
              rw [if_neg h1, if_neg h2, if_neg h3, if_pos h4] at hstep
              rw [hstep]
              constructor
              · intro g pos1 h
                exact rangesTrack_of_eq L src pos (pos + 1) pos1 _
                  (by rw [hd, hr]; exact hsk)
                  (scanSeqGroup_track L src _ (fun p g p1 hh => (ih p false).1 g p1 hh)
                    _ _ _ _ h)
              · intro pos1 h
                exact absurd rfl (scanSeqGroup_error L src _ _ _ _ h)
            · by_cases h5 : c = chr '$'
              · rw [if_neg h1, if_neg h2, if_neg h3, if_neg h4, if_pos h5] at hstep
                rw [hstep]
                constructor
                · intro g pos1 h
                  simp only [Option.some.injEq] at h
                  obtain ⟨t, mn, mx, name, hs, hrr, hg⟩ :=
                    scanProduction_skipIdent L src (pos + 1) g pos1 h
                  rw [hr] at hs
                  have hw := writtenRanges_production L rest t (mn, mx) _ hs hrr
                  have := rangesTrack_one L src pos pos1 (mn, mx)
                    (by rw [hd, h5]; exact hw)
                  rw [hg]
                  simpa [Generator.rangesOK] using this
                · intro pos1 h
                  simp only [Option.some.injEq] at h
                  have := (scanProduction_bounds L src (pos + 1)).2.2.2
                  rw [h] at this
                  simp at this
              · by_cases h6 : c = EOF
                · rw [if_neg h1, if_neg h2, if_neg h3, if_neg h4, if_neg h5, if_pos h6] at hstep
                  rw [hstep]
                  constructor
                  · intro g pos1 h
                    split at h <;> simp at h
                  · intro pos1 _
                    rw [h6]
                    exact writtenRanges_end L rest
                · rw [if_neg h1, if_neg h2, if_neg h3, if_neg h4, if_neg h5, if_neg h6] at hstep
                  rw [hstep]
                  constructor
                  · intro g pos1 h
                    simp only [Option.some.injEq, Prod.mk.injEq] at h
                    obtain ⟨hg, he, hp1⟩ := h
                    have hsr : scanRange L src (pos + 1) =
                        ((scanRange L src (pos + 1)).1, (scanRange L src (pos + 1)).2.1,
                          none, pos1) := by
                      rw [← he, ← hp1]
                    have hrr : (if isCloser c then some (rangeAfterCloser L rest)
                        else readRange rest) =
                        some (((scanRange L src (pos + 1)).1, (scanRange L src (pos + 1)).2.1),
                          src.drop pos1) := by
                      split
                      · have := scanRange_rangeAfterCloser L src (pos + 1)
                        rw [hr, hp1] at this
                        rw [this]
                      · have := scanRange_readRange L src (pos + 1) _ _ pos1 hsr
                        rw [hr] at this
                        exact this
                    have hw := writtenRanges_token L c rest h6
                      (by
                        rintro (h | h | h | h)
                        · exact h1 (Or.inl h)
                        · exact h1 (Or.inr h)
                        · exact h3 h
                        · exact h4 h) h2 h5 _ _ hrr
                    have := rangesTrack_one L src pos pos1 _ (by rw [hd]; exact hw)
                    rw [← hg]
                    simpa [Generator.rangesOK] using this
                  · intro pos1 h
                    simp at h

theorem makePatternLoop_track (L : Lib) (src : List Rune) :
    ∀ (k pos : Nat) (acc seq : List Generator),
      makePatternLoop L src k pos acc = some (seq, none) →
      ∃ rs, writtenRanges L (src.drop pos) = some rs
        ∧ (rangesOKList seq = true ↔ (rangesOKList acc = true ∧ ∀ r ∈ rs, r.1 ≤ r.2)) := by
  intro k
  induction k with
  | zero => intro pos acc seq h; simp [makePatternLoop] at h
  | succ k ih =>
    intro pos acc seq h
    rw [makePatternLoop] at h
    split at h
    · simp at h
    · simp at h
    · rename_i p1 hs
      simp only [Option.some.injEq, Prod.mk.injEq, and_true] at h
      subst h
      exact ⟨[], (scanNext_track L src _ pos true).2 p1 hs, by simp⟩
    · rename_i gen p1 hs
      obtain ⟨rs1, hok, hw⟩ := (scanNext_track L src _ pos true).1 gen p1 hs
      obtain ⟨rs, hws, hiff⟩ := ih p1 (acc ++ [gen]) seq h
      refine ⟨rs1 ++ rs, ?_, ?_⟩
      · rw [hw, hws]
        rfl
      · rw [hiff, rangesOKList_append]
        simp only [rangesOKList, Bool.and_true, Bool.and_eq_true, hok, List.mem_append]
        constructor
        · rintro ⟨⟨a, b⟩, c⟩
          exact ⟨a, fun r hr => hr.elim (b r) (c r)⟩
        · rintro ⟨a, b⟩
          exact ⟨⟨a, fun r hr => b r (Or.inl hr)⟩, fun r hr => b r (Or.inr hr)⟩

theorem readRange_no_brace (t : List Rune) (r : Nat × Nat) (t1 : List Rune)
    (h : chr '\x7b' ∉ t) (hr : readRange t = some (r, t1)) :
    r.1 ≤ r.2 ∧ chr '\x7b' ∉ t1 := by
  cases t with
  | nil =>
    simp only [readRange, Option.some.injEq, Prod.mk.injEq] at hr
    rw [← hr.1, ← hr.2]
    exact ⟨le_refl _, h⟩
  | cons c rest =>
    have hc : ¬ c = chr '\x7b' := fun e => h (e ▸ List.mem_cons_self _ _)
    unfold readRange at hr
    simp only [] at hr
    by_cases hq : c = chr '?'
    · rw [if_pos hq] at hr
      simp only [Option.some.injEq, Prod.mk.injEq] at hr
      rw [← hr.1, ← hr.2]
      exact ⟨by decide, fun hm => h (List.mem_cons_of_mem _ hm)⟩
    · rw [if_neg hq, if_neg hc] at hr
      simp only [Option.some.injEq, Prod.mk.injEq] at hr
      rw [← hr.1, ← hr.2]
      exact ⟨le_refl _, h⟩

theorem tokenRange_no_brace (L : Lib) (c : Rune) (t : List Rune) (r : Nat × Nat)
    (t1 : List Rune) (h : chr '\x7b' ∉ t)
    (hr : (if isCloser c then some (rangeAfterCloser L t) else readRange t) = some (r, t1)) :
    r.1 ≤ r.2 ∧ chr '\x7b' ∉ t1 := by
  split at hr
  · cases hrr : readRange t with
    | none =>
      obtain ⟨rest, ht⟩ := readRange_none_cons t hrr
      exact absurd (ht ▸ List.mem_cons_self _ _) h
    | some rt =>
      unfold rangeAfterCloser at hr
      rw [hrr] at hr
      simp only [Option.some.injEq] at hr
      rw [hr] at hrr
      exact readRange_no_brace t r t1 h hrr
  · exact readRange_no_brace t r t1 h hr

theorem writtenRangesFrom_no_brace (L : Lib) :
    ∀ (k : Nat) (t : List Rune) (rs : List (Nat × Nat)), chr '\x7b' ∉ t →
      writtenRangesFrom L k t = some rs → ∀ r ∈ rs, r.1 ≤ r.2 := by
  intro k
  induction k with
  | zero =>
    intro t rs _ h
    simp only [writtenRangesFrom, Option.some.injEq] at h
    rw [← h]
    simp
  | succ k ih =>
    intro t rs hb h
    cases t with
    | nil =>
      simp only [writtenRangesFrom, Option.some.injEq] at h
      rw [← h]
      simp
    | cons c rest =>
      have hrest : chr '\x7b' ∉ rest := fun hm => hb (List.mem_cons_of_mem _ hm)
      rw [writtenRangesFrom] at h
      split at h
      · simp only [Option.some.injEq] at h
        rw [← h]
        simp
      · split at h
        · exact ih rest rs hrest h
        · split at h
          · exact ih _ rs (fun hm => hrest (List.mem_of_mem_drop hm)) h
          · split at h
            · simp at h
            · rename_i text htext
              have htb : chr '\x7b' ∉ text := by
                split at htext
                · cases rest with
                  | nil => simp [skipIdent] at htext
                  | cons d rest1 =>
                    simp only [skipIdent] at htext
                    split at htext
                    · simp only [Option.some.injEq] at htext
                      rw [← htext]
                      exact fun hm => hrest (List.mem_cons_of_mem _
                        ((List.dropWhile_sublist _).subset hm))
                    · simp at htext
                · simp only [Option.some.injEq] at htext
                  rw [← htext]
                  exact hrest
              split at h
              · simp at h
              · rename_i r text1 hrd
                obtain ⟨hr1, hr2⟩ := tokenRange_no_brace L c text r text1 htb hrd
                split at h
                · simp at h
                · rename_i rs1 hrs
                  simp only [Option.some.injEq] at h
                  rw [← h]
                  intro x hx
                  rcases List.mem_cons.mp hx with rfl | hx
                  · exact hr1
                  · exact ih text1 rs1 hr2 hrs x hx

/-- Counterexample to claim C9 as stated: the source `a{3,1}` compiles without error
to a Particle with the range `{3,1}`, so not every compiled AST has `min ≤ max` at
every node. -/
theorem inverted_range_compiles :
    ∃ p, MakePattern exampleLib (runes "a\x7b3,1\x7d") = some (p, none)
      ∧ p.gen = Generator.seqGroup 1 1 [Generator.particle 3 1 (chr 'a')]
      ∧ p.gen.rangesOK = false
      ∧ ¬ (3 ≤ 1) :=
  ⟨{ src := runes "a\x7b3,1\x7d",
     gen := Generator.seqGroup 1 1 [Generator.particle 3 1 (chr 'a')] },
    rfl, rfl, by decide, by decide⟩

/-- Claim C9, amended. `MakePattern` stores the two bounds of an explicit range as
they are written and does not compare them. For every source that compiles without
error, every node of the AST, at any nesting depth, carries a range with `min ≤ max`
if and only if every range suffix written in the source text after a token has its
first bound at most its second. `writtenRanges` reads the suffixes off the text: `?`,
no suffix, or `{a,b}` after a literal, a production reference or a closing bracket;
after a closing bracket also what is left of a malformed explicit range, which
`MakePattern` accepts there. In particular every node of the AST of a source without
an opening brace carries a range with `min ≤ max`. -/
theorem ranges_in_order_iff_written_in_order (L : Lib) (src : List Rune) (p : Pattern)
    (hc : MakePattern L src = some (p, none)) :
    (∃ rs, writtenRanges L src = some rs
      ∧ (p.gen.rangesOK = true ↔ ∀ r ∈ rs, r.1 ≤ r.2))
    ∧ (chr '\x7b' ∉ src → p.gen.rangesOK = true) := by
  have key : ∃ rs, writtenRanges L src = some rs
      ∧ (p.gen.rangesOK = true ↔ ∀ r ∈ rs, r.1 ≤ r.2) := by
    unfold MakePattern at hc
    split at hc
    · simp at hc
    · rename_i seq err hl
      simp only [Option.some.injEq, Prod.mk.injEq] at hc
      obtain ⟨hp, he⟩ := hc
      subst he
      obtain ⟨rs, hw, hiff⟩ := makePatternLoop_track L src _ 0 [] seq hl
      simp only [List.drop_zero] at hw
      refine ⟨rs, hw, ?_⟩
      rw [← hp]
      simpa [Generator.rangesOK, rangesOKList] using hiff
  refine ⟨key, fun hb => ?_⟩
  obtain ⟨rs, hw, hiff⟩ := key
  exact hiff.mpr (writtenRangesFrom_no_brace L _ src rs hb hw)

/-- Witness of `ranges_in_order_iff_written_in_order`. In the source
`{3,1}[a{1,2}{3,1}]?\{5,1}` the only range suffixes are `{1,2}` and `?`: the text
`{3,1}` at the start and after `{1,2}`, and the text `5,1}` after the escape, are
literals; every node of its AST has its range in order. So has every node of the AST
of `[ab]{,3}`, where the malformed suffix leaves the range `{0,1}`. In `a{3,1}` the
range `{3,1}` is written after the token `a`, and the AST has a node with its range
not in order. -/
theorem ranges_in_order_iff_written_in_order_witness :
    (MakePattern exampleLib (runes "\x7b3,1\x7d[a\x7b1,2\x7d\x7b3,1\x7d]?\\\x7b5,1\x7d") =
        some ({ src := runes "\x7b3,1\x7d[a\x7b1,2\x7d\x7b3,1\x7d]?\\\x7b5,1\x7d",
                gen := Generator.seqGroup 1 1
                  [Generator.particle 1 1 (chr '\x7b'), Generator.particle 1 1 (chr '3'),
                    Generator.particle 1 1 (chr ','), Generator.particle 1 1 (chr '1'),
                    Generator.particle 1 1 (chr '\x7d'),
                    Generator.altGroup 0 1
                      [Generator.particle 1 2 (chr 'a'), Generator.particle 1 1 (chr '\x7b'),
                        Generator.particle 1 1 (chr '3'), Generator.particle 1 1 (chr ','),
                        Generator.particle 1 1 (chr '1'), Generator.particle 1 1 (chr '\x7d')],
                    Generator.particle 1 1 (chr '5'), Generator.particle 1 1 (chr ','),
                    Generator.particle 1 1 (chr '1'), Generator.particle 1 1 (chr '\x7d')] },
          none)
      ∧ writtenRanges exampleLib
          (runes "\x7b3,1\x7d[a\x7b1,2\x7d\x7b3,1\x7d]?\\\x7b5,1\x7d") =
        some [(1, 1), (1, 1), (1, 1), (1, 1), (1, 1), (1, 2), (1, 1), (1, 1), (1, 1),
          (1, 1), (1, 1), (0, 1), (1, 1), (1, 1), (1, 1), (1, 1)]
      ∧ (Generator.seqGroup 1 1
          [Generator.particle 1 1 (chr '\x7b'), Generator.particle 1 1 (chr '3'),
            Generator.particle 1 1 (chr ','), Generator.particle 1 1 (chr '1'),
            Generator.particle 1 1 (chr '\x7d'),
            Generator.altGroup 0 1
              [Generator.particle 1 2 (chr 'a'), Generator.particle 1 1 (chr '\x7b'),
                Generator.particle 1 1 (chr '3'), Generator.particle 1 1 (chr ','),
                Generator.particle 1 1 (chr '1'), Generator.particle 1 1 (chr '\x7d')],
            Generator.particle 1 1 (chr '5'), Generator.particle 1 1 (chr ','),
            Generator.particle 1 1 (chr '1'),
            Generator.particle 1 1 (chr '\x7d')]).rangesOK = true)
    ∧ (MakePattern exampleLib (runes "[ab]\x7b,3\x7d") =
        some ({ src := runes "[ab]\x7b,3\x7d",
                gen := Generator.seqGroup 1 1
                  [Generator.altGroup 0 1
                      [Generator.particle 1 1 (chr 'a'), Generator.particle 1 1 (chr 'b')],
                    Generator.particle 1 1 (chr ','), Generator.particle 1 1 (chr '3'),
                    Generator.particle 1 1 (chr '\x7d')] }, none)
      ∧ writtenRanges exampleLib (runes "[ab]\x7b,3\x7d") =
        some [(1, 1), (1, 1), (0, 1), (1, 1), (1, 1), (1, 1)]
      ∧ (Generator.seqGroup 1 1
          [Generator.altGroup 0 1
              [Generator.particle 1 1 (chr 'a'), Generator.particle 1 1 (chr 'b')],
            Generator.particle 1 1 (chr ','), Generator.particle 1 1 (chr '3'),
            Generator.particle 1 1 (chr '\x7d')]).rangesOK = true)
    ∧ (MakePattern exampleLib (runes "a\x7b3,1\x7d") =
        some ({ src := runes "a\x7b3,1\x7d",
                gen := Generator.seqGroup 1 1 [Generator.particle 3 1 (chr 'a')] }, none)
      ∧ writtenRanges exampleLib (runes "a\x7b3,1\x7d") = some [(3, 1)]
      ∧ ¬ (Generator.seqGroup 1 1 [Generator.particle 3 1 (chr 'a')]).rangesOK = true) := by
  refine ⟨⟨rfl, by decide, ?_⟩, ⟨rfl, by decide, ?_⟩, ⟨rfl, by decide, ?_⟩⟩
  · obtain ⟨rs, hw, hiff⟩ := (ranges_in_order_iff_written_in_order exampleLib
      (runes "\x7b3,1\x7d[a\x7b1,2\x7d\x7b3,1\x7d]?\\\x7b5,1\x7d") _ rfl).1
    have hrs := Option.some.inj (hw.symm.trans (by decide :
      writtenRanges exampleLib (runes "\x7b3,1\x7d[a\x7b1,2\x7d\x7b3,1\x7d]?\\\x7b5,1\x7d") =
        some [(1, 1), (1, 1), (1, 1), (1, 1), (1, 1), (1, 2), (1, 1), (1, 1), (1, 1),
          (1, 1), (1, 1), (0, 1), (1, 1), (1, 1), (1, 1), (1, 1)]))
    subst hrs
    exact hiff.mpr (by decide)
  · obtain ⟨rs, hw, hiff⟩ := (ranges_in_order_iff_written_in_order exampleLib
      (runes "[ab]\x7b,3\x7d") _ rfl).1
    have hrs := Option.some.inj (hw.symm.trans (by decide :
      writtenRanges exampleLib (runes "[ab]\x7b,3\x7d") =
        some [(1, 1), (1, 1), (0, 1), (1, 1), (1, 1), (1, 1)]))
    subst hrs
    exact hiff.mpr (by decide)
  · obtain ⟨rs, hw, hiff⟩ := (ranges_in_order_iff_written_in_order exampleLib
      (runes "a\x7b3,1\x7d") _ rfl).1
    have hrs := Option.some.inj (hw.symm.trans (by decide :
      writtenRanges exampleLib (runes "a\x7b3,1\x7d") = some [(3, 1)]))
    subst hrs
    exact fun h => absurd (hiff.mp h (3, 1) (List.mem_singleton.mpr rfl)) (by decide)

end Wordgen
